import Mathlib

/-!
# pst: process tree assembly, matching and rendering

A shallow embedding of `src/pst.cpp`.  The process-wide tables of the program
(`procMap`, `childMap`, `errMap`, `skippedKernelProc`) and the standard output
are fields of one explicit `State`; every function that reads or writes them
takes the state and returns the new one.  Text written to standard output is
recorded as the sequence of `printProc` calls (record and tree-art string).

`std::map<pid_t, T>` is an association list kept sorted by key, `std::set<pid_t>`
a sorted duplicate-free list, `std::list<T>` a `List`.

The parsers work on the text they read (`List Char`, bytes as `List Nat` for
the line output); what the system answers (file contents, `errno`, uptime,
directory listings, thread records) is an argument.  A call that throws or
whose behaviour is undefined returns `none`; the renderer, where the calls
made before an exception count, sets the flag `thrown` of the state instead
and stops.  Machine integers are `Int` or `Nat` with the wrap-around written
out (`wrapInt`, `toSizeT`); binary64 values are fractions of naturals with the
rounding written out (`roundHalfEven`, `nearestDouble`).
-/

namespace Pst

/-! ## Data model -/

/-- The record `struct Proc`, with the defaults of the source. -/
structure Proc where
  failed : Bool := false
  pid : Int
  tid : Int := 0
  ppid : Int := -1
  tty : String := "?"
  cpuTime : Int := -1
  age : Int := -1
  uid : Nat := 4294967295
  pss : Int := -1
  swapPss : Int := -1
  cmdline : String := "-"
  readIO : Int := -1
  writeIO : Int := -1
deriving DecidableEq, Repr

/-- The marker `struct TreeEntry`: one per ancestor level.  Both fields are
`unsigned int` in the source; they count entries of one children list, whose
records have distinct positive 32-bit ids, so the arithmetic never wraps. -/
structure TreeEntry where
  siblingCount : Nat
  curSibling : Nat
deriving DecidableEq, Repr

/-- One call of `printProc(proc, art)`.  `own` is the call for the record taken
from `procMap` (source line 1079), `thread` the call for a thread record read
from the task directory (source line 1113). -/
inductive Line where
  | own (proc : Proc) (art : String)
  | thread (proc : Proc) (art : String)
deriving DecidableEq, Repr

/-- The mutable globals of the program that the assembler, the matcher and the
renderer share, and what has happened on standard output.  `out` holds the
calls of `printProc` made so far, in order.  `thrown` is set once a call of
`printProc` has not returned because `from_bytes` threw `std::range_error`:
nothing catches it, so the program ends there; the row of that call, the last
of `out`, is not written, and no statement after the call is executed. -/
structure State where
  procMap : List (Int × Proc) := []
  childMap : List (Int × List Proc) := []
  errMap : List (Int × String) := []
  skippedKernelProc : List Int := []
  out : List Line := []
  thrown : Bool := false
deriving DecidableEq, Repr

/-! ## `std::map` and `std::set` keyed by `pid_t` -/

/-- The lookup `m.find(k)`: the value stored under `k`, if any. -/
def mapFind {β : Type} : List (Int × β) → Int → Option β
  | [], _ => none
  | (k', v) :: rest, k => if k' = k then some v else mapFind rest k

/-- The assignment `m[k] = v`: replaces the value under `k` or inserts the pair
at its place in key order. -/
def mapSet {β : Type} : List (Int × β) → Int → β → List (Int × β)
  | [], k, v => [(k, v)]
  | (k', v') :: rest, k, v =>
    if k < k' then (k, v) :: (k', v') :: rest
    else if k = k' then (k, v) :: rest
    else (k', v') :: mapSet rest k v

/-- The removal `m.erase(k)`; keys are unique, so at most one pair goes. -/
def mapErase {β : Type} (m : List (Int × β)) (k : Int) : List (Int × β) :=
  m.filter (fun kv => decide (kv.1 ≠ k))

/-- The insertion `s.insert(k)` into a `std::set<pid_t>`. -/
def setInsert : List Int → Int → List Int
  | [], k => [k]
  | k' :: rest, k =>
    if k < k' then k :: k' :: rest
    else if k = k' then k' :: rest
    else k' :: setInsert rest k

/-! ## Tree art -/

/-- The six glyph globals `ART_*`. -/
structure Art where
  upRight : String
  vertRight : String
  horiz : String
  downHoriz : String
  horizLeft : String
  vert : String
deriving DecidableEq, Repr

/-- The glyph part of `initVars`: the ASCII set is used when asked for or when
standard output is not a terminal, the box-drawing set otherwise. -/
def initVars (artASCII isatty : Bool) : Art :=
  let artASCII := if !artASCII && !isatty then true else artASCII
  { upRight := if artASCII then "`" else "╰"
    vertRight := if artASCII then "|" else "├"
    horiz := if artASCII then "-" else "─"
    downHoriz := if artASCII then "-" else "┬"
    horizLeft := if artASCII then "-" else "╴"
    vert := if artASCII then "|" else "│" }

/-- The loop of `printPidTree` over the markers (source lines 1056-1076),
started with `iter` and the two strings built so far; returns the tree art of
the record and the tree art its thread lines start with. -/
def artLoop (art : Art) (hasChildren : Bool) (size : Nat) :
    List TreeEntry → Nat → String × String → String × String
  | [], _, acc => acc
  | te :: rest, iter, (pre, tidPre) =>
    let last := te.siblingCount == te.curSibling
    if iter == size then
      artLoop art hasChildren size rest (iter + 1)
        (pre ++ (if last then art.upRight else art.vertRight) ++ art.horiz
            ++ (if hasChildren then art.downHoriz else art.horiz) ++ art.horizLeft,
         tidPre ++ (if last then " " else art.vert) ++ " "
            ++ (if hasChildren then art.vert else " ") ++ " ")
    else
      artLoop art hasChildren size rest (iter + 1)
        (pre ++ ((if last then " " else art.vert) ++ " "),
         tidPre ++ ((if last then " " else art.vert) ++ " "))

/-- The strings `prefix` and `tidPrefix` of `printPidTree`. -/
def treeArt (art : Art) (hasChildren : Bool) (tree : List TreeEntry) : String × String :=
  artLoop art hasChildren tree.length tree 1 ("", "")

/-- The loop over the thread records (source lines 1102-1114): one line per
thread, the last with the corner unless child lines of a root follow. -/
def threadLines (art : Art) (hasChildren treeEmpty : Bool) (tidPre : String) (size : Nat) :
    List Proc → Nat → List Line
  | [], _ => []
  | proc :: rest, i =>
    let threadPre :=
      (if i + 1 == size then
        tidPre ++ (if hasChildren && treeEmpty then art.vertRight else art.upRight)
      else tidPre ++ art.vertRight) ++ art.horizLeft
    Line.thread proc threadPre :: threadLines art hasChildren treeEmpty tidPre size rest (i + 1)

/-! ## Line output -/

/-- What the lead byte of a UTF-8 sequence announces: the number of UTF-16
code units of the character and the admissible range of each following byte
(Unicode, well-formed UTF-8 byte sequences); `none` for a byte that starts no
sequence. -/
def leadByte (b : Nat) : Option (Nat × List (Nat × Nat)) :=
  if b < 0x80 then some (1, [])
  else if b < 0xC2 then none
  else if b < 0xE0 then some (1, [(0x80, 0xBF)])
  else if b = 0xE0 then some (1, [(0xA0, 0xBF), (0x80, 0xBF)])
  else if b = 0xED then some (1, [(0x80, 0x9F), (0x80, 0xBF)])
  else if b < 0xF0 then some (1, [(0x80, 0xBF), (0x80, 0xBF)])
  else if b = 0xF0 then some (2, [(0x90, 0xBF), (0x80, 0xBF), (0x80, 0xBF)])
  else if b < 0xF4 then some (2, [(0x80, 0xBF), (0x80, 0xBF), (0x80, 0xBF)])
  else if b = 0xF4 then some (2, [(0x80, 0x8F), (0x80, 0xBF), (0x80, 0xBF)])
  else none

/-- The length of `WCHAR_CONVERTER.from_bytes(s)`: the number of UTF-16 code
units of the UTF-8 text `s`; `none` when the conversion throws
(`std::range_error`) because `s` is no well-formed UTF-8.  `pending` holds the
ranges of the bytes that still belong to the current character. -/
def wideLength : List (Nat × Nat) → List Nat → Option Nat
  | [], [] => some 0
  | _ :: _, [] => none
  | [], b :: rest =>
    match leadByte b with
    | none => none
    | some (units, pending) =>
      match wideLength pending rest with
      | none => none
      | some n => some (units + n)
  | (lo, hi) :: pending, b :: rest =>
    if lo ≤ b ∧ b ≤ hi then wideLength pending rest else none

/-- The value of an `int` converted to `size_t`, and of a `size_t` result
(64 bits). -/
def toSizeT (v : Int) : Nat := (v % (2 : Int) ^ 64).toNat

/-- The output step of `printProc` for the finished line `s` (a byte string):
the bytes written before the line end, `none` when `from_bytes` throws.
`s.substr(0, n)` is the first `min n s.length` bytes. -/
def printProc (noTrunc : Bool) (TERM_COLS : Int) (s : List Nat) : Option (List Nat) :=
  if noTrunc then some s
  else
    match wideLength [] s with
    | none => none
    | some ws => some (s.take (toSizeT (TERM_COLS + (s.length : Int) - (ws : Int))))

/-- The display columns a byte string occupies when every encoded character
counts as one column: the bytes that are no continuation byte. -/
def columns (s : List Nat) : Nat := s.countP (fun b => !(0x80 ≤ b && b ≤ 0xBF))

/-- The UTF-8 bytes of a character. -/
def utf8Char (c : Char) : List Nat :=
  let n := c.toNat
  if n < 0x80 then [n]
  else if n < 0x800 then [0xC0 + n / 64, 0x80 + n % 64]
  else if n < 0x10000 then [0xE0 + n / 4096, 0x80 + n / 64 % 64, 0x80 + n % 64]
  else [0xF0 + n / 262144, 0x80 + n / 4096 % 64, 0x80 + n / 64 % 64, 0x80 + n % 64]

/-- The UTF-8 bytes of a text. -/
def utf8 (s : String) : List Nat := s.toList.flatMap utf8Char

/-! ## Renderer -/

/-- What `printPidTree` reads besides the tables: the flags `noTree` and
`skipThreads`, the glyph globals, and `task pid`, the records of the threads
found under the task directory of `pid` at render time that did not fail, in
enumeration order; and what `printProc` reads: the flag `noTrunc`, the global
`TERM_COLS`, and `line proc art`, the bytes of the finished line `line.str()`
that `printProc(proc, art)` builds from the columns shown (the formatting of
the columns is not modelled; by default the line is the command column
alone). -/
structure Env where
  noTree : Bool := false
  skipThreads : Bool := true
  art : Art := initVars false true
  task : Int → List Proc := fun _ => []
  noTrunc : Bool := false
  TERM_COLS : Int := 80
  line : Proc → String → List Nat := fun proc art => utf8 ("  " ++ art ++ proc.cmdline)

/-- The record and the tree art of a call of `printProc`. -/
def Line.proc : Line → Proc
  | Line.own proc _ => proc
  | Line.thread proc _ => proc

/-- The tree art of a call of `printProc`. -/
def Line.art : Line → String
  | Line.own _ art => art
  | Line.thread _ art => art

/-- Whether the call `printProc(proc, art)` returns: it does not when
`from_bytes` throws on the finished line (source lines 1028-1034). -/
def prints (env : Env) (proc : Proc) (art : String) : Bool :=
  (printProc env.noTrunc env.TERM_COLS (env.line proc art)).isSome

/-- One call of `printProc`: the call is recorded, and `thrown` is set when it
does not return. -/
def callPrintProc (env : Env) (l : Line) (st : State) : State :=
  { st with out := st.out ++ [l], thrown := st.thrown || !prints env l.proc l.art }

/-- The rows written: the calls of `printProc` that returned. -/
def State.rows (st : State) : List Line :=
  if st.thrown then st.out.dropLast else st.out

/-- Calls of `printProc` in a row, up to the first that throws. -/
def printLines (env : Env) : List Line → State → State
  | [], st => st
  | l :: rest, st =>
    let st1 := callPrintProc env l st
    if st1.thrown then st1 else printLines env rest st1

/-- The block of `printPidTree` under `if (hasParent)` (source lines
1050-1116): print the record of `pid`, erase it from `procMap`, print its
threads.  A call of `printProc` that throws ends the block (and the program)
at that call. -/
def printOwn (env : Env) (pid : Int) (tree : List TreeEntry) (hasChildren : Bool)
    (proc : Proc) (st : State) : State :=
  let arts := treeArt env.art hasChildren tree
  let st1 := callPrintProc env (Line.own proc arts.1) st
  if st1.thrown then st1
  else
    let st2 := { st1 with procMap := mapErase st1.procMap pid }
    if !env.skipThreads && pid != 2 && proc.ppid != 2 then
      let threads := env.task pid
      printLines env
        (threadLines env.art hasChildren tree.isEmpty arts.2 threads.length threads 0) st2
    else st2

/-- The statement `tree.back().curSibling++`. -/
def bumpBack : List TreeEntry → List TreeEntry
  | [] => []
  | [te] => [{ te with curSibling := te.curSibling + 1 }]
  | te :: rest => te :: bumpBack rest

/-- The loop over the children (source lines 1127-1132); `walk` is the
recursive call.  The loop ends with the call in which an exception is
thrown. -/
def printChildren (walk : Int → List TreeEntry → State → Option State) (hasParent : Bool) :
    List Proc → List TreeEntry → State → Option State
  | [], _, st => some st
  | proc :: rest, tree, st =>
    match walk proc.pid tree st with
    | none => none
    | some st1 =>
      if st1.thrown then some st1
      else printChildren walk hasParent rest (if hasParent then bumpBack tree else tree) st1

/-- The local `hasParent` of `printPidTree`: the id is still in `procMap`. -/
def hasParent (st : State) (pid : Int) : Bool :=
  (mapFind st.procMap pid).isSome

/-- The local `hasChildren` of `printPidTree`. -/
def hasChildren (env : Env) (st : State) (pid : Int) : Bool :=
  !env.noTree && (mapFind st.childMap pid).isSome

/-- The read `childMap[pid]`. -/
def childrenOf (st : State) (pid : Int) : List Proc :=
  (mapFind st.childMap pid).getD []

/-- The first half of `printPidTree` (source lines 1046-1116): the state after
the record of `pid`, if still in `procMap`, and its threads are printed, or
the state in which a call of `printProc` has thrown. -/
def ownStep (env : Env) (pid : Int) (tree : List TreeEntry) (st : State) : State :=
  match mapFind st.procMap pid with
  | some proc => printOwn env pid tree (hasChildren env st pid) proc st
  | none => st

/-- The statement `childMap.erase(pid)`. -/
def eraseChildren (st : State) (pid : Int) : State :=
  { st with childMap := mapErase st.childMap pid }

/-- The marker list handed to the children: one more marker when the record of
`pid` was printed (source lines 1124-1125). -/
def childTree (hasParent : Bool) (tree : List TreeEntry) (children : List Proc) :
    List TreeEntry :=
  if hasParent then tree ++ [{ siblingCount := children.length, curSibling := 1 }] else tree

/-- The function `printPidTree` with a bound on the recursion depth; `none`
when the bound is reached.  When a call of `printProc` has thrown, the result
is the state at that call, with `thrown` set. -/
def printPidTreeFuel (env : Env) : Nat → Int → List TreeEntry → State → Option State
  | 0, _, _, _ => none
  | fuel + 1, pid, tree, st =>
    let st1 := ownStep env pid tree st
    if st1.thrown then some st1
    else if !hasChildren env st pid then some st1
    else
      let children := childrenOf st1 pid
      printChildren (printPidTreeFuel env fuel) (hasParent st pid) children
        (childTree (hasParent st pid) tree children) (eraseChildren st1 pid)

/-- The function `printPidTree`.  Every call that recurses erases an entry of
`childMap` first, so the depth is at most the number of entries plus one. -/
def printPidTree (env : Env) (pid : Int) (tree : List TreeEntry) (st : State) : Option State :=
  printPidTreeFuel env (st.childMap.length + 1) pid tree st

/-- The loop `for (pid_t pid : pidList) printPidTree(pid, {})` of `main`, which
an exception ends. -/
def printTargets (env : Env) : List Int → State → Option State
  | [], st => some st
  | pid :: rest, st =>
    match printPidTree env pid [] st with
    | none => none
    | some st1 => if st1.thrown then some st1 else printTargets env rest st1

/-- The target set `main` uses when no target was given: every key of
`childMap` (source lines 1214-1220). -/
def allParents (st : State) : List Int :=
  st.childMap.foldl (fun s kv => setInsert s kv.1) []

/-- The rendering part of `main` (source lines 1213-1223). -/
def render (env : Env) (pidList : List Int) (st : State) : Option State :=
  printTargets env (if pidList.isEmpty then allParents st else pidList) st

/-! ## Tree assembler -/

/-- The function `createProc` for a record `proc` as the field parsers leave
it for the ids `proc.pid` and `proc.tid`.  Returns the result code and the new
state; a kernel thread is only noted, a thread or failed record is dropped, and
a record whose id is already in `procMap` is an error. -/
def createProc (skipKernel : Bool) (proc : Proc) (st : State) : Int × State :=
  if skipKernel && proc.pid == 2 then
    (0, { st with skippedKernelProc := setInsert st.skippedKernelProc proc.pid })
  else if proc.tid == 0 && skipKernel && proc.ppid == 2 then
    (0, { st with skippedKernelProc := setInsert st.skippedKernelProc proc.pid })
  else if proc.tid != 0 || proc.failed then (0, st)
  else if (mapFind st.procMap proc.pid).isSome then (1, st)
  else
    let children := (mapFind st.childMap proc.ppid).getD []
    (0, { st with procMap := mapSet st.procMap proc.pid proc,
                  childMap := mapSet st.childMap proc.ppid (children ++ [proc]) })

/-- The scan of the process directory by `main`: `createProc` on every record
in enumeration order, stopped by the first error. -/
def scanProcs (skipKernel : Bool) : List Proc → State → Int × State
  | [], st => (0, st)
  | proc :: rest, st =>
    match createProc skipKernel proc st with
    | (0, st1) => scanProcs skipKernel rest st1
    | (_, st1) => (1, st1)

/-! ## Matcher -/

/-- The text a C string function sees in `s.c_str()`: the characters before
the first NUL. -/
def cStr (s : List Char) : List Char :=
  s.takeWhile (fun c => c != Char.ofNat 0)

/-- The effect of `p = strchr(cmd, ' '); if (p) *p = 0` on the text of `cmd`. -/
def cutAtSpace (cmd : List Char) : List Char :=
  cmd.takeWhile (fun c => c != ' ')

/-- Whether `needle` starts `hay`. -/
def startsWith : List Char → List Char → Bool
  | _, [] => true
  | [], _ :: _ => false
  | h :: hay, n :: needle => h == n && startsWith hay needle

/-- The test `strstr(hay, needle) != NULL`: `needle` occurs in `hay` at some
position. -/
def strstr : List Char → List Char → Bool
  | [], needle => startsWith [] needle
  | h :: hay, needle => startsWith (h :: hay) needle || strstr hay needle

/-- The test of `matchCmd` on one record (source lines 894-903). -/
def cmdMatches (exeOnly : Bool) (str : String) (proc : Proc) : Bool :=
  let cmd := cStr proc.cmdline.toList
  let cmd := if exeOnly then cutAtSpace cmd else cmd
  strstr cmd (cStr str.toList)

/-- The function `matchCmd`: the target set after the records of `procMap`
matching the token `str` are added; `myPid` is the result of `getpid()`. -/
def matchCmd (exeOnly : Bool) (myPid : Int) (str : String) (st : State)
    (pidList : List Int) : List Int :=
  st.procMap.foldl
    (fun acc pair =>
      if pair.2.pid == myPid then acc
      else if cmdMatches exeOnly str pair.2 then setInsert acc pair.2.pid
      else acc)
    pidList

/-! ## Notions used to state the properties -/

/-- The records of the `own` lines of an output, in order. -/
def ownProcs : List Line → List Proc
  | [] => []
  | Line.own proc _ :: rest => proc :: ownProcs rest
  | Line.thread _ _ :: rest => ownProcs rest

/-- The record `r` is a descendant of the id `q` through `childMap`. -/
inductive Desc (childMap : List (Int × List Proc)) : Int → Proc → Prop
  | child {q : Int} {l : List Proc} {r : Proc} :
      mapFind childMap q = some l → r ∈ l → Desc childMap q r
  | step {q : Int} {l : List Proc} {r1 r : Proc} :
      Desc childMap q r1 → mapFind childMap r1.pid = some l → r ∈ l → Desc childMap q r

/-- The tree art of the ancestor levels: per marker a blank when that ancestor
was the last sibling and a vertical bar otherwise, then one space. -/
def ancestorArt (art : Art) : List TreeEntry → String
  | [] => ""
  | te :: rest =>
    ((if te.siblingCount == te.curSibling then " " else art.vert) ++ " ")
      ++ ancestorArt art rest

/-- The tree art of the deepest level: corner or tee, a horizontal glyph, the
down-branching or a horizontal glyph, the horizontal terminator. -/
def nodeArt (art : Art) (last hasChildren : Bool) : String :=
  (if last then art.upRight else art.vertRight) ++ art.horiz
    ++ (if hasChildren then art.downHoriz else art.horiz) ++ art.horizLeft

/-- The loop over the children as a relation between the state before and the
state after, given the relation `R` of one call: `ChildrenRel R hp cs tree st st1`
holds when calling the walk on the records of `cs` in order, bumping the last
marker after each call if `hp`, leads from `st` to `st1`. -/
inductive ChildrenRel (R : Int → List TreeEntry → State → State → Prop) (hp : Bool) :
    List Proc → List TreeEntry → State → State → Prop
  | nil (tree : List TreeEntry) (st : State) : ChildrenRel R hp [] tree st st
  | cons (proc : Proc) (rest : List Proc) (tree : List TreeEntry) (st st1 st2 : State) :
      R proc.pid tree st st1 →
      ChildrenRel R hp rest (if hp then bumpBack tree else tree) st1 st2 →
      ChildrenRel R hp (proc :: rest) tree st st2

/-- The call `printPidTree(pid, tree)` returns and leads from `st` to `st1`. -/
def Walks (env : Env) (pid : Int) (tree : List TreeEntry) (st st1 : State) : Prop :=
  ∃ fuel, printPidTreeFuel env fuel pid tree st = some st1 ∧ st1.thrown = false

/-- Every call of `printProc` returns: truncation is off, or every finished
line is well-formed UTF-8. -/
def Prints (env : Env) : Prop :=
  ∀ proc art, prints env proc art = true

/-- What every step of the renderer keeps: the output only grows, the two
indices only lose entries, the other tables stay, and an exception once thrown
stays thrown. -/
structure Extends (st st1 : State) : Prop where
  out : ∃ new, st1.out = st.out ++ new
  procFind : ∀ k v, mapFind st1.procMap k = some v → mapFind st.procMap k = some v
  procSub : st1.procMap.Sublist st.procMap
  childFind : ∀ k l, mapFind st1.childMap k = some l → mapFind st.childMap k = some l
  errMap : st1.errMap = st.errMap
  skipped : st1.skippedKernelProc = st.skippedKernelProc
  thrown : st.thrown = true → st1.thrown = true

/-- The `own` lines of an output, in order. -/
def ownLines (out : List Line) : List Line :=
  out.filter (fun l => match l with
    | Line.own _ _ => true
    | Line.thread _ _ => false)

/-- The lines `printPidTree` writes for the threads of `pid` right after the
line of `proc` (source lines 1083-1115). -/
def threadsOf (env : Env) (pid : Int) (tree : List TreeEntry) (hasChildren : Bool)
    (proc : Proc) : List Line :=
  if (!env.skipThreads && pid != 2 && proc.ppid != 2) = true then
    threadLines env.art hasChildren tree.isEmpty (treeArt env.art hasChildren tree).2
      (env.task pid).length (env.task pid) 0
  else []

/-- The indices as `createProc` builds them: every record of `procMap` is
stored under its own id, no id is stored twice, every record of a `childMap`
list is the record `procMap` holds for its id and is listed under its parent
id, no list holds a record twice, and every record of `procMap` is in the list
of its parent id. -/
structure Consistent (st : State) : Prop where
  keyed : ∀ k v, mapFind st.procMap k = some v → v.pid = k
  nodup : (st.procMap.map Prod.fst).Nodup
  childIn : ∀ q l, mapFind st.childMap q = some l →
    ∀ c ∈ l, mapFind st.procMap c.pid = some c ∧ c.ppid = q
  childNodup : ∀ q l, mapFind st.childMap q = some l → l.Nodup
  parentIn : ∀ k v, mapFind st.procMap k = some v → v ∈ childrenOf st v.ppid

/-- Every record of `st0` that is no longer in `procMap` has lost its
`childMap` entry as well. -/
def PrintedDone (st0 st : State) : Prop :=
  ∀ k, (mapFind st0.procMap k).isSome = true → mapFind st.procMap k = none →
    mapFind st.childMap k = none

/-- Every child of an entry of `st0` that is no longer in `childMap` is no
longer in `procMap`, unless it is one of the pending records `P`. -/
def ErasedDone (st0 st : State) (P : Proc → Prop) : Prop :=
  ∀ q l, mapFind st0.childMap q = some l → mapFind st.childMap q = none →
    ∀ c ∈ l, (mapFind st.procMap c.pid).isSome = true → P c

/-- A record the targets `targets` select in the state `st0`: a record of
`procMap` that is a target or a descendant of a target. -/
def Selected (st0 : State) (targets : List Int) (r : Proc) : Prop :=
  mapFind st0.procMap r.pid = some r ∧
    (r.pid ∈ targets ∨ ∃ t ∈ targets, Desc st0.childMap t r)

/-- The record is only noted as a skipped kernel process by `createProc`: it
is, with kernel threads skipped, the kernel-thread anchor (id 2) or a process
whose parent is the anchor. -/
def kernelSkipped (skipKernel : Bool) (r : Proc) : Bool :=
  (skipKernel && r.pid == 2) || (r.tid == 0 && skipKernel && r.ppid == 2)

/-- The record is one `createProc` puts into the indices: not kernel-skipped,
not a thread, not failed. -/
def collected (skipKernel : Bool) (r : Proc) : Bool :=
  !kernelSkipped skipKernel r && r.tid == 0 && !r.failed

/-- The state is what the scan builds from the records `done`, in this order,
starting with empty tables: `procMap` holds the collected records under their
ids, `childMap` holds under every parent id the collected records with that
parent id, in scan order, and no empty list, `skippedKernelProc` holds the ids
of the kernel-skipped records; maps and set are in ascending key order;
nothing is printed or thrown yet. -/
structure Assembled (skipKernel : Bool) (done : List Proc) (st : State) : Prop where
  procSorted : (st.procMap.map Prod.fst).Pairwise (· < ·)
  childSorted : (st.childMap.map Prod.fst).Pairwise (· < ·)
  skipSorted : st.skippedKernelProc.Pairwise (· < ·)
  procChar : ∀ k v, mapFind st.procMap k = some v ↔
    v ∈ done ∧ collected skipKernel v = true ∧ v.pid = k
  childChar : ∀ q, mapFind st.childMap q =
    if done.filter (fun r => collected skipKernel r && r.ppid == q) = [] then none
    else some (done.filter (fun r => collected skipKernel r && r.ppid == q))
  skipChar : ∀ x, x ∈ st.skippedKernelProc ↔
    ∃ r ∈ done, kernelSkipped skipKernel r = true ∧ r.pid = x
  errMap : st.errMap = []
  out : st.out = []
  thrown : st.thrown = false

/-! ## Sample snapshots -/

/-- A sample scan: an init process with three children, the second of which
has a child of its own. -/
def sampleProcs : List Proc :=
  [{ pid := 1, ppid := 0, cmdline := "init" },
   { pid := 7, ppid := 1, cmdline := "sh" },
   { pid := 8, ppid := 1, cmdline := "foo --x" },
   { pid := 9, ppid := 1, cmdline := "foobar --x" },
   { pid := 11, ppid := 8, cmdline := "bar" }]

/-- Options that differ from the default in one line: the command line of the
process `bad` is the single byte FF, which is not UTF-8.  A command line is
the raw bytes of the `cmdline` file; the field `cmdline` of a record is a
`String`, which cannot hold that byte, so for this one process the bytes of
the line are given here and the field is not used. -/
def rawEnv (bad : Int) : Env :=
  { line := fun proc art =>
      utf8 ("  " ++ art) ++ (if proc.pid = bad then [255] else utf8 proc.cmdline) }

/-- A sample scan in which the parent (id 20) of the root record (id 10) was
not collected and a grandchild-bearing child (id 5) has a smaller id than that
parent. -/
def orphanProcs : List Proc :=
  [{ pid := 10, ppid := 20, cmdline := "x" },
   { pid := 5, ppid := 10, cmdline := "y" },
   { pid := 6, ppid := 5, cmdline := "z" }]

/-- The sample scan in another enumeration order that keeps the order of the
children of every parent: the grandchild (id 11) is met before the last child
(id 9) of the init process. -/
def sampleProcsMoved : List Proc :=
  [{ pid := 1, ppid := 0, cmdline := "init" },
   { pid := 7, ppid := 1, cmdline := "sh" },
   { pid := 8, ppid := 1, cmdline := "foo --x" },
   { pid := 11, ppid := 8, cmdline := "bar" },
   { pid := 9, ppid := 1, cmdline := "foobar --x" }]

/-! ## Argument matching -/

/-- The decimal value of a run of digits. -/
def digitsVal (ds : List Char) : Nat :=
  ds.foldl (fun n c => 10 * n + (c.toNat - 48)) 0

/-- The test `isspace` of the C locale. -/
def isSpace (c : Char) : Bool :=
  c == ' ' || (9 ≤ c.toNat && c.toNat ≤ 13)

/-- The conversion `strtol`-style of `stoi` and `stoll` on the text of a C
string, for a result type of `bits` bits: leading white space is skipped, a
sign is accepted, then the longest run of decimal digits is read; `none`
stands for the exception the function throws when there is no digit
(`invalid_argument`) or the value does not fit (`out_of_range`). -/
def stoInt (bits : Nat) (s : List Char) : Option Int :=
  let s1 := s.dropWhile isSpace
  let neg := s1.head? == some '-'
  let s2 := if s1.head? == some '-' || s1.head? == some '+' then s1.tail else s1
  let ds := s2.takeWhile Char.isDigit
  if ds.isEmpty then none
  else
    let v : Int := if neg then -(digitsVal ds : Int) else (digitsVal ds : Int)
    if -(2 : Int) ^ (bits - 1) ≤ v ∧ v < (2 : Int) ^ (bits - 1) then some v else none

/-- The function `std::stoi` (32-bit `int`). -/
def stoi (s : List Char) : Option Int := stoInt 32 s

/-- The function `std::stoll` (64-bit `long long`). -/
def stoll (s : List Char) : Option Int := stoInt 64 s

/-- The function `isNumber` as `parseArgs` calls it (with `verbose` false, so
without diagnostic): the text is not empty and all its characters are decimal
digits. -/
def isNumber (num : List Char) : Bool :=
  !num.isEmpty && num.all Char.isDigit

/-- The read `m[k]` of a `std::map`: the value under `k`; a key that is
missing is inserted with the empty text. -/
def mapAt (m : List (Int × String)) (k : Int) : String × List (Int × String) :=
  match mapFind m k with
  | some v => (v, m)
  | none => ("", mapSet m k "")

/-- The flags and the process id `parseArgs` and `matchCmd` read. -/
structure ArgEnv where
  noPid : Bool := false
  exeOnly : Bool := false
  verbose : Bool := false
  skipKernel : Bool := true
  myPid : Int := 0

/-- What a run of `parseArgs` leaves: the tables, the target set and the
messages handed to `printErr`. -/
structure ArgState where
  st : State
  pidList : List Int
  err : List String
deriving DecidableEq, Repr

/-- The local `matched` of `matchCmd`: some record other than the own process
passes the test. -/
def cmdMatched (exeOnly : Bool) (myPid : Int) (str : String) (st : State) : Bool :=
  st.procMap.any (fun pair => pair.2.pid != myPid && cmdMatches exeOnly str pair.2)

/-- One turn of the loop of `parseArgs` (source lines 918-936); `none` when
`stoi` throws. -/
def parseArg (env : ArgEnv) (str : String) (a : ArgState) : Option ArgState :=
  if !env.noPid && isNumber str.toList then
    match stoi (cStr str.toList) with
    | none => none
    | some pid =>
      if (mapFind a.st.procMap pid).isSome then
        some { a with pidList := setInsert a.pidList pid }
      else if env.verbose then
        if env.skipKernel && a.st.skippedKernelProc.contains pid then
          some { a with err := a.err ++ ["Ignoring pid " ++ str] }
        else if (mapFind a.st.errMap pid).isSome then
          let r := mapAt a.st.errMap pid
          some { a with st := { a.st with errMap := r.2 },
                        err := a.err ++ ["Pid " ++ str ++ ": " ++ r.1] }
        else some { a with err := a.err ++ ["Pid " ++ str ++ " not found"] }
      else some a
  else
    some { a with
      pidList := matchCmd env.exeOnly env.myPid str a.st a.pidList,
      err := if env.verbose && !cmdMatched env.exeOnly env.myPid str a.st then
               a.err ++ ["No match for process name: " ++ str]
             else a.err }

/-- The loop of `parseArgs` over the arguments. -/
def parseArgsLoop (env : ArgEnv) : List String → ArgState → Option ArgState
  | [], a => some a
  | str :: rest, a =>
    match parseArg env str a with
    | none => none
    | some a1 => parseArgsLoop env rest a1

/-- The function `parseArgs`: the result code and what the run leaves; `none`
when `stoi` throws. -/
def parseArgs (env : ArgEnv) (args : List String) (st : State) (pidList : List Int) :
    Option (Int × ArgState) :=
  match parseArgsLoop env args { st := st, pidList := pidList, err := [] } with
  | none => none
  | some a =>
    if a.pidList.isEmpty then
      some (1, if env.verbose then a else { a with err := a.err ++ ["Nothing matched"] })
    else some (0, a)

/-! ## Command text -/

/-- The statements `p = s.find(c); str[p] = ' '` when `c` occurs in the text:
the first `c` becomes a space; `none` when `find` returns `npos`. -/
def blankFirst (c : Char) : List Char → Option (List Char)
  | [] => none
  | x :: rest =>
    if x = c then some (' ' :: rest)
    else match blankFirst c rest with
      | some r => some (x :: r)
      | none => none

/-- One turn of the first loop of `removeBlanks` (source lines 664-665): the
first NUL, or without a NUL the first tab, becomes a space; `none` when the
loop ends. -/
def blankStep (s : List Char) : Option (List Char) :=
  match blankFirst (Char.ofNat 0) s with
  | some r => some r
  | none => blankFirst '\t' s

/-- The first loop of `removeBlanks`, at most `fuel` turns. -/
def blankLoop : Nat → List Char → List Char
  | 0, s => s
  | fuel + 1, s =>
    match blankStep s with
    | some r => blankLoop fuel r
    | none => s

/-- One turn of the second loop of `removeBlanks` (source lines 667-668): the
first two adjacent spaces are replaced by one; `none` when the loop ends. -/
def squeezeStep : List Char → Option (List Char)
  | [] => none
  | [_] => none
  | x :: y :: rest =>
    if x = ' ' ∧ y = ' ' then some (' ' :: rest)
    else match squeezeStep (y :: rest) with
      | some r => some (x :: r)
      | none => none

/-- The second loop of `removeBlanks`, at most `fuel` turns. -/
def squeezeLoop : Nat → List Char → List Char
  | 0, s => s
  | fuel + 1, s =>
    match squeezeStep s with
    | some r => squeezeLoop fuel r
    | none => s

/-- The function `removeBlanks`.  Each turn of the first loop removes a NUL or
tab and each turn of the second loop a character, so the length of the text
bounds the turns of either.  `none` stands for the call `str.back()` on an
empty text, which is undefined. -/
def removeBlanks (str : List Char) : Option (List Char) :=
  if str.isEmpty then some str
  else
    let s1 := blankLoop str.length str
    let s2 := squeezeLoop s1.length s1
    let s3 := if s2.head? = some ' ' then s2.tail else s2
    match s3.getLast? with
    | none => none
    | some c => some (if c = ' ' then s3.dropLast else s3)

/-- The separators of the claim about `removeBlanks`: NUL, tab and space. -/
def isBlank (c : Char) : Bool :=
  c == Char.ofNat 0 || c == '\t' || c == ' '

/-- The pieces of a text: split at every NUL, tab and space, empty pieces
dropped. -/
def pieces (s : List Char) : List (List Char) :=
  (s.splitOnP isBlank).filter (fun w => !w.isEmpty)

/-- The words joined by single spaces. -/
def joinWords : List (List Char) → List Char
  | [] => []
  | [w] => w
  | w :: ws => w ++ ' ' :: joinWords ws


/-- The text with every NUL and tab turned into a space. -/
def blankOut (s : List Char) : List Char :=
  s.map (fun c => if c = Char.ofNat 0 ∨ c = '\t' then ' ' else c)

/-- The text with every run of spaces reduced to one space. -/
def squeeze : List Char → List Char
  | [] => []
  | [x] => [x]
  | x :: y :: rest =>
    if x = ' ' ∧ y = ' ' then squeeze (y :: rest) else x :: squeeze (y :: rest)

/-- The pieces of `c :: r` for a character `c` that is no separator, from the
pieces `ps` of `r`: `c` starts a piece of its own before a separator and joins
the first piece otherwise. -/
def glue (c : Char) (r : List Char) (ps : List (List Char)) : List (List Char) :=
  match r with
  | [] => [[c]]
  | d :: _ =>
    if isBlank d then [c] :: ps
    else match ps with
      | w :: ws => (c :: w) :: ws
      | [] => [[c]]

/-! ## Number formatting -/

/-- The value a signed integer of `bits` bits holds after an arithmetic result
`v` is stored in it (two's complement wrap-around). -/
def wrapInt (bits : Nat) (v : Int) : Int :=
  (v + (2 : Int) ^ (bits - 1)) % (2 : Int) ^ bits - (2 : Int) ^ (bits - 1)

/-- The function `toReadableTime(long sec)`: `d`, `h` and `m` are `int`
variables, `sec` a `long`; `/` truncates towards zero; the products
`d * (60 * 60 * 24)`, `h * (60 * 60)` and `m * 60` are `int` products.  A
result that does not fit its type is taken to wrap around, as the narrowing
to `int` does; for an `int` product the language leaves it undefined. -/
def toReadableTime (sec : Int) : String :=
  let d := wrapInt 32 (sec.tdiv (60 * 60 * 24))
  let sec1 := wrapInt 64 (sec - wrapInt 32 (d * (60 * 60 * 24)))
  let h := wrapInt 32 (sec1.tdiv (60 * 60))
  let sec2 := wrapInt 64 (sec1 - wrapInt 32 (h * (60 * 60)))
  let m := wrapInt 32 (sec2.tdiv 60)
  let sec3 := wrapInt 64 (sec2 - wrapInt 32 (m * 60))
  if d > 0 then toString d ++ "d" ++ (if h > 0 then toString h ++ "h" else "")
  else if h > 0 then toString h ++ "h" ++ (if m > 0 then toString m ++ "m" else "")
  else if m > 0 then toString m ++ "m" ++ (if sec3 > 0 then toString sec3 ++ "s" else "")
  else toString sec3 ++ "s"

/-- The days, hours, minutes and seconds of a duration, coarsest first, each
with its letter. -/
def timeUnits (sec : Int) : List (Int × String) :=
  [(sec / 86400, "d"), (sec % 86400 / 3600, "h"), (sec % 3600 / 60, "m"), (sec % 60, "s")]

/-- The rendering the specification describes: the two coarsest non-zero
units, each as its count followed by its letter, and "0s" when every unit is
zero. -/
def twoCoarsest (sec : Int) : String :=
  match ((timeUnits sec).filter (fun u => u.1 != 0)).take 2 with
  | [] => "0s"
  | us => String.join (us.map (fun u => toString u.1 ++ u.2))

/-! ## Size formatting -/

/-- Rounding of the quotient `n / d` to an integer, to nearest and ties to
even: the rounding of binary64 arithmetic and of the decimal conversion of a
binary64 value. -/
def roundHalfEven (n d : Nat) : Nat :=
  if 2 * (n % d) < d then n / d
  else if d < 2 * (n % d) then n / d + 1
  else if n / d % 2 = 0 then n / d
  else n / d + 1

/-- The binary exponent of a quotient `n / d` that is at least 1: the largest
`e` up to the bound with `2 ^ e * d ≤ n` (0 when there is none). -/
def binade (n d : Nat) : Nat → Nat
  | 0 => 0
  | e + 1 => if 2 ^ (e + 1) * d ≤ n then e + 1 else binade n d e

/-- The binary64 quotient of two integer-valued operands `n ≥ d > 0` below
2^64: the value with 53 significant bits nearest to `n / d` (ties to even), as
numerator and denominator.  The exponent of such a quotient is at most 63, so
no larger one is searched; the result is a normal number, neither overflow nor
underflow occurs. -/
def nearestDouble (n d : Nat) : Nat × Nat :=
  let e := binade n d 63
  if e ≤ 52 then (roundHalfEven (n * 2 ^ (52 - e)) d, 2 ^ (52 - e))
  else (roundHalfEven n (d * 2 ^ (e - 52)) * 2 ^ (e - 52), 1)

/-- The conversion of a `long` to `double`: an integer of at most 53
significant bits is a binary64 value, a longer one is rounded to 53
significant bits (to nearest, ties to even).  The result is an integer. -/
def toDouble (bytes : Int) : Int :=
  let n := bytes.natAbs
  let e := binade n 1 63
  let v : Nat := if e ≤ 52 then n else roundHalfEven n (2 ^ (e - 52)) * 2 ^ (e - 52)
  if bytes < 0 then -(v : Int) else (v : Int)

/-- The text `oss << fixed << setprecision(1)` writes for a non-negative
binary64 value `v.1 / v.2`: the decimal with one fractional digit nearest to
the value itself, ties to even (the conversion of the C library is exact). -/
def fixed1 (v : Nat × Nat) : String :=
  let t := roundHalfEven (10 * v.1) v.2
  toString (t / 10) ++ "." ++ toString (t % 10)

/-- The constant `MB`, the `double` 1000000.0, an integer that binary64 holds
exactly. -/
def MB : Nat := 1000000

/-- The constant `GB`, the `double` 1000000000.0, an integer that binary64
holds exactly. -/
def GB : Nat := 1000000000

/-- The function `toReadableSize(long bytes)`: the comparisons and the
divisions by `MB` and `GB` are binary64 operations on the converted byte
count, `bytes / 1000` is a division of `long` that truncates towards zero. -/
def toReadableSize (bytes : Int) : String :=
  let x := toDouble bytes
  if x < (MB : Int) then toString (bytes.tdiv 1000) ++ " KB"
  else if x < (GB : Int) then fixed1 (nearestDouble x.toNat MB) ++ " MB"
  else fixed1 (nearestDouble x.toNat GB) ++ " GB"

/-! ## Read errors -/

/-- The insertion `m.insert({k, v})`: a key that is present keeps its value. -/
def mapInsert {β : Type} (m : List (Int × β)) (k : Int) (v : β) : List (Int × β) :=
  match mapFind m k with
  | some _ => m
  | none => mapSet m k v

/-- The error number `ENOENT`. -/
def ENOENT : Int := 2

/-- What a parser hands back: its return value, the record, the globals and
the lines written to standard error. -/
structure Outcome where
  code : Int
  proc : Proc
  st : State
  err : List String
deriving DecidableEq, Repr

/-- The function `handleProcReadError(path, proc)`.  `errno` and the text
`strerror(errno)` are what the failed call left behind; `printErrCode` writes
one line to standard error. -/
def handleProcReadError (verbose : Bool) (errno : Int) (strerror : String) (path : String)
    (proc : Proc) (st : State) : Outcome :=
  let msg := "Failed to read " ++ path ++ ": " ++ strerror
  if errno ≠ ENOENT then
    if verbose then
      { code := 1, proc := { proc with failed := true }, st := st, err := ["ERR: " ++ msg] }
    else if proc.tid = 0 then
      { code := 1, proc := { proc with failed := true },
        st := { st with errMap := mapInsert st.errMap proc.pid msg }, err := [] }
    else { code := 1, proc := { proc with failed := true }, st := st, err := [] }
  else { code := 1, proc := { proc with failed := true }, st := st, err := [] }

/-! ## Directory scan -/

/-- One `struct dirent` as `parseProcTree` looks at it: whether `d_type` is
`DT_DIR` or `DT_UNKNOWN`, and the text of `d_name`. -/
structure Dirent where
  isDir : Bool := true
  name : List Char
deriving DecidableEq, Repr

/-- The loop of `parseProcTree` over the entries `readdir` yields.  The
callback `cb` works on a state of its own and returns whether to go on.
`none` is the exception `stoi` throws. -/
def parseProcTreeLoop {σ : Type} (cb : Int → σ → Bool × σ) :
    List Dirent → σ → Option (Int × σ)
  | [], s => some (0, s)
  | entry :: rest, s =>
    if !entry.isDir then parseProcTreeLoop cb rest s
    else
      match entry.name.head? with
      | none => parseProcTreeLoop cb rest s
      | some c =>
        if c < '0' ∨ c > '9' then parseProcTreeLoop cb rest s
        else
          match stoi entry.name with
          | none => none
          | some pid =>
            if pid > 0 then
              let r := cb pid s
              if !r.1 then some (1, r.2) else parseProcTreeLoop cb rest r.2
            else parseProcTreeLoop cb rest s

/-- The function `parseProcTree(path, cb, printErr)`: `dir` is the listing of
`path`, `none` when `opendir` fails (the result is then 1, after a line on
standard error if `printErr` is set, which is not recorded here). -/
def parseProcTree {σ : Type} (dir : Option (List Dirent)) (cb : Int → σ → Bool × σ) (s : σ) :
    Option (Int × σ) :=
  match dir with
  | none => some (1, s)
  | some entries => parseProcTreeLoop cb entries s

/-- The callback that records the ids it is called with and always asks to go
on. -/
def logCb (pid : Int) (log : List Int) : Bool × List Int := (true, log ++ [pid])

/-- The ids the specification has the callback see: those of the entries whose
name consists only of decimal digits and denotes an id above 0. -/
def numericIds (entries : List Dirent) : List Int :=
  entries.filterMap (fun e =>
    if isNumber e.name ∧ (digitsVal e.name : Int) > 0 then some (digitsVal e.name : Int)
    else none)

/-- The ids the code has the callback see: of every entry of directory (or
unknown) type whose name starts with a decimal digit, the value of the digits
the name starts with, when above 0. -/
def visitedIds (entries : List Dirent) : List Int :=
  entries.filterMap (fun e =>
    if e.isDir ∧ (e.name.head?.any Char.isDigit) ∧
        (digitsVal (e.name.takeWhile Char.isDigit) : Int) > 0 then
      some (digitsVal (e.name.takeWhile Char.isDigit) : Int)
    else none)

/-- The callback run over a list of ids until it asks to stop: the result of
the scan (1 after a stop) and the callback's state. -/
def runCb {σ : Type} (cb : Int → σ → Bool × σ) : List Int → σ → Int × σ
  | [], s => (0, s)
  | pid :: rest, s =>
    let r := cb pid s
    if !r.1 then (1, r.2) else runCb cb rest r.2

/-! ## Status parser -/

/-- A `std::stringstream` while it is read: the text not consumed yet and
whether `failbit` is set.  (`eofbit` is set exactly when an extraction has
reached the end of the text, and makes the next extraction fail as an empty
rest does.) -/
structure IStream where
  rest : List Char
  fail : Bool := false
deriving DecidableEq, Repr

/-- The extraction `ss >> field` into a `std::string`: leading white space is
skipped; if nothing is left the extraction fails and `field` keeps its value;
otherwise `field` becomes the characters up to the next white space. -/
def readWord (ss : IStream) (field : List Char) : List Char × IStream :=
  if ss.fail then (field, ss)
  else
    let s := ss.rest.dropWhile isSpace
    if s.isEmpty then (field, { rest := [], fail := true })
    else
      (s.takeWhile (fun c => !isSpace c),
        { rest := s.dropWhile (fun c => !isSpace c), fail := false })

/-- The extraction `ss >> v` into a `uid_t` (unsigned, 32 bits), as `num_get`
of libstdc++ does it: after the white space an optional sign and the decimal
digits are consumed; without a digit 0 is stored and the extraction fails; a
number that does not fit stores the largest value and fails; a minus sign
negates modulo 2^32.  A stream that has failed, or has nothing left, leaves
`v` as it is. -/
def readUnsigned (ss : IStream) (v : Nat) : Nat × IStream :=
  if ss.fail then (v, ss)
  else
    let s := ss.rest.dropWhile isSpace
    if s.isEmpty then (v, { rest := [], fail := true })
    else
      let neg := s.head? == some '-'
      let s1 := if s.head? == some '-' || s.head? == some '+' then s.tail else s
      let ds := s1.takeWhile Char.isDigit
      let rest := s1.dropWhile Char.isDigit
      if ds.isEmpty then (0, { rest := rest, fail := true })
      else if 2 ^ 32 ≤ digitsVal ds then (2 ^ 32 - 1, { rest := rest, fail := true })
      else
        ((if neg then (2 ^ 32 - digitsVal ds) % 2 ^ 32 else digitsVal ds),
          { rest := rest, fail := false })

/-- What opening and reading a text file gives: the failure of `open` with its
`errno` and `strerror` text, or the lines `getline` yields. -/
inductive FileText where
  | failed (errno : Int) (strerror : String)
  | lines (ls : List (List Char))
deriving DecidableEq, Repr

/-- The loop of `getLines`: the callback works on the record and on the
variables it captured, and returns whether to go on. -/
def getLinesLoop {σ : Type} (cb : List Char → Proc × σ → Bool × (Proc × σ)) :
    List (List Char) → Proc × σ → Proc × σ
  | [], s => s
  | line :: rest, s =>
    let r := cb line s
    if !r.1 then r.2 else getLinesLoop cb rest r.2

/-- The function `getLines(path, proc, cb)`. -/
def getLines {σ : Type} (verbose : Bool) (path : String) (file : FileText)
    (cb : List Char → Proc × σ → Bool × (Proc × σ)) (proc : Proc) (st : State) (s : σ) :
    Outcome × σ :=
  match file with
  | FileText.failed errno strerror => (handleProcReadError verbose errno strerror path proc st, s)
  | FileText.lines ls =>
    let r := getLinesLoop cb ls (proc, s)
    ({ code := 0, proc := r.1, st := st, err := [] }, r.2)

/-- The callback of `parseStatus`; the captured variable is `field`, which
lives across the lines. -/
def statusCb (line : List Char) (s : Proc × List Char) : Bool × (Proc × List Char) :=
  let r := readWord { rest := line } s.2
  if r.1 = "Uid:".toList then
    let u1 := readUnsigned r.2 s.1.uid
    let u2 := readUnsigned u1.2 u1.1
    (false, ({ s.1 with uid := u2.1 }, r.1))
  else (true, (s.1, r.1))

/-- The function `parseStatus(proc)`; `file` is what the status file of the
record gives.  The return value of `getLines` is dropped. -/
def parseStatus (verbose show_col_uid : Bool) (file : FileText) (proc : Proc) (st : State) :
    Outcome :=
  if proc.failed || !show_col_uid then { code := 0, proc := proc, st := st, err := [] }
  else
    (getLines verbose
      ("/proc/" ++ toString proc.pid ++
        (if proc.tid ≠ 0 then "/task/" ++ toString proc.tid else "") ++ "/status")
      file statusCb proc st []).1

/-! ## State parser -/

/-- The call `strchr(s, c)` on the text `s`: the text from the first `c` on;
`none` is the null pointer. -/
def strchr : List Char → Char → Option (List Char)
  | [], _ => none
  | x :: r, c => if x = c then some (x :: r) else strchr r c

/-- The call `strrchr(s, c)`: the text from the last `c` on; `none` is the
null pointer. -/
def strrchr : List Char → Char → Option (List Char)
  | [], _ => none
  | x :: r, c =>
    match strrchr r c with
    | some t => some t
    | none => if x = c then some (x :: r) else none

/-- The pointer `strstr(hay, needle)`: the text from the first occurrence of
`needle` on; `none` is the null pointer. -/
def strstrAt : List Char → List Char → Option (List Char)
  | [], needle => if startsWith [] needle then some [] else none
  | h :: hay, needle =>
    if startsWith (h :: hay) needle then some (h :: hay) else strstrAt hay needle

/-- The steps `del = strchr(del, ' '); del++;` done `n` times.  `none`: `strchr`
returned the null pointer, which is then incremented and used (undefined). -/
def skipFields : Nat → List Char → Option (List Char)
  | 0, del => some del
  | n + 1, del =>
    match strchr del ' ' with
    | none => none
    | some t => skipFields n t.tail

/-- What `parseStat` reads and asks the system for, and the options it looks
at.  `sysinfo` is the uptime in seconds, or the `strerror` text when the call
fails; `uevent maj min` is the content of `/sys/dev/char/maj:min/uevent`,
`none` when it cannot be opened. -/
structure StatEnv where
  verbose : Bool := false
  skipKernel : Bool := true
  show_col_tty : Bool := false
  show_col_age : Bool := false
  show_col_cpu : Bool := false
  SC_CLK_TCK : Int := 100
  sysinfo : Except String Int := Except.ok 0
  uevent : Int → Int → Option (List Char) := fun _ _ => none

/-- What `open` and `read` give for the stat file: a failure with its `errno`
and `strerror` text, or the content of the file, of which `read` delivers at
most 4095 bytes. -/
inductive StatRead where
  | openFailed (errno : Int) (strerror : String)
  | readFailed (errno : Int) (strerror : String)
  | data (content : List Char)
deriving DecidableEq, Repr

/-- The name of the terminal with device number `dev ≠ 0` (source lines
554-588); `MAJOR(dev)` is `dev >> 8` and `MINOR(dev)` is `dev & 0xff`
(linux/kdev_t.h). -/
def ttyName (uevent : Int → Int → Option (List Char)) (dev : Int) : String :=
  let maj := dev / 256
  let min := dev % 256
  if maj = 4 then "tty" ++ toString min
  else if maj = 136 then "pts/" ++ toString min
  else
    let found : Option String :=
      match uevent maj min with
      | none => none
      | some content =>
        if (content.take 255).length > 0 then
          match strstrAt (cStr (content.take 255)) "DEVNAME=".toList with
          | none => none
          | some ptr =>
            match strchr (ptr.drop 8) '\n' with
            | none => none
            | some _ => some (String.mk ((ptr.drop 8).takeWhile (fun c => c != '\n')))
        else none
    match found with
    | some name => name
    | none => toString maj ++ "." ++ toString min

/-- Source lines 525-537: from the text of `buf`, the value stored in
`proc.ppid` and the text at `del` (the start of field 4).  `none`: a null
pointer is used (no `)` or no space), or `stoi` throws. -/
def statPpid (buf : List Char) : Option (Int × List Char) :=
  match strrchr buf ')' with
  | none => none
  | some del =>
    match skipFields 2 del with
    | none => none
    | some del4 =>
      match stoi del4 with
      | none => none
      | some ppid => some (ppid, del4)

/-- Source lines 612-614, entered with `del` at field 15: the cpu time, set
only when the cpu column is shown.  The arithmetic is that of `long long`,
64 bits, with `/` truncating; a division by `SC_CLK_TCK = 0` is undefined
(`none`), and `none` also when `stoll` throws. -/
def statCpu (env : StatEnv) (utime : Int) (del15 : List Char) (proc : Proc) : Option Proc :=
  if env.show_col_cpu then
    match stoll del15 with
    | none => none
    | some stime =>
      if env.SC_CLK_TCK = 0 then none
      else
        some { proc with
          cpuTime := wrapInt 64
            ((wrapInt 64 (1000 * wrapInt 64 (utime + stime))).tdiv env.SC_CLK_TCK) }
  else some proc

/-- Source lines 612-629, entered with `del` at field 15: the cpu time and the
age. -/
def statTimes (env : StatEnv) (utime : Int) (del15 : List Char) (proc : Proc) (st : State) :
    Option Outcome :=
  match statCpu env utime del15 proc with
  | none => none
  | some proc1 =>
    match skipFields 7 del15 with
    | none => none
    | some del22 =>
      match env.sysinfo with
      | Except.error strerror =>
        some { code := 0, proc := { proc1 with failed := true }, st := st,
               err := ["ERR: Failed to get sysinfo: " ++ strerror] }
      | Except.ok uptime =>
        match stoll del22 with
        | none => none
        | some start =>
          if env.SC_CLK_TCK = 0 then none
          else
            some { code := 0,
                   proc := { proc1 with
                     age := wrapInt 64 (wrapInt 64 (1000 * uptime) -
                       wrapInt 64 ((wrapInt 64 (1000 * start)).tdiv env.SC_CLK_TCK)) },
                   st := st, err := [] }

/-- Source lines 546-588, entered with `del` at field 7: the terminal name,
read only when the terminal column is shown.  `none`: `stoi` throws. -/
def statTty (env : StatEnv) (del7 : List Char) (proc : Proc) : Option Proc :=
  if env.show_col_tty then
    match stoi del7 with
    | none => none
    | some dev => some (if dev ≠ 0 then { proc with tty := ttyName env.uevent dev } else proc)
  else some proc

/-- Source lines 590-629, entered with `del` at field 7. -/
def statCpuAge (env : StatEnv) (del7 : List Char) (proc : Proc) (st : State) : Option Outcome :=
  if !env.show_col_age && !env.show_col_cpu then
    some { code := 0, proc := proc, st := st, err := [] }
  else
    match skipFields 7 del7 with
    | none => none
    | some del14 =>
      match (if env.show_col_cpu then stoll del14 else some 0) with
      | none => none
      | some utime =>
        match skipFields 1 del14 with
        | none => none
        | some del15 => statTimes env utime del15 proc st

/-- Source lines 539-629: `parseStat` after `proc.ppid` is stored, with `del`
at field 4. -/
def parseStatTail (env : StatEnv) (del4 : List Char) (proc : Proc) (st : State) :
    Option Outcome :=
  if env.skipKernel && proc.ppid == 2 then some { code := 0, proc := proc, st := st, err := [] }
  else
    match skipFields 3 del4 with
    | none => none
    | some del7 =>
      match statTty env del7 proc with
      | none => none
      | some proc1 => statCpuAge env del7 proc1 st

/-- The function `parseStat(proc)`; `file` is what the stat file of the record
gives.  `none`: the behaviour is undefined or an exception of `stoi`, `stoll`
ends the program.  The function returns nothing; `code` is 0. -/
def parseStat (env : StatEnv) (file : StatRead) (proc : Proc) (st : State) : Option Outcome :=
  let path := "/proc/" ++ toString proc.pid ++
    (if proc.tid ≠ 0 then "/task/" ++ toString proc.tid else "") ++ "/stat"
  match file with
  | StatRead.openFailed errno strerror =>
    some { handleProcReadError env.verbose errno strerror path proc st with code := 0 }
  | StatRead.readFailed errno strerror =>
    some { handleProcReadError env.verbose errno strerror path proc st with code := 0 }
  | StatRead.data content =>
    match statPpid (cStr (content.take 4095)) with
    | none => none
    | some (ppid, del4) => parseStatTail env del4 { proc with ppid := ppid } st

/-- Fields joined by single spaces. -/
def joinSp : List (List Char) → List Char
  | [] => []
  | [f] => f
  | f :: g :: fs => f ++ ' ' :: joinSp (g :: fs)

/-- The fields 3 to 52 of a stat record in the format of the kernel. -/
def sampleFields : List (List Char) :=
  ["S", "1", "4242", "4242", "34817", "4242", "4194304", "100", "0", "0", "0", "250", "50", "0",
    "0", "20", "0", "1", "0", "5000", "1000000", "100", "18446744073709551615", "1", "1", "0",
    "0", "0", "0", "0", "0", "0", "0", "0", "0", "17", "0", "0", "0", "0", "0",
    "0"].map String.toList

/-- A stat record in the format of the kernel, with a name that holds spaces
and parentheses. -/
def sampleStat : List Char :=
  "4242".toList ++ " (".toList ++ "my (odd) name".toList ++ ") ".toList ++ joinSp sampleFields ++
    "\n".toList

/-- Options and system answers for the sample record: all three columns of
`parseStat` shown, 100 ticks per second, 100 seconds of uptime. -/
def sampleStatEnv : StatEnv :=
  { show_col_tty := true, show_col_age := true, show_col_cpu := true, SC_CLK_TCK := 100,
    sysinfo := Except.ok 100 }

/-! ## Scan callback -/

/-- The callback `main` hands to `parseProcTree` for the process directory:
`Proc proc; return !createProc(proc, pid);`.  `recordOf pid` is the record the
field parsers fill for the id `pid`. -/
def scanCb (skipKernel : Bool) (recordOf : Int → Proc) (pid : Int) (st : State) : Bool × State :=
  let r := createProc skipKernel (recordOf pid) st
  (r.1 == 0, r.2)

/-- A scan that meets the id 5 twice, the second time as a child of the
kernel-thread anchor, and then the id 6. -/
def duplicateProcs : List Proc :=
  [{ pid := 5, ppid := 1, cmdline := "a" },
   { pid := 5, ppid := 2, cmdline := "b" },
   { pid := 6, ppid := 1, cmdline := "c" }]

/-- A scan with a kernel-thread anchor (id 2) and a kernel thread (id 3), a
failed record (id 8), a thread record (id 4, thread id 12) and two children of
the init process met in descending id order. -/
def mixedProcs : List Proc :=
  [{ pid := 1, ppid := 0, cmdline := "init" },
   { pid := 2, ppid := 0, cmdline := "kthreadd" },
   { pid := 3, ppid := 2, cmdline := "kworker" },
   { pid := 9, ppid := 1, cmdline := "late" },
   { pid := 8, ppid := 1, failed := true },
   { pid := 4, tid := 12, ppid := 1, cmdline := "thread" },
   { pid := 7, ppid := 1, cmdline := "early" }]

/-! ## Renderings the specification describes -/

/-- The rendering of a duration by its coarsest non-zero unit, followed by the
immediately next finer unit only when that one is non-zero, and "0s" for
zero. -/
def coarsestWithNext (sec : Int) : String :=
  match (timeUnits sec).dropWhile (fun u => u.1 == 0) with
  | [] => "0s"
  | [u] => toString u.1 ++ u.2
  | u :: v :: _ => toString u.1 ++ u.2 ++ (if v.1 != 0 then toString v.1 ++ v.2 else "")

/-! ## Sample states of the renderer -/

/-- A scan whose two records are each other's parent. -/
def cycleProcs : List Proc :=
  [{ pid := 3, ppid := 4, cmdline := "a" },
   { pid := 4, ppid := 3, cmdline := "b" }]

/-- A scan of an init process with one child (id 10) that has two children,
the second of which (id 5) has a child of its own. -/
def nestedProcs : List Proc :=
  [{ pid := 1, ppid := 0, cmdline := "init" },
   { pid := 10, ppid := 1, cmdline := "x" },
   { pid := 7, ppid := 10, cmdline := "w" },
   { pid := 5, ppid := 10, cmdline := "y" },
   { pid := 6, ppid := 5, cmdline := "z" }]

/-! # Theorems -/

/-! ### Maps -/

theorem mapErase_nil {β : Type} (k : Int) : mapErase ([] : List (Int × β)) k = [] := rfl

theorem mapErase_cons_eq {β : Type} (m : List (Int × β)) (k : Int) (v : β) :
    mapErase ((k, v) :: m) k = mapErase m k := by
  simp [mapErase]

theorem mapErase_cons_ne {β : Type} (m : List (Int × β)) (k k0 : Int) (v : β) (h : k0 ≠ k) :
    mapErase ((k0, v) :: m) k = (k0, v) :: mapErase m k := by
  simp [mapErase, h]

theorem mapFind_mapErase {β : Type} (m : List (Int × β)) (k k' : Int) :
    mapFind (mapErase m k) k' = if k' = k then none else mapFind m k' := by
  induction m with
  | nil => simp [mapErase_nil, mapFind]
  | cons kv m ih =>
    obtain ⟨k0, v0⟩ := kv
    by_cases h0 : k0 = k
    · subst h0
      rw [mapErase_cons_eq, ih]
      by_cases h1 : k' = k0
      · simp [h1]
      · have : ¬ k0 = k' := fun h => h1 h.symm
        simp [h1, this, mapFind]
    · rw [mapErase_cons_ne _ _ _ _ h0]
      simp only [mapFind, ih]
      by_cases h1 : k' = k
      · subst h1; simp [h0]
      · simp [h1]

theorem mapFind_mapSet {β : Type} (m : List (Int × β)) (k k' : Int) (v : β) :
    mapFind (mapSet m k v) k' = if k' = k then some v else mapFind m k' := by
  induction m with
  | nil =>
    by_cases h : k' = k
    · simp [mapSet, mapFind, h]
    · have : ¬ k = k' := fun e => h e.symm
      simp [mapSet, mapFind, h, this]
  | cons kv m ih =>
    obtain ⟨k0, v0⟩ := kv
    unfold mapSet
    by_cases h1 : k < k0
    · simp only [h1, if_true, mapFind]
      by_cases h : k' = k
      · simp [h]
      · have : ¬ k = k' := fun e => h e.symm
        simp [h, this]
    · simp only [h1, if_false]
      by_cases h2 : k = k0
      · subst h2
        simp only [if_true, mapFind]
        by_cases h : k' = k
        · simp [h]
        · have : ¬ k = k' := fun e => h e.symm
          simp [h, this]
      · simp only [h2, if_false, mapFind, ih]
        by_cases h : k' = k
        · subst h
          have : ¬ k0 = k' := fun e => h2 e.symm
          simp [this]
        · simp [h]

theorem mapErase_length_le {β : Type} (m : List (Int × β)) (k : Int) :
    (mapErase m k).length ≤ m.length :=
  List.length_filter_le _ _

theorem mapErase_length_lt {β : Type} (m : List (Int × β)) (k : Int)
    (h : (mapFind m k).isSome = true) : (mapErase m k).length < m.length := by
  induction m with
  | nil => simp [mapFind] at h
  | cons kv m ih =>
    obtain ⟨k0, v0⟩ := kv
    by_cases h0 : k0 = k
    · subst h0
      have hle := mapErase_length_le m k0
      rw [mapErase_cons_eq, List.length_cons]
      omega
    · simp only [mapFind, h0, if_false] at h
      have := ih h
      rw [mapErase_cons_ne _ _ _ _ h0, List.length_cons, List.length_cons]
      omega

/-! ### Substring test -/

theorem startsWith_iff (hay needle : List Char) : startsWith hay needle = true ↔ needle <+: hay := by
  induction needle generalizing hay with
  | nil => simp [startsWith]
  | cons n needle ih =>
    cases hay with
    | nil => simp [startsWith]
    | cons h hay =>
      rw [startsWith, Bool.and_eq_true, ih, List.cons_prefix_cons, beq_iff_eq]
      constructor
      · rintro ⟨rfl, h2⟩; exact ⟨rfl, h2⟩
      · rintro ⟨rfl, h2⟩; exact ⟨rfl, h2⟩

theorem strstr_iff (hay needle : List Char) : strstr hay needle = true ↔ needle <:+: hay := by
  induction hay with
  | nil =>
    simp [strstr, startsWith_iff]
  | cons h hay ih =>
    simp only [strstr, Bool.or_eq_true, startsWith_iff, ih, List.infix_cons_iff]

theorem cStr_of_not_mem (s : List Char) (h : Char.ofNat 0 ∉ s) : cStr s = s := by
  unfold cStr
  rw [List.takeWhile_eq_self_iff]
  intro c hc
  simp only [bne_iff_ne, ne_eq]
  rintro rfl
  exact h hc

/-! ### Tree art -/

theorem artLoop_append (art : Art) (hc : Bool) (size : Nat) (init rest : List TreeEntry)
    (iter : Nat) (acc : String × String) (h : iter + init.length ≤ size) :
    artLoop art hc size (init ++ rest) iter acc =
      artLoop art hc size rest (iter + init.length)
        (acc.1 ++ ancestorArt art init, acc.2 ++ ancestorArt art init) := by
  induction init generalizing iter acc with
  | nil => simp [ancestorArt]
  | cons te init ih =>
    obtain ⟨pre, tidPre⟩ := acc
    have hne : (iter == size) = false := by
      simp only [List.length_cons] at h
      simp only [beq_eq_false_iff_ne, ne_eq]
      omega
    simp only [List.cons_append, artLoop, hne, Bool.false_eq_true, if_false, List.append_eq]
    rw [ih (iter + 1) _ (by simp only [List.length_cons] at h; omega)]
    simp only [ancestorArt, List.length_cons, String.append_assoc]
    congr 1
    omega

theorem treeArt_nil (art : Art) (hc : Bool) : treeArt art hc [] = ("", "") := rfl

theorem treeArt_snoc (art : Art) (hc : Bool) (init : List TreeEntry) (te : TreeEntry) :
    (treeArt art hc (init ++ [te])).1 =
      ancestorArt art init ++ nodeArt art (te.siblingCount == te.curSibling) hc := by
  unfold treeArt
  rw [artLoop_append art hc _ init [te] 1 ("", "") (by simp; omega)]
  have hsz : (1 + init.length == (init ++ [te]).length) = true := by
    simp only [List.length_append, List.length_singleton, beq_iff_eq]; omega
  simp only [artLoop, hsz, if_true, nodeArt, String.append_assoc, String.empty_append]

theorem ancestorArt_length (a t : Bool) (init : List TreeEntry) :
    (ancestorArt (initVars a t) init).length = 2 * init.length := by
  induction init with
  | nil => rfl
  | cons te init ih =>
    have h2 : ∀ b : Bool, ((if b = true then " " else (initVars a t).vert) ++ " ").length = 2 := by
      intro b
      cases a <;> cases t <;> cases b <;> rfl
    rw [ancestorArt, String.length_append, ih, h2, List.length_cons]
    omega

theorem nodeArt_length (a t last hc : Bool) : (nodeArt (initVars a t) last hc).length = 4 := by
  cases a <;> cases t <;> cases last <;> cases hc <;> rfl

/-! ### Calls of `printProc` -/

theorem prints_of_noTrunc (env : Env) (h : env.noTrunc = true) : Prints env := by
  intro proc art
  simp [prints, printProc, h]

theorem callPrintProc_thrown (env : Env) (l : Line) (st : State) :
    (callPrintProc env l st).thrown = (st.thrown || !prints env l.proc l.art) := rfl

theorem printLines_childMap (env : Env) (ls : List Line) (st : State) :
    (printLines env ls st).childMap = st.childMap ∧
    (printLines env ls st).procMap = st.procMap ∧
    (printLines env ls st).errMap = st.errMap ∧
    (printLines env ls st).skippedKernelProc = st.skippedKernelProc := by
  induction ls generalizing st with
  | nil => exact ⟨rfl, rfl, rfl, rfl⟩
  | cons l rest ih =>
    rw [printLines]
    split
    · exact ⟨rfl, rfl, rfl, rfl⟩
    · exact ih _

theorem printLines_thrown_mono (env : Env) (ls : List Line) (st : State)
    (h : st.thrown = true) : (printLines env ls st).thrown = true := by
  cases ls with
  | nil => exact h
  | cons l rest =>
    rw [printLines]
    have h1 : (callPrintProc env l st).thrown = true := by simp [callPrintProc, h]
    rw [if_pos h1]
    exact h1

theorem printLines_out_grows (env : Env) (ls : List Line) (st : State) :
    ∃ new, (printLines env ls st).out = st.out ++ new := by
  induction ls generalizing st with
  | nil => exact ⟨[], by simp [printLines]⟩
  | cons l rest ih =>
    rw [printLines]
    split
    · exact ⟨[l], rfl⟩
    · obtain ⟨new, hnew⟩ := ih (callPrintProc env l st)
      exact ⟨l :: new, by rw [hnew]; simp [callPrintProc]⟩

/-- When no call has thrown, all the lines are in the output. -/
theorem printLines_out (env : Env) (ls : List Line) (st : State)
    (h : (printLines env ls st).thrown = false) : (printLines env ls st).out = st.out ++ ls := by
  induction ls generalizing st with
  | nil => simp [printLines]
  | cons l rest ih =>
    rw [printLines] at h ⊢
    by_cases h1 : (callPrintProc env l st).thrown = true
    · rw [if_pos h1] at h
      rw [h1] at h
      exact absurd h (by simp)
    · rw [if_neg h1] at h ⊢
      rw [ih _ h]
      simp [callPrintProc]

/-- When every call returns, nothing is thrown. -/
theorem printLines_ok (env : Env) (hp : Prints env) (ls : List Line) (st : State)
    (h : st.thrown = false) : (printLines env ls st).thrown = false := by
  induction ls generalizing st with
  | nil => exact h
  | cons l rest ih =>
    have h1 : (callPrintProc env l st).thrown = false := by
      simp [callPrintProc, h, hp l.proc l.art]
    rw [printLines]
    rw [h1]
    exact ih _ h1

/-! ### The walk: totality and an induction principle -/

theorem printOwn_childMap (env : Env) (pid : Int) (tree : List TreeEntry) (hc : Bool)
    (proc : Proc) (st : State) : (printOwn env pid tree hc proc st).childMap = st.childMap := by
  unfold printOwn
  dsimp only
  split
  · rfl
  · split
    · rw [(printLines_childMap _ _ _).1]; rfl
    · rfl

theorem ownStep_childMap (env : Env) (pid : Int) (tree : List TreeEntry) (st : State) :
    (ownStep env pid tree st).childMap = st.childMap := by
  unfold ownStep
  split
  · exact printOwn_childMap _ _ _ _ _ _
  · rfl

theorem childrenOf_ownStep (env : Env) (pid : Int) (tree : List TreeEntry) (st : State)
    (q : Int) : childrenOf (ownStep env pid tree st) q = childrenOf st q := by
  unfold childrenOf
  rw [ownStep_childMap]

theorem printPidTreeFuel_succ (env : Env) (fuel : Nat) (pid : Int) (tree : List TreeEntry)
    (st : State) :
    printPidTreeFuel env (fuel + 1) pid tree st =
      if (ownStep env pid tree st).thrown = true then some (ownStep env pid tree st)
      else if hasChildren env st pid = true then
        printChildren (printPidTreeFuel env fuel) (hasParent st pid) (childrenOf st pid)
          (childTree (hasParent st pid) tree (childrenOf st pid))
          (eraseChildren (ownStep env pid tree st) pid)
      else some (ownStep env pid tree st) := by
  rw [printPidTreeFuel]
  dsimp only
  rw [childrenOf_ownStep]
  cases (ownStep env pid tree st).thrown <;> cases hasChildren env st pid <;> simp

theorem printChildren_total (walk : Int → List TreeEntry → State → Option State) (hp : Bool)
    (n : Nat)
    (hwalk : ∀ pid tree st, st.childMap.length < n →
      ∃ st1, walk pid tree st = some st1 ∧ st1.childMap.length ≤ st.childMap.length) :
    ∀ (cs : List Proc) (tree : List TreeEntry) (st : State), st.childMap.length < n →
      ∃ st1, printChildren walk hp cs tree st = some st1 ∧
        st1.childMap.length ≤ st.childMap.length := by
  intro cs
  induction cs with
  | nil => intro tree st _; exact ⟨st, rfl, le_refl _⟩
  | cons c cs ih =>
    intro tree st hlt
    obtain ⟨st1, h1, hle1⟩ := hwalk c.pid tree st hlt
    rw [printChildren, h1]
    dsimp only
    by_cases ht : st1.thrown = true
    · rw [if_pos ht]
      exact ⟨st1, rfl, hle1⟩
    · rw [if_neg ht]
      obtain ⟨st2, h2, hle2⟩ := ih (if hp then bumpBack tree else tree) st1 (by omega)
      exact ⟨st2, h2, by omega⟩

theorem printPidTreeFuel_total (env : Env) :
    ∀ (fuel : Nat) (pid : Int) (tree : List TreeEntry) (st : State),
      st.childMap.length < fuel →
      ∃ st1, printPidTreeFuel env fuel pid tree st = some st1 ∧
        st1.childMap.length ≤ st.childMap.length := by
  intro fuel
  induction fuel with
  | zero => intro pid tree st h; omega
  | succ n ih =>
    intro pid tree st hlt
    rw [printPidTreeFuel_succ]
    by_cases ht : (ownStep env pid tree st).thrown = true
    · rw [if_pos ht]
      exact ⟨_, rfl, by rw [ownStep_childMap]⟩
    rw [if_neg ht]
    by_cases hc : hasChildren env st pid = true
    · rw [if_pos hc]
      have hsome : (mapFind st.childMap pid).isSome = true := by
        unfold hasChildren at hc
        simp only [Bool.and_eq_true] at hc
        exact hc.2
      have hlt2 : (eraseChildren (ownStep env pid tree st) pid).childMap.length
          < st.childMap.length := by
        show (mapErase (ownStep env pid tree st).childMap pid).length < _
        rw [ownStep_childMap]
        exact mapErase_length_lt _ _ hsome
      obtain ⟨st1, h1, hle1⟩ := printChildren_total (printPidTreeFuel env n) (hasParent st pid) n
        ih (childrenOf st pid) (childTree (hasParent st pid) tree (childrenOf st pid))
        (eraseChildren (ownStep env pid tree st) pid) (by omega)
      exact ⟨st1, h1, by omega⟩
    · rw [if_neg hc]
      exact ⟨_, rfl, by rw [ownStep_childMap]⟩

theorem printPidTree_total (env : Env) (pid : Int) (tree : List TreeEntry) (st : State) :
    ∃ st1, printPidTree env pid tree st = some st1 :=
  let ⟨st1, h, _⟩ := printPidTreeFuel_total env (st.childMap.length + 1) pid tree st
    (Nat.lt_succ_self _)
  ⟨st1, h⟩

/-- The loop over the children of a call that returns, as a chain of calls
that return. -/
theorem printChildren_rel (walk : Int → List TreeEntry → State → Option State)
    (R : Int → List TreeEntry → State → State → Prop) (hp : Bool)
    (hwalk : ∀ pid tree st st1, walk pid tree st = some st1 → st1.thrown = false →
      R pid tree st st1) :
    ∀ (cs : List Proc) (tree : List TreeEntry) (st st1 : State),
      printChildren walk hp cs tree st = some st1 → st1.thrown = false →
      ChildrenRel R hp cs tree st st1 := by
  intro cs
  induction cs with
  | nil =>
    intro tree st st1 h _
    simp only [printChildren, Option.some.injEq] at h
    subst h
    exact ChildrenRel.nil _ _
  | cons c cs ih =>
    intro tree st st1 h hok
    rw [printChildren] at h
    cases hw : walk c.pid tree st with
    | none => rw [hw] at h; simp at h
    | some st2 =>
      rw [hw] at h
      dsimp only at h
      by_cases ht : st2.thrown = true
      · rw [if_pos ht] at h
        simp only [Option.some.injEq] at h
        subst h
        rw [ht] at hok
        exact absurd hok (by simp)
      · rw [if_neg ht] at h
        have ht2 : st2.thrown = false := by simpa using ht
        exact ChildrenRel.cons c cs tree st st2 st1 (hwalk _ _ _ _ hw ht2) (ih _ _ _ h hok)

theorem printPidTreeFuel_induct (env : Env) (R : Int → List TreeEntry → State → State → Prop)
    (leaf : ∀ pid tree st, hasChildren env st pid = false →
      (ownStep env pid tree st).thrown = false → R pid tree st (ownStep env pid tree st))
    (node : ∀ pid tree st st1, hasChildren env st pid = true →
      (ownStep env pid tree st).thrown = false →
      ChildrenRel R (hasParent st pid) (childrenOf st pid)
        (childTree (hasParent st pid) tree (childrenOf st pid))
        (eraseChildren (ownStep env pid tree st) pid) st1 →
      R pid tree st st1) :
    ∀ (fuel : Nat) (pid : Int) (tree : List TreeEntry) (st st1 : State),
      printPidTreeFuel env fuel pid tree st = some st1 → st1.thrown = false →
      R pid tree st st1 := by
  intro fuel
  induction fuel with
  | zero => intro pid tree st st1 h; simp [printPidTreeFuel] at h
  | succ n ih =>
    intro pid tree st st1 h hok
    rw [printPidTreeFuel_succ] at h
    by_cases ht : (ownStep env pid tree st).thrown = true
    · rw [if_pos ht] at h
      simp only [Option.some.injEq] at h
      subst h
      rw [ht] at hok
      exact absurd hok (by simp)
    rw [if_neg ht] at h
    have ht2 : (ownStep env pid tree st).thrown = false := by simpa using ht
    by_cases hc : hasChildren env st pid = true
    · rw [if_pos hc] at h
      exact node pid tree st st1 hc ht2 (printChildren_rel _ R _ ih _ _ _ _ h hok)
    · rw [if_neg hc] at h
      simp only [Option.some.injEq] at h
      subst h
      exact leaf pid tree st (by simpa using hc) ht2

theorem Extends.refl (st : State) : Extends st st :=
  ⟨⟨[], by simp⟩, fun _ _ h => h, List.Sublist.refl _, fun _ _ h => h, rfl, rfl, fun h => h⟩

theorem Extends.trans {a b c : State} (h1 : Extends a b) (h2 : Extends b c) : Extends a c := by
  obtain ⟨n1, e1⟩ := h1.out
  obtain ⟨n2, e2⟩ := h2.out
  exact ⟨⟨n1 ++ n2, by rw [e2, e1, List.append_assoc]⟩,
    fun k v h => h1.procFind k v (h2.procFind k v h),
    h2.procSub.trans h1.procSub,
    fun k l h => h1.childFind k l (h2.childFind k l h),
    h2.errMap.trans h1.errMap, h2.skipped.trans h1.skipped,
    fun h => h2.thrown (h1.thrown h)⟩

/-- A step that ends without exception started without one. -/
theorem Extends.not_thrown {st st1 : State} (h : Extends st st1) (hok : st1.thrown = false) :
    st.thrown = false := by
  cases ht : st.thrown with
  | false => rfl
  | true => rw [h.thrown ht] at hok; exact absurd hok (by simp)

theorem mapFind_of_mapErase {β : Type} (m : List (Int × β)) (k k' : Int) (v : β)
    (h : mapFind (mapErase m k) k' = some v) : mapFind m k' = some v := by
  rw [mapFind_mapErase] at h
  by_cases hk : k' = k
  · simp [hk] at h
  · simpa [hk] using h

theorem mapErase_sublist {β : Type} (m : List (Int × β)) (k : Int) :
    (mapErase m k).Sublist m :=
  List.filter_sublist _

/-- The block leaves `procMap` as it is when its first call throws, and erases
the id otherwise. -/
theorem printOwn_procMap_cases (env : Env) (pid : Int) (tree : List TreeEntry) (hc : Bool)
    (proc : Proc) (st : State) :
    (printOwn env pid tree hc proc st).procMap = st.procMap ∨
      (printOwn env pid tree hc proc st).procMap = mapErase st.procMap pid := by
  unfold printOwn
  dsimp only
  split
  · exact Or.inl rfl
  · split
    · rw [(printLines_childMap _ _ _).2.1]; exact Or.inr rfl
    · exact Or.inr rfl

theorem printOwn_procMap (env : Env) (pid : Int) (tree : List TreeEntry) (hc : Bool)
    (proc : Proc) (st : State) (hok : (printOwn env pid tree hc proc st).thrown = false) :
    (printOwn env pid tree hc proc st).procMap = mapErase st.procMap pid := by
  unfold printOwn at hok ⊢
  dsimp only at hok ⊢
  split at hok
  · next h1 => rw [h1] at hok; exact absurd hok (by simp)
  · next h1 =>
    rw [if_neg h1]
    split
    · rw [(printLines_childMap _ _ _).2.1]; rfl
    · rfl

theorem printOwn_errMap (env : Env) (pid : Int) (tree : List TreeEntry) (hc : Bool)
    (proc : Proc) (st : State) :
    (printOwn env pid tree hc proc st).errMap = st.errMap ∧
    (printOwn env pid tree hc proc st).skippedKernelProc = st.skippedKernelProc := by
  unfold printOwn
  dsimp only
  split
  · exact ⟨rfl, rfl⟩
  · split
    · rw [(printLines_childMap _ _ _).2.2.1, (printLines_childMap _ _ _).2.2.2]
      exact ⟨rfl, rfl⟩
    · exact ⟨rfl, rfl⟩

theorem printOwn_thrown_mono (env : Env) (pid : Int) (tree : List TreeEntry) (hc : Bool)
    (proc : Proc) (st : State) (h : st.thrown = true) :
    (printOwn env pid tree hc proc st).thrown = true := by
  have h1 : (callPrintProc env (Line.own proc (treeArt env.art hc tree).1) st).thrown = true := by
    simp [callPrintProc, h]
  unfold printOwn
  dsimp only
  rw [if_pos h1]
  exact h1

/-- The first call of the block is the call for the record, whether it returns
or not. -/
theorem printOwn_out_first (env : Env) (pid : Int) (tree : List TreeEntry) (hc : Bool)
    (proc : Proc) (st : State) :
    ∃ rest, (printOwn env pid tree hc proc st).out =
      st.out ++ Line.own proc (treeArt env.art hc tree).1 :: rest := by
  unfold printOwn
  dsimp only
  split
  · exact ⟨[], rfl⟩
  · split
    · obtain ⟨new, hnew⟩ := printLines_out_grows env
        (threadLines env.art hc tree.isEmpty (treeArt env.art hc tree).2
          (env.task pid).length (env.task pid) 0)
        { callPrintProc env (Line.own proc (treeArt env.art hc tree).1) st with
          procMap := mapErase
            (callPrintProc env (Line.own proc (treeArt env.art hc tree).1) st).procMap pid }
      exact ⟨new, by rw [hnew]; simp [callPrintProc]⟩
    · exact ⟨[], rfl⟩

/-- The thread lines `printOwn` writes after the line of the record, when no
call throws. -/
theorem printOwn_out (env : Env) (pid : Int) (tree : List TreeEntry) (hc : Bool)
    (proc : Proc) (st : State) (hok : (printOwn env pid tree hc proc st).thrown = false) :
    (printOwn env pid tree hc proc st).out =
      st.out ++ Line.own proc (treeArt env.art hc tree).1 ::
        (if (!env.skipThreads && pid != 2 && proc.ppid != 2) = true then
          threadLines env.art hc tree.isEmpty (treeArt env.art hc tree).2
            (env.task pid).length (env.task pid) 0
        else []) := by
  unfold printOwn at hok ⊢
  dsimp only at hok ⊢
  split at hok
  · next h1 => rw [h1] at hok; exact absurd hok (by simp)
  · next h1 =>
    rw [if_neg h1]
    split at hok
    · next h2 =>
      rw [if_pos h2, if_pos h2, printLines_out _ _ _ hok]
      simp [callPrintProc]
    · next h2 =>
      rw [if_neg h2, if_neg h2]
      simp [callPrintProc]

/-- When every call returns, the block throws nothing. -/
theorem printOwn_ok (env : Env) (hp : Prints env) (pid : Int) (tree : List TreeEntry) (hc : Bool)
    (proc : Proc) (st : State) (h : st.thrown = false) :
    (printOwn env pid tree hc proc st).thrown = false := by
  have h1 : (callPrintProc env (Line.own proc (treeArt env.art hc tree).1) st).thrown = false := by
    simp [callPrintProc, h, hp proc _, Line.proc, Line.art]
  unfold printOwn
  dsimp only
  rw [if_neg (by rw [h1]; simp)]
  split
  · exact printLines_ok env hp _ _ h1
  · exact h1

theorem mapErase_of_none {β : Type} (m : List (Int × β)) (k : Int)
    (h : mapFind m k = none) : mapErase m k = m := by
  induction m with
  | nil => rfl
  | cons kv m ih =>
    obtain ⟨k0, v0⟩ := kv
    by_cases h0 : k0 = k
    · simp [mapFind, h0] at h
    · simp only [mapFind, h0, if_false] at h
      rw [mapErase_cons_ne _ _ _ _ h0, ih h]

theorem ownStep_procMap (env : Env) (pid : Int) (tree : List TreeEntry) (st : State)
    (hok : (ownStep env pid tree st).thrown = false) :
    (ownStep env pid tree st).procMap = mapErase st.procMap pid := by
  unfold ownStep at hok ⊢
  split
  · next proc h =>
    rw [h] at hok
    exact printOwn_procMap _ _ _ _ _ _ hok
  · next h => exact (mapErase_of_none _ _ h).symm

theorem ownStep_ok (env : Env) (hp : Prints env) (pid : Int) (tree : List TreeEntry)
    (st : State) (h : st.thrown = false) : (ownStep env pid tree st).thrown = false := by
  unfold ownStep
  split
  · exact printOwn_ok env hp _ _ _ _ _ h
  · exact h

theorem ownStep_extends (env : Env) (pid : Int) (tree : List TreeEntry) (st : State) :
    Extends st (ownStep env pid tree st) := by
  refine ⟨?_, ?_, ?_, ?_, ?_, ?_, ?_⟩
  · unfold ownStep
    split
    · obtain ⟨rest, hrest⟩ := printOwn_out_first env pid tree (hasChildren env st pid) _ st
      exact ⟨_, hrest⟩
    · exact ⟨[], by simp⟩
  · intro k v h
    unfold ownStep at h
    split at h
    · rcases printOwn_procMap_cases env pid tree (hasChildren env st pid) _ st with e | e
      · rwa [e] at h
      · rw [e] at h; exact mapFind_of_mapErase _ _ _ _ h
    · exact h
  · unfold ownStep
    split
    · rcases printOwn_procMap_cases env pid tree (hasChildren env st pid) _ st with e | e
      · rw [e]
      · rw [e]; exact mapErase_sublist _ _
    · exact List.Sublist.refl _
  · intro k l h
    rwa [ownStep_childMap] at h
  · unfold ownStep
    split
    · exact (printOwn_errMap _ _ _ _ _ _).1
    · rfl
  · unfold ownStep
    split
    · exact (printOwn_errMap _ _ _ _ _ _).2
    · rfl
  · intro h
    unfold ownStep
    split
    · exact printOwn_thrown_mono _ _ _ _ _ _ h
    · exact h

theorem eraseChildren_extends (st : State) (pid : Int) : Extends st (eraseChildren st pid) :=
  ⟨⟨[], by simp [eraseChildren]⟩, fun _ _ h => h, List.Sublist.refl _,
    fun k l h => mapFind_of_mapErase _ _ _ _ h, rfl, rfl, fun h => h⟩

theorem ChildrenRel.imp {R1 R2 : Int → List TreeEntry → State → State → Prop} {hp : Bool}
    (himp : ∀ pid tree st st1, R1 pid tree st st1 → R2 pid tree st st1) :
    ∀ {cs : List Proc} {tree : List TreeEntry} {st st1 : State},
      ChildrenRel R1 hp cs tree st st1 → ChildrenRel R2 hp cs tree st st1 := by
  intro cs tree st st1 h
  induction h with
  | nil tree st => exact ChildrenRel.nil _ _
  | cons proc rest tree st st1 st2 h1 _ ih =>
    exact ChildrenRel.cons _ _ _ _ _ _ (himp _ _ _ _ h1) ih

theorem ChildrenRel.frame_loop {hp : Bool} {cs : List Proc} {tree : List TreeEntry}
    {st st1 : State} (h : ChildrenRel (fun _ _ s s1 => Extends s s1) hp cs tree st st1) :
    Extends st st1 := by
  induction h with
  | nil tree st => exact Extends.refl _
  | cons proc rest tree st st1 st2 h1 _ ih => exact h1.trans ih

theorem printChildren_extends (walk : Int → List TreeEntry → State → Option State) (hp : Bool)
    (hwalk : ∀ pid tree st st1, walk pid tree st = some st1 → Extends st st1) :
    ∀ (cs : List Proc) (tree : List TreeEntry) (st st1 : State),
      printChildren walk hp cs tree st = some st1 → Extends st st1 := by
  intro cs
  induction cs with
  | nil =>
    intro tree st st1 h
    simp only [printChildren, Option.some.injEq] at h
    subst h
    exact Extends.refl _
  | cons c cs ih =>
    intro tree st st1 h
    rw [printChildren] at h
    cases hw : walk c.pid tree st with
    | none => rw [hw] at h; simp at h
    | some st2 =>
      rw [hw] at h
      dsimp only at h
      by_cases ht : st2.thrown = true
      · rw [if_pos ht] at h
        simp only [Option.some.injEq] at h
        subst h
        exact hwalk _ _ _ _ hw
      · rw [if_neg ht] at h
        exact (hwalk _ _ _ _ hw).trans (ih _ _ _ h)

/-- Every call, whether it returns or ends by an exception, only extends the
state. -/
theorem printPidTreeFuel_extends (env : Env) (fuel : Nat) (pid : Int) (tree : List TreeEntry)
    (st st1 : State) (h : printPidTreeFuel env fuel pid tree st = some st1) : Extends st st1 := by
  induction fuel generalizing pid tree st st1 with
  | zero => simp [printPidTreeFuel] at h
  | succ n ih =>
    rw [printPidTreeFuel_succ] at h
    by_cases ht : (ownStep env pid tree st).thrown = true
    · rw [if_pos ht] at h
      simp only [Option.some.injEq] at h
      subst h
      exact ownStep_extends _ _ _ _
    rw [if_neg ht] at h
    by_cases hc : hasChildren env st pid = true
    · rw [if_pos hc] at h
      exact ((ownStep_extends env pid tree st).trans (eraseChildren_extends _ _)).trans
        (printChildren_extends _ _ (fun p t s s1 hw => ih p t s s1 hw) _ _ _ _ h)
    · rw [if_neg hc] at h
      simp only [Option.some.injEq] at h
      subst h
      exact ownStep_extends _ _ _ _

theorem Walks.frame {env : Env} {pid : Int} {tree : List TreeEntry} {st st1 : State}
    (h : Walks env pid tree st st1) : Extends st st1 :=
  let ⟨fuel, hf, _⟩ := h
  printPidTreeFuel_extends env fuel pid tree st st1 hf

/-- Induction over the calls of a walk that returns, with the calls themselves
at hand. -/
theorem Walks.induct (env : Env) (R : Int → List TreeEntry → State → State → Prop)
    (leaf : ∀ pid tree st, hasChildren env st pid = false →
      (ownStep env pid tree st).thrown = false → R pid tree st (ownStep env pid tree st))
    (node : ∀ pid tree st st1, hasChildren env st pid = true →
      (ownStep env pid tree st).thrown = false →
      ChildrenRel (fun p t s s1 => Walks env p t s s1 ∧ R p t s s1)
        (hasParent st pid) (childrenOf st pid)
        (childTree (hasParent st pid) tree (childrenOf st pid))
        (eraseChildren (ownStep env pid tree st) pid) st1 →
      R pid tree st st1)
    {pid : Int} {tree : List TreeEntry} {st st1 : State}
    (h : Walks env pid tree st st1) : R pid tree st st1 := by
  obtain ⟨fuel, hf, hok⟩ := h
  induction fuel generalizing pid tree st st1 with
  | zero => simp [printPidTreeFuel] at hf
  | succ n ih =>
    rw [printPidTreeFuel_succ] at hf
    by_cases ht : (ownStep env pid tree st).thrown = true
    · rw [if_pos ht] at hf
      simp only [Option.some.injEq] at hf
      subst hf
      rw [ht] at hok
      exact absurd hok (by simp)
    rw [if_neg ht] at hf
    have ht2 : (ownStep env pid tree st).thrown = false := by simpa using ht
    by_cases hc : hasChildren env st pid = true
    · rw [if_pos hc] at hf
      refine node pid tree st st1 hc ht2 (printChildren_rel _ _ _ ?_ _ _ _ _ hf hok)
      intro p t s s1 hw hok1
      exact ⟨⟨n, hw, hok1⟩, ih hw hok1⟩
    · rw [if_neg hc] at hf
      simp only [Option.some.injEq] at hf
      subst hf
      exact leaf pid tree st (by simpa using hc) ht2

theorem printPidTree_walks {env : Env} {pid : Int} {tree : List TreeEntry} {st st1 : State}
    (h : printPidTree env pid tree st = some st1) (hok : st1.thrown = false) :
    Walks env pid tree st st1 :=
  ⟨_, h, hok⟩

/-! ### Runs in which every call of `printProc` returns -/

theorem printChildren_ok (walk : Int → List TreeEntry → State → Option State) (hp : Bool)
    (hwalk : ∀ pid tree st st1, st.thrown = false → walk pid tree st = some st1 →
      st1.thrown = false) :
    ∀ (cs : List Proc) (tree : List TreeEntry) (st st1 : State), st.thrown = false →
      printChildren walk hp cs tree st = some st1 → st1.thrown = false := by
  intro cs
  induction cs with
  | nil =>
    intro tree st st1 h0 h
    simp only [printChildren, Option.some.injEq] at h
    subst h
    exact h0
  | cons c cs ih =>
    intro tree st st1 h0 h
    rw [printChildren] at h
    cases hw : walk c.pid tree st with
    | none => rw [hw] at h; simp at h
    | some st2 =>
      rw [hw] at h
      dsimp only at h
      have h2 := hwalk _ _ _ _ h0 hw
      rw [if_neg (by rw [h2]; simp)] at h
      exact ih _ _ _ h2 h

theorem printPidTreeFuel_ok (env : Env) (hp : Prints env) (fuel : Nat) (pid : Int)
    (tree : List TreeEntry) (st st1 : State) (h0 : st.thrown = false)
    (h : printPidTreeFuel env fuel pid tree st = some st1) : st1.thrown = false := by
  induction fuel generalizing pid tree st st1 with
  | zero => simp [printPidTreeFuel] at h
  | succ n ih =>
    rw [printPidTreeFuel_succ] at h
    have h1 := ownStep_ok env hp pid tree st h0
    rw [if_neg (by rw [h1]; simp)] at h
    by_cases hc : hasChildren env st pid = true
    · rw [if_pos hc] at h
      exact printChildren_ok _ _ (fun p t s s1 hs hw => ih p t s s1 hs hw) _ _
        (eraseChildren (ownStep env pid tree st) pid) _ h1 h
    · rw [if_neg hc] at h
      simp only [Option.some.injEq] at h
      subst h
      exact h1

theorem printTargets_ok (env : Env) (hp : Prints env) :
    ∀ (targets : List Int) (st st1 : State), st.thrown = false →
      printTargets env targets st = some st1 → st1.thrown = false := by
  intro targets
  induction targets with
  | nil =>
    intro st st1 h0 h
    simp only [printTargets, Option.some.injEq] at h
    subst h
    exact h0
  | cons t ts ih =>
    intro st st1 h0 h
    rw [printTargets] at h
    cases hw : printPidTree env t [] st with
    | none => rw [hw] at h; simp at h
    | some st2 =>
      rw [hw] at h
      dsimp only at h
      have h2 := printPidTreeFuel_ok env hp _ _ _ _ _ h0 hw
      rw [if_neg (by rw [h2]; simp)] at h
      exact ih _ _ h2 h

/-! ### Lines of one call -/

theorem ownLines_append (a b : List Line) : ownLines (a ++ b) = ownLines a ++ ownLines b := by
  simp [ownLines]

theorem ownProcs_append (a b : List Line) : ownProcs (a ++ b) = ownProcs a ++ ownProcs b := by
  induction a with
  | nil => rfl
  | cons l a ih => cases l <;> simp [ownProcs, ih]

theorem ownLines_threadLines (art : Art) (hc te : Bool) (tidPre : String) (size : Nat)
    (ts : List Proc) (i : Nat) : ownLines (threadLines art hc te tidPre size ts i) = [] := by
  induction ts generalizing i with
  | nil => rfl
  | cons t ts ih =>
    rw [threadLines]
    simp only [ownLines, List.filter_cons, Bool.false_eq_true, if_false]
    exact ih (i + 1)

theorem ownProcs_threadLines (art : Art) (hc te : Bool) (tidPre : String) (size : Nat)
    (ts : List Proc) (i : Nat) : ownProcs (threadLines art hc te tidPre size ts i) = [] := by
  induction ts generalizing i with
  | nil => rfl
  | cons t ts ih =>
    rw [threadLines]
    simp only [ownProcs]
    exact ih (i + 1)

theorem ownLines_threadsOf (env : Env) (pid : Int) (tree : List TreeEntry) (hc : Bool)
    (proc : Proc) : ownLines (threadsOf env pid tree hc proc) = [] := by
  unfold threadsOf
  split
  · exact ownLines_threadLines _ _ _ _ _ _ _
  · rfl

theorem ownProcs_threadsOf (env : Env) (pid : Int) (tree : List TreeEntry) (hc : Bool)
    (proc : Proc) : ownProcs (threadsOf env pid tree hc proc) = [] := by
  unfold threadsOf
  split
  · exact ownProcs_threadLines _ _ _ _ _ _ _
  · rfl

theorem threadsOf_skip (env : Env) (pid : Int) (tree : List TreeEntry) (hc : Bool)
    (proc : Proc) (h : env.skipThreads = true) : threadsOf env pid tree hc proc = [] := by
  simp [threadsOf, h]

theorem ownStep_out_some (env : Env) (pid : Int) (tree : List TreeEntry) (st : State)
    (proc : Proc) (h : mapFind st.procMap pid = some proc)
    (hok : (ownStep env pid tree st).thrown = false) :
    (ownStep env pid tree st).out =
      st.out ++ Line.own proc (treeArt env.art (hasChildren env st pid) tree).1 ::
        threadsOf env pid tree (hasChildren env st pid) proc := by
  unfold ownStep at hok ⊢
  rw [h] at hok ⊢
  exact printOwn_out _ _ _ _ _ _ hok

/-- The first call of the step is the call for the record, whether it returns
or not. -/
theorem ownStep_out_first (env : Env) (pid : Int) (tree : List TreeEntry) (st : State)
    (proc : Proc) (h : mapFind st.procMap pid = some proc) :
    ∃ rest, (ownStep env pid tree st).out =
      st.out ++ Line.own proc (treeArt env.art (hasChildren env st pid) tree).1 :: rest := by
  unfold ownStep
  rw [h]
  exact printOwn_out_first _ _ _ _ _ _

theorem ownStep_none (env : Env) (pid : Int) (tree : List TreeEntry) (st : State)
    (h : mapFind st.procMap pid = none) : ownStep env pid tree st = st := by
  unfold ownStep
  rw [h]

theorem ChildrenRel.walks_frame {env : Env}
    {R : Int → List TreeEntry → State → State → Prop} {hp : Bool} {cs : List Proc}
    {tree : List TreeEntry} {st st1 : State}
    (h : ChildrenRel (fun p t s s1 => Walks env p t s s1 ∧ R p t s s1) hp cs tree st st1) :
    Extends st st1 :=
  ChildrenRel.frame_loop (ChildrenRel.imp (fun _ _ _ _ hw => hw.1.frame) h)

/-- After the call the id is in neither index (in `childMap` only when the
tree is walked). -/
theorem Walks.consumed {env : Env} {pid : Int} {tree : List TreeEntry} {st st1 : State}
    (h : Walks env pid tree st st1) :
    mapFind st1.procMap pid = none ∧ (env.noTree = false → mapFind st1.childMap pid = none) := by
  refine Walks.induct env
    (fun pid _ _ st1 => mapFind st1.procMap pid = none ∧
      (env.noTree = false → mapFind st1.childMap pid = none)) ?_ ?_ h
  · intro pid tree st hc hok
    refine ⟨?_, ?_⟩
    · rw [ownStep_procMap _ _ _ _ hok, mapFind_mapErase]; simp
    · intro hnt
      rw [ownStep_childMap]
      unfold hasChildren at hc
      rw [hnt] at hc
      simpa using hc
  · intro pid tree st st1 _ hok hrel
    have hext := hrel.walks_frame
    refine ⟨?_, fun _ => ?_⟩
    · cases hf : mapFind st1.procMap pid with
      | none => rfl
      | some v =>
        have := hext.procFind _ _ hf
        simp [eraseChildren, ownStep_procMap _ _ _ _ hok, mapFind_mapErase] at this
    · cases hf : mapFind st1.childMap pid with
      | none => rfl
      | some v =>
        have := hext.childFind _ _ hf
        simp [eraseChildren, mapFind_mapErase] at this

/-- The first call of `printProc` a call of `printPidTree` makes is the call
for the record of `pid`, when that record is still in `procMap`; so it is
whether the call returns or ends by an exception. -/
theorem printPidTreeFuel_first_line (env : Env) (fuel : Nat) (pid : Int)
    (tree : List TreeEntry) (st st1 : State)
    (hfuel : printPidTreeFuel env fuel pid tree st = some st1) (proc : Proc)
    (hf : mapFind st.procMap pid = some proc) :
    ∃ rest, st1.out =
      st.out ++ Line.own proc (treeArt env.art (hasChildren env st pid) tree).1 :: rest := by
  cases fuel with
  | zero => simp [printPidTreeFuel] at hfuel
  | succ n =>
    rw [printPidTreeFuel_succ] at hfuel
    obtain ⟨rest0, hrest0⟩ := ownStep_out_first env pid tree st proc hf
    by_cases ht : (ownStep env pid tree st).thrown = true
    · rw [if_pos ht] at hfuel
      simp only [Option.some.injEq] at hfuel
      subst hfuel
      exact ⟨rest0, hrest0⟩
    rw [if_neg ht] at hfuel
    by_cases hc : hasChildren env st pid = true
    · rw [if_pos hc] at hfuel
      have hext := printChildren_extends _ _
        (fun p t s s1 hw => printPidTreeFuel_extends env n p t s s1 hw) _ _ _ _ hfuel
      obtain ⟨new, hnew⟩ := hext.out
      refine ⟨rest0 ++ new, ?_⟩
      rw [hnew]
      show (ownStep env pid tree st).out ++ new = _
      rw [hrest0]
      simp
    · rw [if_neg hc] at hfuel
      simp only [Option.some.injEq] at hfuel
      subst hfuel
      exact ⟨rest0, hrest0⟩

/-- The first line a call writes is the line of the record of `pid`, when
that record is still in `procMap`. -/
theorem Walks.first_line {env : Env} {pid : Int} {tree : List TreeEntry} {st st1 : State}
    (h : Walks env pid tree st st1) (proc : Proc) (hf : mapFind st.procMap pid = some proc) :
    ∃ rest, st1.out =
      st.out ++ Line.own proc (treeArt env.art (hasChildren env st pid) tree).1 :: rest :=
  let ⟨fuel, hfuel, _⟩ := h
  printPidTreeFuel_first_line env fuel pid tree st st1 hfuel proc hf

/-- A call on `pid` keeps every record of `procMap` whose id is neither `pid`
nor the id of a record in a list of `childMap`. -/
theorem Walks.keeps {env : Env} {pid : Int} {tree : List TreeEntry} {st st1 : State}
    (h : Walks env pid tree st st1) :
    ∀ k v, mapFind st.procMap k = some v → k ≠ pid →
      (∀ q l, mapFind st.childMap q = some l → ∀ x ∈ l, x.pid ≠ k) →
      mapFind st1.procMap k = some v := by
  refine Walks.induct env
    (fun pid _ st st1 => ∀ k v, mapFind st.procMap k = some v → k ≠ pid →
      (∀ q l, mapFind st.childMap q = some l → ∀ x ∈ l, x.pid ≠ k) →
      mapFind st1.procMap k = some v) ?_ ?_ h
  · intro pid tree st _ hok k v hf hne _
    rw [ownStep_procMap _ _ _ _ hok, mapFind_mapErase, if_neg hne]
    exact hf
  · intro pid tree st st1 hc hok hrel k v hf hne hlists
    have hcs : ∀ x ∈ childrenOf st pid, x.pid ≠ k := by
      intro x hx
      unfold childrenOf at hx
      cases hl : mapFind st.childMap pid with
      | none => rw [hl] at hx; simp at hx
      | some l => rw [hl] at hx; exact hlists pid l hl x hx
    have h2 : mapFind (eraseChildren (ownStep env pid tree st) pid).procMap k = some v := by
      show mapFind (ownStep env pid tree st).procMap k = some v
      rw [ownStep_procMap _ _ _ _ hok, mapFind_mapErase, if_neg hne]
      exact hf
    have hl2 : ∀ q l, mapFind (eraseChildren (ownStep env pid tree st) pid).childMap q = some l →
        ∀ x ∈ l, x.pid ≠ k := by
      intro q l hq
      have := ((ownStep_extends env pid tree st).trans (eraseChildren_extends _ _)).childFind q l hq
      exact hlists q l this
    clear hc hf hlists hok
    generalize eraseChildren (ownStep env pid tree st) pid = s at hrel h2 hl2
    generalize childTree (hasParent st pid) tree (childrenOf st pid) = t at hrel
    generalize childrenOf st pid = cs at hrel hcs
    generalize hasParent st pid = hp at hrel
    induction hrel with
    | nil => exact h2
    | cons proc rest tree s s1 s2 h1 _ ih =>
      have hk1 := h1.2 k v h2 (fun e => hcs proc (List.mem_cons_self _ _) e.symm) hl2
      refine ih hk1 ?_ (fun x hx => hcs x (List.mem_cons_of_mem _ hx))
      intro q l hq
      exact hl2 q l (h1.1.frame.childFind q l hq)

/-! ### Matcher -/

theorem mem_setInsert (s : List Int) (k x : Int) : x ∈ setInsert s k ↔ x = k ∨ x ∈ s := by
  induction s with
  | nil => simp [setInsert]
  | cons a s ih =>
    unfold setInsert
    by_cases h1 : k < a
    · simp [h1]
    · by_cases h2 : k = a
      · subst h2; simp
      · simp only [h1, h2, if_false, List.mem_cons, ih]
        tauto

theorem mem_matchCmd (exeOnly : Bool) (myPid : Int) (str : String) (st : State)
    (pidList : List Int) (x : Int) :
    x ∈ matchCmd exeOnly myPid str st pidList ↔
      x ∈ pidList ∨ ∃ kv ∈ st.procMap, kv.2.pid = x ∧ x ≠ myPid ∧
        cmdMatches exeOnly str kv.2 = true := by
  unfold matchCmd
  generalize st.procMap = m
  induction m generalizing pidList with
  | nil => simp
  | cons kv m ih =>
    rw [List.foldl_cons, ih]
    by_cases h1 : kv.2.pid = myPid
    · simp only [h1, beq_self_eq_true, if_true, List.mem_cons, exists_eq_or_imp]
      constructor
      · rintro (h | ⟨kv2, hm, h2⟩)
        · exact Or.inl h
        · exact Or.inr (Or.inr ⟨kv2, hm, h2⟩)
      · rintro (h | ⟨h2, h3, _⟩ | ⟨kv2, hm, h2⟩)
        · exact Or.inl h
        · exact absurd h2.symm h3
        · exact Or.inr ⟨kv2, hm, h2⟩
    · have hb : (kv.2.pid == myPid) = false := by simpa using h1
      simp only [hb, Bool.false_eq_true, if_false, List.mem_cons, exists_eq_or_imp]
      by_cases h2 : cmdMatches exeOnly str kv.2 = true
      · simp only [h2, if_true, mem_setInsert]
        constructor
        · rintro ((h | h) | h)
          · subst h; exact Or.inr (Or.inl ⟨rfl, h1, trivial⟩)
          · exact Or.inl h
          · exact Or.inr (Or.inr h)
        · rintro (h | ⟨h, _, _⟩ | h)
          · exact Or.inl (Or.inr h)
          · exact Or.inl (Or.inl h.symm)
          · exact Or.inr h
      · simp only [h2, Bool.false_eq_true, if_false]
        constructor
        · rintro (h | h)
          · exact Or.inl h
          · exact Or.inr (Or.inr h)
        · rintro (h | ⟨_, _, h⟩ | h)
          · exact Or.inl h
          · exact absurd h (by simp)
          · exact Or.inr h

/-- C9 (as stated, refuted): with exe-only matching the token "foo" does add
the process whose display command is "foobar --x". -/
theorem C9_counterexample :
    ¬ (100 ∉ matchCmd true 1 "foo"
        { procMap := [(100, { pid := 100, ppid := 1, cmdline := "foobar --x" })] } []) := by
  decide

/-- C9 (amended): with exe-only matching the test is a substring test on the
text before the first space, so the token "foo" adds a process whose display
command is "foobar --x" as well as one whose display command is "foo --x". -/
theorem C9_exe_only_is_substring (myPid : Int) (st : State) (pidList : List Int)
    (kv : Int × Proc) (hmem : kv ∈ st.procMap) (hpid : kv.2.pid ≠ myPid)
    (hcmd : kv.2.cmdline = "foobar --x" ∨ kv.2.cmdline = "foo --x") :
    kv.2.pid ∈ matchCmd true myPid "foo" st pidList := by
  rw [mem_matchCmd]
  refine Or.inr ⟨kv, hmem, rfl, hpid, ?_⟩
  unfold cmdMatches
  rcases hcmd with h | h <;> rw [h] <;> decide

theorem C9_exe_only_is_substring_witness :
    (101 : Int) ∈ matchCmd true 1 "foo"
      { procMap := [(100, { pid := 100, ppid := 1, cmdline := "foobar --x" }),
                    (101, { pid := 101, ppid := 1, cmdline := "foo --x" })] } [7] :=
  C9_exe_only_is_substring 1 _ [7] (101, { pid := 101, ppid := 1, cmdline := "foo --x" })
    (by decide) (by decide) (Or.inr rfl)

/-- C10: for a token and display commands without NUL (C strings), `matchCmd`
leaves in the target set exactly the ids it held before and the ids of the
records of `procMap`, other than the own process id, whose display command,
cut at its first space when `exeOnly` is set, contains the token as a
contiguous, case-sensitive substring. -/
theorem C10_matchCmd_exact (exeOnly : Bool) (myPid : Int) (str : String) (st : State)
    (pidList : List Int) (hstr : Char.ofNat 0 ∉ str.toList)
    (hcmd : ∀ kv ∈ st.procMap, Char.ofNat 0 ∉ kv.2.cmdline.toList) (x : Int) :
    x ∈ matchCmd exeOnly myPid str st pidList ↔
      x ∈ pidList ∨ ∃ kv ∈ st.procMap, kv.2.pid = x ∧ x ≠ myPid ∧
        str.toList <:+: (if exeOnly = true then kv.2.cmdline.toList.takeWhile (fun c => c != ' ')
                         else kv.2.cmdline.toList) := by
  rw [mem_matchCmd]
  have key : ∀ kv ∈ st.procMap, (cmdMatches exeOnly str kv.2 = true ↔
      str.toList <:+: (if exeOnly = true then kv.2.cmdline.toList.takeWhile (fun c => c != ' ')
                         else kv.2.cmdline.toList)) := by
    intro kv hkv
    unfold cmdMatches
    dsimp only
    rw [strstr_iff, cStr_of_not_mem _ hstr, cStr_of_not_mem _ (hcmd kv hkv)]
    rfl
  constructor
  · rintro (h | ⟨kv, hm, h1, h2, h3⟩)
    · exact Or.inl h
    · exact Or.inr ⟨kv, hm, h1, h2, (key kv hm).1 h3⟩
  · rintro (h | ⟨kv, hm, h1, h2, h3⟩)
    · exact Or.inl h
    · exact Or.inr ⟨kv, hm, h1, h2, (key kv hm).2 h3⟩

theorem C10_matchCmd_exact_witness :
    (102 : Int) ∈ matchCmd false 1 "--x"
      { procMap := [(1, { pid := 1, ppid := 0, cmdline := "tool --x" }),
                    (102, { pid := 102, ppid := 1, cmdline := "foo --x" })] } [7] ↔
      (102 : Int) ∈ [(7 : Int)] ∨ ∃ kv ∈ [((1 : Int), ({ pid := 1, ppid := 0, cmdline := "tool --x" } : Proc)),
                    (102, { pid := 102, ppid := 1, cmdline := "foo --x" })],
        kv.2.pid = 102 ∧ (102 : Int) ≠ 1 ∧
        "--x".toList <:+: (if false = true then kv.2.cmdline.toList.takeWhile (fun c => c != ' ')
                         else kv.2.cmdline.toList) :=
  C10_matchCmd_exact false 1 "--x"
    { procMap := [(1, { pid := 1, ppid := 0, cmdline := "tool --x" }),
                  (102, { pid := 102, ppid := 1, cmdline := "foo --x" })] } [7]
    (by decide) (by decide) 102

/-- C5: the tree art of the line `printPidTree` writes for a record still in
ById Index is empty for an empty marker list; for `k` markers it is, per
marker but the deepest, a blank if that ancestor was the last sibling and a
vertical bar otherwise, then a space, and for the deepest marker the corner if
the node is the last sibling and the tee otherwise, a horizontal glyph, the
down-branching glyph if the id has a ByParent entry (the walk is on) and a
horizontal glyph otherwise, and the horizontal terminator; with the glyphs of
`initVars` this makes `2 * (k - 1) + 4` glyphs. -/
theorem C5_connector_art (env : Env) (pid : Int) (tree : List TreeEntry) (st : State)
    (proc : Proc) (hf : mapFind st.procMap pid = some proc) :
    ∃ st1 art rest, printPidTree env pid tree st = some st1 ∧
      st1.out = st.out ++ Line.own proc art :: rest ∧
      (tree = [] → art = "") ∧
      (∀ init te, tree = init ++ [te] → env.noTree = false →
        art = ancestorArt env.art init ++
            ((if te.siblingCount = te.curSibling then env.art.upRight else env.art.vertRight)
              ++ env.art.horiz
              ++ (if (mapFind st.childMap pid).isSome = true then env.art.downHoriz
                  else env.art.horiz)
              ++ env.art.horizLeft) ∧
        ∀ artASCII isatty, env.art = initVars artASCII isatty →
          art.length = 2 * (tree.length - 1) + 4) := by
  obtain ⟨st1, h1⟩ := printPidTree_total env pid tree st
  obtain ⟨rest, hrest⟩ := printPidTreeFuel_first_line env _ pid tree st st1 h1 proc hf
  refine ⟨st1, _, rest, h1, hrest, ?_, ?_⟩
  · rintro rfl
    rfl
  · intro init te htree hnt
    subst htree
    have hc : hasChildren env st pid = (mapFind st.childMap pid).isSome := by
      simp [hasChildren, hnt]
    rw [treeArt_snoc, hc]
    refine ⟨?_, ?_⟩
    · unfold nodeArt
      by_cases hl : te.siblingCount = te.curSibling
      · simp [hl]
      · simp [hl]
    · intro a t hart
      rw [String.length_append, hart, ancestorArt_length, nodeArt_length]
      simp

theorem C5_connector_art_witness :
    ∃ st1 art rest,
      printPidTree {} 8 [⟨3, 1⟩, ⟨2, 2⟩]
        { procMap := [(8, { pid := 8, ppid := 1 })],
          childMap := [(8, [{ pid := 9, ppid := 8 }])] } = some st1 ∧
      st1.out = [] ++ Line.own { pid := 8, ppid := 1 } art :: rest ∧
      ([⟨3, 1⟩, ⟨2, 2⟩] = ([] : List TreeEntry) → art = "") ∧
      (∀ init te, [⟨3, 1⟩, ⟨2, 2⟩] = init ++ [te] → ({} : Env).noTree = false →
        art = ancestorArt ({} : Env).art init ++
            ((if te.siblingCount = te.curSibling then ({} : Env).art.upRight
              else ({} : Env).art.vertRight)
              ++ ({} : Env).art.horiz
              ++ (if (mapFind [((8 : Int), [({ pid := 9, ppid := 8 } : Proc)])] 8).isSome = true
                  then ({} : Env).art.downHoriz else ({} : Env).art.horiz)
              ++ ({} : Env).art.horizLeft) ∧
        ∀ artASCII isatty, ({} : Env).art = initVars artASCII isatty →
          art.length = 2 * ([(⟨3, 1⟩ : TreeEntry), ⟨2, 2⟩].length - 1) + 4) :=
  C5_connector_art {} 8 [⟨3, 1⟩, ⟨2, 2⟩]
    { procMap := [(8, { pid := 8, ppid := 1 })],
      childMap := [(8, [{ pid := 9, ppid := 8 }])] }
    { pid := 8, ppid := 1 } rfl

/-! ### No-tree mode -/

theorem printPidTree_noTree (env : Env) (hnt : env.noTree = true) (pid : Int)
    (tree : List TreeEntry) (st : State) :
    printPidTree env pid tree st = some (ownStep env pid tree st) := by
  unfold printPidTree
  rw [printPidTreeFuel_succ]
  have : hasChildren env st pid = false := by simp [hasChildren, hnt]
  rw [this]
  simp

/-- The lines one call writes in no-tree mode. -/
theorem ownStep_out_noTree (env : Env) (hnt : env.noTree = true) (pid : Int) (st : State)
    (hok : (ownStep env pid [] st).thrown = false) :
    (ownStep env pid [] st).out = st.out ++
      (match mapFind st.procMap pid with
        | some proc => Line.own proc "" :: threadsOf env pid [] false proc
        | none => []) := by
  have hc : hasChildren env st pid = false := by simp [hasChildren, hnt]
  cases hf : mapFind st.procMap pid with
  | none => rw [ownStep_none _ _ _ _ hf]; simp
  | some proc =>
    rw [ownStep_out_some _ _ _ _ _ hf hok, hc]
    rfl

theorem printTargets_noTree (env : Env) (hnt : env.noTree = true) :
    ∀ (targets : List Int) (st : State), targets.Nodup →
      ∃ st1, printTargets env targets st = some st1 ∧ st1.childMap = st.childMap ∧
        (st1.thrown = false →
          ownLines st1.out = ownLines st.out ++
            (targets.filterMap (mapFind st.procMap)).map (fun p => Line.own p "") ∧
          (env.skipThreads = true → st1.out = st.out ++
            (targets.filterMap (mapFind st.procMap)).map (fun p => Line.own p ""))) := by
  intro targets
  induction targets with
  | nil => intro st _; exact ⟨st, rfl, rfl, fun _ => ⟨by simp, by simp⟩⟩
  | cons t ts ih =>
    intro st hnd
    rw [List.nodup_cons] at hnd
    by_cases ht : (ownStep env t [] st).thrown = true
    · refine ⟨ownStep env t [] st, ?_, ownStep_childMap _ _ _ _, ?_⟩
      · rw [printTargets, printPidTree_noTree env hnt]
        dsimp only
        rw [if_pos ht]
      · intro hok
        rw [ht] at hok
        exact absurd hok (by simp)
    have hok0 : (ownStep env t [] st).thrown = false := by simpa using ht
    obtain ⟨st1, h1, hcm, hprop⟩ := ih (ownStep env t [] st) hnd.2
    refine ⟨st1, ?_, ?_, ?_⟩
    · rw [printTargets, printPidTree_noTree env hnt]
      dsimp only
      rw [if_neg ht]
      exact h1
    · rw [hcm, ownStep_childMap]
    intro hok
    obtain ⟨hol, hout⟩ := hprop hok
    have hsame : ts.filterMap (mapFind (ownStep env t [] st).procMap) =
        ts.filterMap (mapFind st.procMap) := by
      apply List.filterMap_congr
      intro x hx
      rw [ownStep_procMap _ _ _ _ hok0, mapFind_mapErase, if_neg]
      rintro rfl
      exact hnd.1 hx
    rw [hsame] at hol hout
    refine ⟨?_, ?_⟩
    · rw [hol, ownStep_out_noTree env hnt _ _ hok0, ownLines_append]
      cases hf : mapFind st.procMap t with
      | none => simp [List.filterMap_cons, hf, ownLines]
      | some proc =>
        have h3 : ownLines (Line.own proc "" :: threadsOf env t [] false proc)
            = [Line.own proc ""] := by
          have := ownLines_threadsOf env t [] false proc
          unfold ownLines at this ⊢
          rw [List.filter_cons]
          simp only [if_true, this]
        simp only [List.filterMap_cons, hf, h3, List.map_cons, List.append_assoc,
          List.singleton_append]
    · intro hs
      rw [hout hs, ownStep_out_noTree env hnt _ _ hok0]
      cases hf : mapFind st.procMap t with
      | none => simp [List.filterMap_cons, hf]
      | some proc =>
        simp only [List.filterMap_cons, hf, threadsOf_skip env t [] false proc hs, List.map_cons,
          List.append_assoc, List.singleton_append]

/-- In no-tree mode a call of `printPidTree` with no markers, as `main` makes
it, leaves ByParent Index as it is and makes no recursive call; when no call of
`printProc` throws, it writes, when the id is in ById Index, the line of its
record with empty tree art (followed only by that process's thread lines when
thread display is on) and nothing otherwise, and erases just that id from ById
Index; over a target set the lines of records are then one per target present,
in order, with empty tree art, and with thread display off these are all the
lines.  No call throws when every line is one `printProc` returns on. -/
theorem no_tree_rows (env : Env) (hnt : env.noTree = true) (st : State) :
    (∀ pid, ∃ st1, printPidTree env pid [] st = some st1 ∧ st1.childMap = st.childMap ∧
        (Prints env → st.thrown = false → st1.thrown = false) ∧
        (st1.thrown = false →
          st1.out = st.out ++
            (match mapFind st.procMap pid with
              | some proc => Line.own proc "" :: threadsOf env pid [] false proc
              | none => []) ∧
          st1.procMap = mapErase st.procMap pid ∧
          (∀ k, k ≠ pid → mapFind st1.procMap k = mapFind st.procMap k))) ∧
    (∀ targets : List Int, targets.Nodup →
      ∃ st1, printTargets env targets st = some st1 ∧ st1.childMap = st.childMap ∧
        (Prints env → st.thrown = false → st1.thrown = false) ∧
        (st1.thrown = false →
          ownLines st1.out = ownLines st.out ++
            (targets.filterMap (mapFind st.procMap)).map (fun p => Line.own p "") ∧
          (env.skipThreads = true → st1.out = st.out ++
            (targets.filterMap (mapFind st.procMap)).map (fun p => Line.own p "")))) := by
  refine ⟨fun pid => ⟨ownStep env pid [] st, printPidTree_noTree env hnt pid [] st,
    ownStep_childMap _ _ _ _, fun hp h0 => ownStep_ok env hp _ _ _ h0, fun hok =>
      ⟨ownStep_out_noTree env hnt pid st hok, ownStep_procMap _ _ _ _ hok, ?_⟩⟩, ?_⟩
  · intro k hk
    rw [ownStep_procMap _ _ _ _ hok, mapFind_mapErase, if_neg hk]
  · intro targets hnd
    obtain ⟨st1, h1, hcm, hprop⟩ := printTargets_noTree env hnt targets st hnd
    exact ⟨st1, h1, hcm, fun hp h0 => printTargets_ok env hp _ _ _ h0 h1, hprop⟩

theorem no_tree_rows_sample :
    ∃ st1, printTargets { noTree := true } [1, 8]
        { procMap := [(1, { pid := 1, ppid := 0 }), (7, { pid := 7, ppid := 1 }),
                      (8, { pid := 8, ppid := 1 })],
          childMap := [(0, [{ pid := 1, ppid := 0 }]),
                       (1, [{ pid := 7, ppid := 1 }, { pid := 8, ppid := 1 }])] } = some st1 ∧
      st1.thrown = false ∧
      st1.childMap = [(0, [{ pid := 1, ppid := 0 }]),
                       (1, [{ pid := 7, ppid := 1 }, { pid := 8, ppid := 1 }])] ∧
      st1.out = [Line.own { pid := 1, ppid := 0 } "", Line.own { pid := 8, ppid := 1 } ""] :=
  let ⟨st1, h1, h2, h3, h4⟩ := (no_tree_rows { noTree := true } rfl
    { procMap := [(1, { pid := 1, ppid := 0 }), (7, { pid := 7, ppid := 1 }),
                  (8, { pid := 8, ppid := 1 })],
      childMap := [(0, [{ pid := 1, ppid := 0 }]),
                   (1, [{ pid := 7, ppid := 1 }, { pid := 8, ppid := 1 }])] }).2
    [1, 8] (by decide)
  have hok : st1.thrown = false := by
    have e : (printTargets { noTree := true } [1, 8]
        { procMap := [(1, { pid := 1, ppid := 0 }), (7, { pid := 7, ppid := 1 }),
                      (8, { pid := 8, ppid := 1 })],
          childMap := [(0, [{ pid := 1, ppid := 0 }]),
                       (1, [{ pid := 7, ppid := 1 }, { pid := 8, ppid := 1 }])] }).map
        (fun s => s.thrown) = some false := by decide
    rw [h1] at e
    exact Option.some.inj e
  ⟨st1, h1, hok, h2, (h4 hok).2 rfl⟩

/-- C7 (evaluation at the failing input): in no-tree mode, for the target 7 whose line is not UTF-8,
`printPidTree` writes no row and does not erase the id from ById Index: the
call of `printProc` throws, and the loop over the targets [7, 8] ends there,
without the row of the target 8. -/
theorem C7_no_tree_undecodable_line :
    (printPidTree { rawEnv 7 with noTree := true } 7 [] (scanProcs true sampleProcs {}).2).map
        (fun st => (st.thrown, st.rows, (mapFind st.procMap 7).isSome)) =
      some (true, [], true) ∧
    (printTargets { rawEnv 7 with noTree := true } [7, 8] (scanProcs true sampleProcs {}).2).map
        (fun st => (st.thrown, st.rows)) = some (true, []) := by
  decide

/-! ### Single record -/

/-- For a snapshot of one assembled record whose parent id is not its own id,
the default render (tree walk over all ByParent keys) makes one call of
`printPidTree` that prints; when no call of `printProc` throws, it writes
exactly one record line, that of the record, with empty tree art; with thread
display off it is the whole output, and with thread display on only the thread
lines of that process follow. -/
theorem single_process_rows (env : Env) (skipKernel : Bool) (r : Proc)
    (hnt : env.noTree = false) (htid : r.tid = 0) (hfail : r.failed = false)
    (hker : skipKernel = true → r.pid ≠ 2 ∧ r.ppid ≠ 2) (hpar : r.ppid ≠ r.pid) :
    (scanProcs skipKernel [r] {}).2.procMap = [(r.pid, r)] ∧
    ∃ st1, render env [] (scanProcs skipKernel [r] {}).2 = some st1 ∧
      (Prints env → st1.thrown = false) ∧
      (st1.thrown = false →
        st1.out = Line.own r "" :: threadsOf env r.pid [] false r ∧
        ownLines st1.out = [Line.own r ""] ∧
        (env.skipThreads = true → st1.out = [Line.own r ""])) := by
  have hscan : (scanProcs skipKernel [r] {}).2 =
      { procMap := [(r.pid, r)], childMap := [(r.ppid, [r])] } := by
    have h1 : (skipKernel && r.pid == 2) = false := by
      cases skipKernel with
      | false => rfl
      | true => simpa using (hker rfl).1
    have h2 : (r.tid == 0 && skipKernel && r.ppid == 2) = false := by
      cases skipKernel with
      | false => simp
      | true => simpa using fun _ => (hker rfl).2
    have hc : createProc skipKernel r {} =
        (0, { procMap := [(r.pid, r)], childMap := [(r.ppid, [r])] }) := by
      have h3 : skipKernel = true → ¬ r.ppid = 2 := fun hs => (hker hs).2
      unfold createProc
      simp [h1, htid, hfail, mapFind, mapSet]
      exact h3
    simp only [scanProcs, hc]
  rw [hscan]
  refine ⟨rfl, ?_⟩
  have hne : ¬ r.pid = r.ppid := fun e => hpar e.symm
  have hown : ownStep env r.ppid []
      { procMap := [(r.pid, r)], childMap := [(r.ppid, [r])] } =
      { procMap := [(r.pid, r)], childMap := [(r.ppid, [r])] } :=
    ownStep_none _ _ _ _ (by simp [mapFind, hne])
  have hrender : render env []
      { procMap := [(r.pid, r)], childMap := [(r.ppid, [r])] } =
      some (ownStep env r.pid [] { procMap := [(r.pid, r)], childMap := [] }) := by
    have hc1 : hasChildren env { procMap := [(r.pid, r)], childMap := [(r.ppid, [r])] } r.ppid
        = true := by simp [hasChildren, hnt, mapFind]
    have hc2 : hasChildren env { procMap := [(r.pid, r)], childMap := [] } r.pid = false := by
      simp [hasChildren, mapFind]
    have hp1 : hasParent { procMap := [(r.pid, r)], childMap := [(r.ppid, [r])] } r.ppid
        = false := by simp [hasParent, mapFind, hne]
    have herase : eraseChildren { procMap := [(r.pid, r)], childMap := [(r.ppid, [r])] } r.ppid
        = { procMap := [(r.pid, r)], childMap := [] } := by
      simp [eraseChildren, mapErase]
    have hcs : childrenOf { procMap := [(r.pid, r)], childMap := [(r.ppid, [r])] } r.ppid
        = [r] := by simp [childrenOf, mapFind]
    have hwalk : printPidTreeFuel env 1 r.pid []
        { procMap := [(r.pid, r)], childMap := [] } =
        some (ownStep env r.pid [] { procMap := [(r.pid, r)], childMap := [] }) := by
      rw [printPidTreeFuel_succ, hc2]
      simp
    have hall : allParents { procMap := [(r.pid, r)], childMap := [(r.ppid, [r])] }
        = [r.ppid] := by simp [allParents, setInsert]
    have htree : printPidTree env r.ppid []
        { procMap := [(r.pid, r)], childMap := [(r.ppid, [r])] } =
        some (ownStep env r.pid [] { procMap := [(r.pid, r)], childMap := [] }) := by
      unfold printPidTree
      show printPidTreeFuel env 2 r.ppid [] _ = _
      rw [printPidTreeFuel_succ, hown, hc1, hp1, herase, hcs]
      simp only [Bool.false_eq_true, if_false, if_true, childTree]
      rw [printChildren, hwalk]
      simp [printChildren]
    unfold render
    rw [hall]
    simp only [List.isEmpty_nil, if_true]
    rw [printTargets, htree]
    simp [printTargets]
  have hc2 : hasChildren env { procMap := [(r.pid, r)], childMap := [] } r.pid = false := by
    simp [hasChildren, mapFind]
  have hf : mapFind ({ procMap := [(r.pid, r)], childMap := [] } : State).procMap r.pid
      = some r := by simp [mapFind]
  refine ⟨_, hrender, fun hp => ownStep_ok env hp _ _ _ rfl, fun hok => ?_⟩
  have hout := ownStep_out_some env r.pid [] _ r hf hok
  rw [hc2] at hout
  have hout2 : (ownStep env r.pid [] { procMap := [(r.pid, r)], childMap := [] }).out =
      Line.own r "" :: threadsOf env r.pid [] false r := by
    rw [hout]
    rfl
  refine ⟨hout2, ?_, ?_⟩
  · rw [hout2]
    have := ownLines_threadsOf env r.pid [] false r
    unfold ownLines at this ⊢
    rw [List.filter_cons]
    simp only [if_true, this]
  · intro hs
    rw [hout2, threadsOf_skip env r.pid [] false r hs]

/-- C8 (evaluation at the failing input): for the snapshot of the one record 7 whose line is not
UTF-8, the default render writes no row: the one call of `printProc` throws. -/
theorem C8_single_process_undecodable_line :
    (scanProcs true [{ pid := 7, ppid := 1, cmdline := "sh" }] {}).2.procMap =
      [(7, { pid := 7, ppid := 1, cmdline := "sh" })] ∧
    (render (rawEnv 7) [] (scanProcs true [{ pid := 7, ppid := 1, cmdline := "sh" }] {}).2).map
        (fun st => (st.thrown, st.rows)) = some (true, []) := by
  decide

/-! ### Every record is printed at most once -/

theorem mapFind_none_of_not_mem {β : Type} (m : List (Int × β)) (k : Int)
    (h : k ∉ m.map Prod.fst) : mapFind m k = none := by
  induction m with
  | nil => rfl
  | cons kv m ih =>
    obtain ⟨k0, v0⟩ := kv
    simp only [List.map_cons, List.mem_cons, not_or] at h
    have h0 : ¬ k0 = k := fun e => h.1 e.symm
    simp only [mapFind, h0, if_false]
    exact ih h.2

theorem mapFind_eq_some_iff_mem {β : Type} (m : List (Int × β))
    (hnd : (m.map Prod.fst).Nodup) (k : Int) (v : β) :
    mapFind m k = some v ↔ (k, v) ∈ m := by
  induction m with
  | nil => simp [mapFind]
  | cons kv m ih =>
    obtain ⟨k0, v0⟩ := kv
    simp only [List.map_cons, List.nodup_cons] at hnd
    by_cases h0 : k0 = k
    · subst h0
      simp only [mapFind, if_true, Option.some.injEq, List.mem_cons, Prod.mk.injEq, true_and]
      constructor
      · intro h; exact Or.inl h.symm
      · rintro (h | h)
        · exact h.symm
        · exact absurd (List.mem_map_of_mem Prod.fst h) hnd.1
    · simp only [mapFind, h0, if_false, List.mem_cons, Prod.mk.injEq, ih hnd.2]
      constructor
      · intro h; exact Or.inr h
      · rintro (⟨h, _⟩ | h)
        · exact absurd h.symm h0
        · exact h

theorem mapErase_values_perm {β : Type} (m : List (Int × β))
    (hnd : (m.map Prod.fst).Nodup) (k : Int) (v : β) (h : mapFind m k = some v) :
    (v :: (mapErase m k).map Prod.snd).Perm (m.map Prod.snd) := by
  induction m with
  | nil => simp [mapFind] at h
  | cons kv m ih =>
    obtain ⟨k0, v0⟩ := kv
    simp only [List.map_cons, List.nodup_cons] at hnd
    by_cases h0 : k0 = k
    · subst h0
      simp only [mapFind, if_true, Option.some.injEq] at h
      subst h
      rw [mapErase_cons_eq, mapErase_of_none _ _ (mapFind_none_of_not_mem _ _ hnd.1)]
      exact List.Perm.refl _
    · simp only [mapFind, h0, if_false] at h
      rw [mapErase_cons_ne _ _ _ _ h0]
      simp only [List.map_cons]
      exact (List.Perm.swap _ _ _).trans (List.Perm.cons _ (ih hnd.2 h))

theorem ownStep_ownProcs (env : Env) (pid : Int) (tree : List TreeEntry) (st : State)
    (hok : (ownStep env pid tree st).thrown = false) :
    ownProcs (ownStep env pid tree st).out =
      ownProcs st.out ++ (mapFind st.procMap pid).toList := by
  cases hf : mapFind st.procMap pid with
  | none => rw [ownStep_none _ _ _ _ hf]; simp
  | some proc =>
    rw [ownStep_out_some _ _ _ _ _ hf hok, ownProcs_append]
    simp [ownProcs, ownProcs_threadsOf]

theorem ownStep_perm (env : Env) (pid : Int) (tree : List TreeEntry) (st : State)
    (hok : (ownStep env pid tree st).thrown = false)
    (hnd : (st.procMap.map Prod.fst).Nodup) :
    (ownProcs (ownStep env pid tree st).out ++ (ownStep env pid tree st).procMap.map Prod.snd).Perm
      (ownProcs st.out ++ st.procMap.map Prod.snd) := by
  rw [ownStep_ownProcs _ _ _ _ hok, ownStep_procMap _ _ _ _ hok]
  cases hf : mapFind st.procMap pid with
  | none => rw [mapErase_of_none _ _ hf]; simp
  | some proc =>
    simp only [Option.toList, List.append_assoc, List.singleton_append]
    exact List.Perm.append_left _ (mapErase_values_perm _ hnd _ _ hf)

theorem Extends.nodup {st st1 : State} (h : Extends st st1)
    (hnd : (st.procMap.map Prod.fst).Nodup) : (st1.procMap.map Prod.fst).Nodup :=
  (h.procSub.map Prod.fst).nodup hnd

/-- The records printed so far together with those still in `procMap` are
the same across a call. -/
theorem Walks.perm {env : Env} {pid : Int} {tree : List TreeEntry} {st st1 : State}
    (h : Walks env pid tree st st1) (hnd : (st.procMap.map Prod.fst).Nodup) :
    (ownProcs st1.out ++ st1.procMap.map Prod.snd).Perm
      (ownProcs st.out ++ st.procMap.map Prod.snd) := by
  revert hnd
  refine Walks.induct env
    (fun _ _ st st1 => (st.procMap.map Prod.fst).Nodup →
      (ownProcs st1.out ++ st1.procMap.map Prod.snd).Perm
        (ownProcs st.out ++ st.procMap.map Prod.snd)) ?_ ?_ h
  · intro pid tree st _ hok hnd
    exact ownStep_perm _ _ _ _ hok hnd
  · intro pid tree st st1 _ hok hrel hnd
    refine List.Perm.trans ?_ (ownStep_perm env pid tree st hok hnd)
    have hnd2 : ((eraseChildren (ownStep env pid tree st) pid).procMap.map Prod.fst).Nodup :=
      (ownStep_extends env pid tree st).nodup hnd
    show (ownProcs st1.out ++ st1.procMap.map Prod.snd).Perm
      (ownProcs (eraseChildren (ownStep env pid tree st) pid).out ++
        (eraseChildren (ownStep env pid tree st) pid).procMap.map Prod.snd)
    generalize eraseChildren (ownStep env pid tree st) pid = s at hrel hnd2
    generalize childTree (hasParent st pid) tree (childrenOf st pid) = t at hrel
    generalize childrenOf st pid = cs at hrel
    generalize hasParent st pid = hp at hrel
    induction hrel with
    | nil => exact List.Perm.refl _
    | cons proc rest tree s s1 s2 h1 _ ih =>
      exact (ih (h1.1.frame.nodup hnd2)).trans (h1.2 hnd2)

/-! ### Every record reached is printed -/

theorem Walks.printedDone {env : Env} (hnt : env.noTree = false) (st0 : State) {pid : Int}
    {tree : List TreeEntry} {st st1 : State} (h : Walks env pid tree st st1)
    (hpd : PrintedDone st0 st) : PrintedDone st0 st1 := by
  revert hpd
  refine Walks.induct env (fun _ _ st st1 => PrintedDone st0 st → PrintedDone st0 st1) ?_ ?_ h
  · intro pid tree st hc hok hpd k hk0 hk
    rw [ownStep_childMap]
    rw [ownStep_procMap _ _ _ _ hok, mapFind_mapErase] at hk
    by_cases hkp : k = pid
    · subst hkp
      unfold hasChildren at hc
      rw [hnt] at hc
      simpa using hc
    · rw [if_neg hkp] at hk
      exact hpd k hk0 hk
  · intro pid tree st st1 _ hok hrel hpd
    have hpd2 : PrintedDone st0 (eraseChildren (ownStep env pid tree st) pid) := by
      intro k hk0 hk
      show mapFind (mapErase (ownStep env pid tree st).childMap pid) k = none
      rw [mapFind_mapErase, ownStep_childMap]
      by_cases hkp : k = pid
      · rw [if_pos hkp]
      · rw [if_neg hkp]
        have hk' : mapFind (ownStep env pid tree st).procMap k = none := hk
        rw [ownStep_procMap _ _ _ _ hok, mapFind_mapErase, if_neg hkp] at hk'
        exact hpd k hk0 hk'
    generalize eraseChildren (ownStep env pid tree st) pid = s at hrel hpd2
    generalize childTree (hasParent st pid) tree (childrenOf st pid) = t at hrel
    generalize childrenOf st pid = cs at hrel
    generalize hasParent st pid = hp at hrel
    induction hrel with
    | nil => exact hpd2
    | cons proc rest tree s s1 s2 h1 _ ih => exact ih (h1.2 hpd2)

theorem isSome_of_extends_proc {st st1 : State} (h : Extends st st1) (k : Int)
    (hk : (mapFind st1.procMap k).isSome = true) : (mapFind st.procMap k).isSome = true := by
  cases hf : mapFind st1.procMap k with
  | none => rw [hf] at hk; simp at hk
  | some v => rw [h.procFind k v hf]; rfl

theorem Walks.erasedDone {env : Env} (st0 : State) {pid : Int}
    {tree : List TreeEntry} {st st1 : State} (h : Walks env pid tree st st1)
    (hsub : ∀ k l, mapFind st.childMap k = some l → mapFind st0.childMap k = some l)
    (P : Proc → Prop) (hed : ErasedDone st0 st P) : ErasedDone st0 st1 P := by
  revert hsub P
  refine Walks.induct env (fun _ _ st st1 =>
    (∀ k l, mapFind st.childMap k = some l → mapFind st0.childMap k = some l) →
    ∀ P : Proc → Prop, ErasedDone st0 st P → ErasedDone st0 st1 P) ?_ ?_ h
  · intro pid tree st _ _ _ P hed q l hq0 hq c hc hsome
    rw [ownStep_childMap] at hq
    exact hed q l hq0 hq c hc (isSome_of_extends_proc (ownStep_extends env pid tree st) _ hsome)
  · intro pid tree st st1 hc _ hrel hsub P hed
    have hext : Extends st (eraseChildren (ownStep env pid tree st) pid) :=
      (ownStep_extends env pid tree st).trans (eraseChildren_extends _ _)
    have hed2 : ErasedDone st0 (eraseChildren (ownStep env pid tree st) pid)
        (fun c => P c ∨ c ∈ childrenOf st pid) := by
      intro q l hq0 hq c hcl hsome
      have hq' : mapFind (mapErase (ownStep env pid tree st).childMap pid) q = none := hq
      rw [mapFind_mapErase, ownStep_childMap] at hq'
      by_cases hqp : q = pid
      · subst hqp
        right
        unfold childrenOf
        cases hl : mapFind st.childMap q with
        | none =>
          unfold hasChildren at hc
          rw [hl] at hc
          simp at hc
        | some l' =>
          have := hsub q l' hl
          rw [hq0] at this
          cases this
          exact hcl
      · rw [if_neg hqp] at hq'
        exact Or.inl (hed q l hq0 hq' c hcl (isSome_of_extends_proc hext _ hsome))
    have hsub2 : ∀ k l, mapFind (eraseChildren (ownStep env pid tree st) pid).childMap k = some l →
        mapFind st0.childMap k = some l := fun k l hk => hsub k l (hext.childFind k l hk)
    clear hc hext hed hsub
    generalize eraseChildren (ownStep env pid tree st) pid = s at hrel hed2 hsub2
    generalize childTree (hasParent st pid) tree (childrenOf st pid) = t at hrel
    generalize childrenOf st pid = cs at hrel hed2
    generalize hasParent st pid = hp at hrel
    induction hrel with
    | nil =>
      intro q l hq0 hq c hcl hsome
      rcases hed2 q l hq0 hq c hcl hsome with h | h
      · exact h
      · simp at h
    | cons proc rest tree s s1 s2 h1 _ ih =>
      have hed1 := h1.2 hsub2 _ hed2
      have hgone := h1.1.consumed.1
      refine ih (fun k l hk => hsub2 k l (h1.1.frame.childFind k l hk)) ?_
      intro q l hq0 hq c hcl hsome
      rcases hed1 q l hq0 hq c hcl hsome with h | h
      · exact Or.inl h
      · rcases List.mem_cons.1 h with h | h
        · subst h
          rw [hgone] at hsome
          simp at hsome
        · exact Or.inr h

/-! ### Only records reached are printed -/

theorem Walks.printed_sub {env : Env} (st0 : State) (G : Proc → Prop)
    (hclosed : ∀ q l, mapFind st0.childMap q = some l → ∀ c ∈ l,
      mapFind st0.procMap c.pid = some c ∧
        ∀ l1, mapFind st0.childMap c.pid = some l1 → G c → ∀ d ∈ l1, G d)
    {pid : Int} {tree : List TreeEntry} {st st1 : State} (h : Walks env pid tree st st1)
    (hsubp : ∀ k v, mapFind st.procMap k = some v → mapFind st0.procMap k = some v)
    (hsubc : ∀ k l, mapFind st.childMap k = some l → mapFind st0.childMap k = some l)
    (hown : ∀ v, mapFind st0.procMap pid = some v → G v)
    (hch : ∀ l, mapFind st0.childMap pid = some l → ∀ c ∈ l, G c) :
    ∀ p, p ∈ ownProcs st1.out → p ∈ ownProcs st.out ∨ G p := by
  revert hsubp hsubc hown hch
  refine Walks.induct env (fun pid _ st st1 =>
    (∀ k v, mapFind st.procMap k = some v → mapFind st0.procMap k = some v) →
    (∀ k l, mapFind st.childMap k = some l → mapFind st0.childMap k = some l) →
    (∀ v, mapFind st0.procMap pid = some v → G v) →
    (∀ l, mapFind st0.childMap pid = some l → ∀ c ∈ l, G c) →
    ∀ p, p ∈ ownProcs st1.out → p ∈ ownProcs st.out ∨ G p) ?_ ?_ h
  · intro pid tree st _ hok hsubp _ hown _ p hp
    rw [ownStep_ownProcs _ _ _ _ hok, List.mem_append] at hp
    rcases hp with hp | hp
    · exact Or.inl hp
    · right
      cases hf : mapFind st.procMap pid with
      | none => rw [hf] at hp; simp at hp
      | some v =>
        rw [hf] at hp
        simp at hp
        subst hp
        exact hown _ (hsubp _ _ hf)
  · intro pid tree st st1 hc hok hrel hsubp hsubc hown hch p hp
    have hext : Extends st (eraseChildren (ownStep env pid tree st) pid) :=
      (ownStep_extends env pid tree st).trans (eraseChildren_extends _ _)
    have hstep : ∀ p, p ∈ ownProcs (eraseChildren (ownStep env pid tree st) pid).out →
        p ∈ ownProcs st.out ∨ G p := by
      intro p hp
      have hp' : p ∈ ownProcs (ownStep env pid tree st).out := hp
      rw [ownStep_ownProcs _ _ _ _ hok, List.mem_append] at hp'
      rcases hp' with hp' | hp'
      · exact Or.inl hp'
      · right
        cases hf : mapFind st.procMap pid with
        | none => rw [hf] at hp'; simp at hp'
        | some v =>
          rw [hf] at hp'
          simp at hp'
          subst hp'
          exact hown _ (hsubp _ _ hf)
    have hcs : ∀ c ∈ childrenOf st pid, G c ∧ ∃ q l, mapFind st0.childMap q = some l ∧ c ∈ l := by
      intro c hcm
      unfold childrenOf at hcm
      cases hl : mapFind st.childMap pid with
      | none => rw [hl] at hcm; simp at hcm
      | some l =>
        rw [hl] at hcm
        exact ⟨hch l (hsubc _ _ hl) c hcm, pid, l, hsubc _ _ hl, hcm⟩
    have hsubp2 : ∀ k v, mapFind (eraseChildren (ownStep env pid tree st) pid).procMap k = some v →
        mapFind st0.procMap k = some v := fun k v hk => hsubp k v (hext.procFind k v hk)
    have hsubc2 : ∀ k l, mapFind (eraseChildren (ownStep env pid tree st) pid).childMap k = some l →
        mapFind st0.childMap k = some l := fun k l hk => hsubc k l (hext.childFind k l hk)
    clear hc hext hsubp hsubc hown hch hok
    generalize eraseChildren (ownStep env pid tree st) pid = s at hrel hstep hsubp2 hsubc2
    generalize childTree (hasParent st pid) tree (childrenOf st pid) = t at hrel
    generalize childrenOf st pid = cs at hrel hcs
    generalize hasParent st pid = hpar at hrel
    induction hrel generalizing p with
    | nil => exact hstep p hp
    | cons proc rest tree s s1 s2 h1 _ ih =>
      obtain ⟨hG, q, l, hq, hmem⟩ := hcs proc (List.mem_cons_self _ _)
      have hcl := hclosed q l hq proc hmem
      have h1p := h1.2 hsubp2 hsubc2
        (fun v hv => by rw [hcl.1] at hv; cases hv; exact hG)
        (fun l1 hl1 d hd => hcl.2 l1 hl1 hG d hd)
      refine ih p hp ?_ (fun k v hk => hsubp2 k v (h1.1.frame.procFind k v hk))
        (fun k l hk => hsubc2 k l (h1.1.frame.childFind k l hk))
        (fun c hc => hcs c (List.mem_cons_of_mem _ hc))
      intro p1 hp1
      rcases h1p p1 hp1 with h | h
      · exact hstep p1 h
      · exact Or.inr h

/-! ### The loop over the targets -/

theorem printTargets_total (env : Env) :
    ∀ (targets : List Int) (st : State), ∃ st1, printTargets env targets st = some st1 := by
  intro targets
  induction targets with
  | nil => intro st; exact ⟨st, rfl⟩
  | cons t ts ih =>
    intro st
    obtain ⟨s1, h1⟩ := printPidTree_total env t [] st
    obtain ⟨s2, h2⟩ := ih s1
    by_cases ht : s1.thrown = true
    · exact ⟨s1, by rw [printTargets, h1]; dsimp only; rw [if_pos ht]⟩
    · exact ⟨s2, by rw [printTargets, h1]; dsimp only; rw [if_neg ht]; exact h2⟩

/-- The loop over the targets, whether it returns or ends by an exception, only
extends the state. -/
theorem printTargets_extends (env : Env) :
    ∀ (targets : List Int) (st st1 : State), printTargets env targets st = some st1 →
      Extends st st1 := by
  intro targets
  induction targets with
  | nil =>
    intro st st1 h
    simp only [printTargets, Option.some.injEq] at h
    subst h
    exact Extends.refl _
  | cons t ts ih =>
    intro st st1 h
    rw [printTargets] at h
    cases hw : printPidTree env t [] st with
    | none => rw [hw] at h; simp at h
    | some s =>
      rw [hw] at h
      dsimp only at h
      have hext := printPidTreeFuel_extends env _ _ _ _ _ hw
      by_cases ht : s.thrown = true
      · rw [if_pos ht] at h
        simp only [Option.some.injEq] at h
        subst h
        exact hext
      · rw [if_neg ht] at h
        exact hext.trans (ih _ _ h)

/-- What the loop over the targets keeps and achieves when the tree is walked
and no call of `printProc` throws. -/
theorem printTargets_tree (env : Env) (hnt : env.noTree = false) (st0 : State)
    (hcons : Consistent st0) (G : Proc → Prop)
    (hG : ∀ q l, mapFind st0.childMap q = some l → ∀ c ∈ l,
        ∀ l1, mapFind st0.childMap c.pid = some l1 → G c → ∀ d ∈ l1, G d) :
    ∀ (targets : List Int) (st st1 : State), printTargets env targets st = some st1 →
      st1.thrown = false →
      Extends st0 st → PrintedDone st0 st → ErasedDone st0 st (fun _ => False) →
      (∀ t ∈ targets, (∀ v, mapFind st0.procMap t = some v → G v) ∧
        ∀ l, mapFind st0.childMap t = some l → ∀ c ∈ l, G c) →
      Extends st st1 ∧ PrintedDone st0 st1 ∧ ErasedDone st0 st1 (fun _ => False) ∧
      (ownProcs st1.out ++ st1.procMap.map Prod.snd).Perm
        (ownProcs st.out ++ st.procMap.map Prod.snd) ∧
      (∀ t ∈ targets, mapFind st1.procMap t = none ∧ mapFind st1.childMap t = none) ∧
      (∀ p, p ∈ ownProcs st1.out → p ∈ ownProcs st.out ∨ G p) := by
  intro targets
  induction targets with
  | nil =>
    intro st st1 h _ hext hpd hed _
    simp only [printTargets, Option.some.injEq] at h
    subst h
    exact ⟨Extends.refl _, hpd, hed, List.Perm.refl _, by simp, fun p hp => Or.inl hp⟩
  | cons t ts ih =>
    intro st st1 h hok hext hpd hed hgood
    rw [printTargets] at h
    cases hw : printPidTree env t [] st with
    | none => rw [hw] at h; simp at h
    | some s =>
      rw [hw] at h
      dsimp only at h
      have hs : s.thrown = false := by
        cases hts : s.thrown with
        | false => rfl
        | true =>
          rw [if_pos hts] at h
          simp only [Option.some.injEq] at h
          subst h
          rw [hts] at hok
          exact absurd hok (by simp)
      rw [if_neg (by rw [hs]; simp)] at h
      have hwalk : Walks env t [] st s := printPidTree_walks hw hs
      have hsubc : ∀ k l, mapFind st.childMap k = some l → mapFind st0.childMap k = some l :=
        hext.childFind
      have hnd : (st.procMap.map Prod.fst).Nodup := hext.nodup hcons.nodup
      obtain ⟨hext2, hpd2, hed2, hperm2, hgone2, hsub2⟩ := ih s st1 h hok
        (hext.trans hwalk.frame) (hwalk.printedDone hnt st0 hpd)
        (hwalk.erasedDone st0 hsubc _ hed) (fun t' ht' => hgood t' (List.mem_cons_of_mem _ ht'))
      refine ⟨hwalk.frame.trans hext2, hpd2, hed2, hperm2.trans (hwalk.perm hnd), ?_, ?_⟩
      · intro t' ht'
        rcases List.mem_cons.1 ht' with h' | h'
        · subst h'
          obtain ⟨hc1, hc2'⟩ := hwalk.consumed
          have hc2 := hc2' hnt
          refine ⟨?_, ?_⟩
          · cases hf : mapFind st1.procMap t' with
            | none => rfl
            | some v => rw [hext2.procFind _ _ hf] at hc1; simp at hc1
          · cases hf : mapFind st1.childMap t' with
            | none => rfl
            | some v => rw [hext2.childFind _ _ hf] at hc2; simp at hc2
        · exact hgone2 t' h'
      · intro p hp
        rcases hsub2 p hp with h' | h'
        · exact hwalk.printed_sub st0 G
            (fun q l hq c hc => ⟨(hcons.childIn q l hq c hc).1, hG q l hq c hc⟩)
            hext.procFind hsubc (hgood t (List.mem_cons_self _ _)).1
            (hgood t (List.mem_cons_self _ _)).2 p h'
        · exact Or.inr h'

theorem mem_values_of_mapFind {β : Type} (m : List (Int × β)) (k : Int) (v : β)
    (h : mapFind m k = some v) : (k, v) ∈ m := by
  induction m with
  | nil => simp [mapFind] at h
  | cons kv m ih =>
    obtain ⟨k0, v0⟩ := kv
    by_cases h0 : k0 = k
    · subst h0
      simp only [mapFind, if_true, Option.some.injEq] at h
      subst h
      exact List.mem_cons_self _ _
    · simp only [mapFind, h0, if_false] at h
      exact List.mem_cons_of_mem _ (ih h)

theorem Consistent.values_nodup {st : State} (h : Consistent st) :
    (st.procMap.map Prod.snd).Nodup := by
  have hnd := h.nodup
  have hkey : ∀ kv ∈ st.procMap, kv.2.pid = kv.1 := by
    intro kv hkv
    exact h.keyed kv.1 kv.2 ((mapFind_eq_some_iff_mem _ hnd _ _).2 hkv)
  generalize st.procMap = m at hnd hkey
  induction m with
  | nil => exact List.nodup_nil
  | cons kv m ih =>
    simp only [List.map_cons, List.nodup_cons] at hnd ⊢
    refine ⟨?_, ih hnd.2 (fun kv' h' => hkey kv' (List.mem_cons_of_mem _ h'))⟩
    intro hmem
    obtain ⟨kv', hkv', he⟩ := List.mem_map.1 hmem
    apply hnd.1
    have h1 := hkey kv' (List.mem_cons_of_mem _ hkv')
    have h2 := hkey kv (List.mem_cons_self _ _)
    rw [he] at h1
    rw [← h2, h1]
    exact List.mem_map_of_mem _ hkv'

/-- The engine of the tree walk: from a consistent state with nothing
written yet, the loop over the targets, when no call of `printProc` throws,
writes the line of every selected record exactly once and of no other
record. -/
theorem printTargets_selected (env : Env) (hnt : env.noTree = false) (st0 : State)
    (hcons : Consistent st0) (hout : st0.out = []) (targets : List Int) :
    ∃ st1, printTargets env targets st0 = some st1 ∧ Extends st0 st1 ∧
      (st1.thrown = false →
        (ownProcs st1.out).Nodup ∧
        (∀ r, r ∈ ownProcs st1.out ↔ Selected st0 targets r) ∧
        (ownProcs st1.out ++ st1.procMap.map Prod.snd).Perm (st0.procMap.map Prod.snd) ∧
        ∀ r, Selected st0 targets r → mapFind st1.procMap r.pid = none) := by
  obtain ⟨st1, h1⟩ := printTargets_total env targets st0
  refine ⟨st1, h1, printTargets_extends env targets st0 st1 h1, fun hok => ?_⟩
  have hG : ∀ q l, mapFind st0.childMap q = some l → ∀ c ∈ l,
      ∀ l1, mapFind st0.childMap c.pid = some l1 → Selected st0 targets c →
        ∀ d ∈ l1, Selected st0 targets d := by
    intro q l _ c _ l1 hl1 hsel d hd
    refine ⟨(hcons.childIn _ _ hl1 d hd).1, Or.inr ?_⟩
    rcases hsel.2 with hm | ⟨t, ht, hdesc⟩
    · exact ⟨c.pid, hm, Desc.child hl1 hd⟩
    · exact ⟨t, ht, Desc.step hdesc hl1 hd⟩
  have hgood : ∀ t ∈ targets, (∀ v, mapFind st0.procMap t = some v → Selected st0 targets v) ∧
      ∀ l, mapFind st0.childMap t = some l → ∀ c ∈ l, Selected st0 targets c := by
    intro t ht
    refine ⟨?_, ?_⟩
    · intro v hv
      have hk := hcons.keyed t v hv
      subst hk
      exact ⟨hv, Or.inl ht⟩
    · intro l hl c hc
      exact ⟨(hcons.childIn _ _ hl c hc).1, Or.inr ⟨t, ht, Desc.child hl hc⟩⟩
  obtain ⟨hext, hpd, hed, hperm, hgone, hsub⟩ := printTargets_tree env hnt st0 hcons
    (Selected st0 targets) hG targets st0 st1 h1 hok (Extends.refl _)
    (fun k hk0 hk => by rw [hk] at hk0; simp at hk0)
    (fun q l hq0 hq => by rw [hq] at hq0; simp at hq0) hgood
  rw [hout] at hperm hsub
  simp only [ownProcs, List.nil_append] at hperm
  have hdone : ∀ r, Selected st0 targets r → mapFind st1.procMap r.pid = none := by
    intro r hsel
    have hdesc : ∀ t r, Desc st0.childMap t r → t ∈ targets →
        mapFind st1.procMap r.pid = none ∧ mapFind st1.childMap r.pid = none := by
      intro t r hd
      induction hd with
      | @child l r hl hr =>
        intro ht
        have hnone : mapFind st1.procMap r.pid = none := by
          cases hf : mapFind st1.procMap r.pid with
          | none => rfl
          | some v =>
            exact (hed t l hl (hgone t ht).2 r hr (by rw [hf]; rfl)).elim
        refine ⟨hnone, hpd r.pid ?_ hnone⟩
        rw [(hcons.childIn _ _ hl r hr).1]; rfl
      | @step l r1 r _ hl hr ih =>
        intro ht
        have hnone : mapFind st1.procMap r.pid = none := by
          cases hf : mapFind st1.procMap r.pid with
          | none => rfl
          | some v =>
            exact (hed r1.pid l hl (ih ht).2 r hr (by rw [hf]; rfl)).elim
        refine ⟨hnone, hpd r.pid ?_ hnone⟩
        rw [(hcons.childIn _ _ hl r hr).1]; rfl
    rcases hsel.2 with hm | ⟨t, ht, hd⟩
    · exact (hgone _ hm).1
    · exact (hdesc t r hd ht).1
  refine ⟨?_, ?_, hperm, hdone⟩
  · exact (List.Nodup.of_append_left (hperm.nodup_iff.2 hcons.values_nodup))
  · intro r
    constructor
    · intro hr
      rcases hsub r hr with h | h
      · simp [ownProcs] at h
      · exact h
    · intro hsel
      have hmem : r ∈ st0.procMap.map Prod.snd :=
        List.mem_map.2 ⟨(r.pid, r), mem_values_of_mapFind _ _ _ hsel.1, rfl⟩
      rcases List.mem_append.1 (hperm.mem_iff.2 hmem) with h | h
      · exact h
      · exfalso
        obtain ⟨kv, hkv, he⟩ := List.mem_map.1 h
        have hnd1 := hext.nodup hcons.nodup
        have hf1 : mapFind st1.procMap kv.1 = some kv.2 :=
          (mapFind_eq_some_iff_mem _ hnd1 _ _).2 hkv
        have hk := hcons.keyed _ _ (hext.procFind _ _ hf1)
        rw [he] at hk hf1
        rw [← hk, hdone r hsel] at hf1
        simp at hf1

/-! ### The assembler builds consistent indices -/

theorem mem_keys_iff {β : Type} (m : List (Int × β)) (k : Int) :
    k ∈ m.map Prod.fst ↔ (mapFind m k).isSome = true := by
  induction m with
  | nil => simp [mapFind]
  | cons kv m ih =>
    obtain ⟨k0, v0⟩ := kv
    by_cases h0 : k0 = k
    · simp [mapFind, h0]
    · have h1 : ¬ k = k0 := fun e => h0 e.symm
      simp only [List.map_cons, List.mem_cons, h1, false_or, ih, mapFind, h0, if_false]

theorem mapSet_keys_perm {β : Type} (m : List (Int × β)) (k : Int) (v : β)
    (h : mapFind m k = none) : ((mapSet m k v).map Prod.fst).Perm (k :: m.map Prod.fst) := by
  induction m with
  | nil => exact List.Perm.refl _
  | cons kv m ih =>
    obtain ⟨k0, v0⟩ := kv
    have h0 : ¬ k0 = k := by
      intro e
      simp [mapFind, e] at h
    simp only [mapFind, h0, if_false] at h
    unfold mapSet
    by_cases h1 : k < k0
    · simp only [h1, if_true]
      exact List.Perm.refl _
    · have h2 : ¬ k = k0 := fun e => h0 e.symm
      simp only [h1, h2, if_false, List.map_cons]
      exact (List.Perm.cons _ (ih h)).trans (List.Perm.swap _ _ _)

theorem childrenOf_mem_iff (st : State) (q : Int) (c : Proc) :
    c ∈ childrenOf st q ↔ ∃ l, mapFind st.childMap q = some l ∧ c ∈ l := by
  unfold childrenOf
  cases mapFind st.childMap q with
  | none => simp
  | some l => simp

theorem Consistent.of_eq {st st1 : State} (h : Consistent st)
    (hp : st1.procMap = st.procMap) (hc : st1.childMap = st.childMap) : Consistent st1 := by
  refine ⟨?_, ?_, ?_, ?_, ?_⟩
  · rw [hp]; exact h.keyed
  · rw [hp]; exact h.nodup
  · rw [hp, hc]; exact h.childIn
  · rw [hc]; exact h.childNodup
  · intro k v hk
    rw [hp] at hk
    have := h.parentIn k v hk
    unfold childrenOf at this ⊢
    rw [hc]
    exact this

theorem Consistent.empty_state : Consistent {} :=
  ⟨fun _ _ h => by simp [mapFind] at h, List.nodup_nil,
    fun _ _ h => by simp [mapFind] at h, fun _ _ h => by simp [mapFind] at h,
    fun _ _ h => by simp [mapFind] at h⟩

theorem createProc_insert (skipKernel : Bool) (proc : Proc) (st : State) :
    (createProc skipKernel proc st).2 = st ∨
    (∃ s, (createProc skipKernel proc st).2 = { st with skippedKernelProc := s }) ∨
    (mapFind st.procMap proc.pid = none ∧ proc.tid = 0 ∧ proc.failed = false ∧
      (createProc skipKernel proc st).1 = 0 ∧
      (createProc skipKernel proc st).2 =
        { st with procMap := mapSet st.procMap proc.pid proc,
                  childMap := mapSet st.childMap proc.ppid (childrenOf st proc.ppid ++ [proc]) }) := by
  unfold createProc
  split
  · exact Or.inr (Or.inl ⟨_, rfl⟩)
  · split
    · exact Or.inr (Or.inl ⟨_, rfl⟩)
    · split
      · exact Or.inl rfl
      · split
        · exact Or.inl rfl
        · next h1 h2 =>
          refine Or.inr (Or.inr ⟨?_, ?_, ?_, rfl, rfl⟩)
          · simpa using h2
          · simp only [Bool.or_eq_true, not_or] at h1
            simpa using h1.1
          · simp only [Bool.or_eq_true, not_or] at h1
            simpa using h1.2

theorem createProc_consistent (skipKernel : Bool) (proc : Proc) (st : State)
    (h : Consistent st) : Consistent (createProc skipKernel proc st).2 := by
  rcases createProc_insert skipKernel proc st with he | ⟨s, he⟩ | ⟨hfresh, _, _, _, he⟩
  · rw [he]; exact h
  · rw [he]; exact h.of_eq rfl rfl
  · rw [he]
    have hne : ∀ c, mapFind st.procMap c.pid = some c → ¬ c.pid = proc.pid := by
      intro c hc e
      rw [e, hfresh] at hc
      simp at hc
    refine ⟨?_, ?_, ?_, ?_, ?_⟩
    · intro k v hk
      simp only [mapFind_mapSet] at hk
      by_cases hkp : k = proc.pid
      · rw [if_pos hkp] at hk
        cases hk
        exact hkp.symm
      · rw [if_neg hkp] at hk
        exact h.keyed k v hk
    · show ((mapSet st.procMap proc.pid proc).map Prod.fst).Nodup
      rw [(mapSet_keys_perm _ _ _ hfresh).nodup_iff, List.nodup_cons]
      refine ⟨?_, h.nodup⟩
      rw [mem_keys_iff, hfresh]
      simp
    · intro q l hq c hc
      simp only [mapFind_mapSet] at hq ⊢
      have hold : ∀ c, (∃ q1 l1, mapFind st.childMap q1 = some l1 ∧ c ∈ l1 ∧ q1 = q) →
          (if c.pid = proc.pid then some proc else mapFind st.procMap c.pid) = some c ∧
            c.ppid = q := by
        rintro c ⟨q1, l1, hq1, hc1, rfl⟩
        obtain ⟨hf, hpp⟩ := h.childIn q1 l1 hq1 c hc1
        rw [if_neg (hne c hf)]
        exact ⟨hf, hpp⟩
      by_cases hqp : q = proc.ppid
      · rw [if_pos hqp] at hq
        cases hq
        rcases List.mem_append.1 hc with hc | hc
        · obtain ⟨l1, hl1, hcl1⟩ := (childrenOf_mem_iff _ _ _).1 hc
          exact hold c ⟨proc.ppid, l1, hl1, hcl1, hqp.symm⟩
        · simp only [List.mem_singleton] at hc
          subst hc
          simp [hqp]
      · rw [if_neg hqp] at hq
        exact hold c ⟨q, l, hq, hc, rfl⟩
    · intro q l hq
      simp only [mapFind_mapSet] at hq
      by_cases hqp : q = proc.ppid
      · rw [if_pos hqp] at hq
        cases hq
        have hnd : (childrenOf st proc.ppid).Nodup := by
          unfold childrenOf
          cases hl : mapFind st.childMap proc.ppid with
          | none => exact List.nodup_nil
          | some l1 => exact h.childNodup _ _ hl
        refine List.Nodup.append hnd (List.nodup_singleton _) ?_
        intro c hc1 hc2
        simp only [List.mem_singleton] at hc2
        subst hc2
        obtain ⟨l1, hl1, hcl1⟩ := (childrenOf_mem_iff _ _ _).1 hc1
        exact hne c (h.childIn _ _ hl1 c hcl1).1 rfl
      · rw [if_neg hqp] at hq
        exact h.childNodup q l hq
    · intro k v hk
      simp only [mapFind_mapSet] at hk
      rw [childrenOf_mem_iff]
      simp only [mapFind_mapSet]
      by_cases hkp : k = proc.pid
      · rw [if_pos hkp] at hk
        cases hk
        exact ⟨_, by rw [if_pos rfl], by simp⟩
      · rw [if_neg hkp] at hk
        have hold := h.parentIn k v hk
        by_cases hvp : v.ppid = proc.ppid
        · refine ⟨_, by rw [if_pos hvp], ?_⟩
          rw [hvp] at hold
          exact List.mem_append_left _ hold
        · rw [if_neg hvp]
          exact (childrenOf_mem_iff _ _ _).1 hold

theorem createProc_out (skipKernel : Bool) (proc : Proc) (st : State) :
    (createProc skipKernel proc st).2.out = st.out := by
  rcases createProc_insert skipKernel proc st with he | ⟨s, he⟩ | ⟨_, _, _, _, he⟩ <;> rw [he]

theorem scanProcs_cons (skipKernel : Bool) (r : Proc) (rs : List Proc) (st : State) :
    scanProcs skipKernel (r :: rs) st =
      if (createProc skipKernel r st).1 = 0 then
        scanProcs skipKernel rs (createProc skipKernel r st).2
      else (1, (createProc skipKernel r st).2) := by
  rw [scanProcs]
  split
  · next heq => rw [heq]; simp
  · next code s hne heq =>
    rw [heq]
    have : ¬ code = 0 := by
      intro e
      subst e
      exact hne rfl
    simp [this]

theorem scanProcs_consistent (skipKernel : Bool) (rs : List Proc) (st : State)
    (h : Consistent st) :
    Consistent (scanProcs skipKernel rs st).2 ∧ (scanProcs skipKernel rs st).2.out = st.out := by
  induction rs generalizing st with
  | nil => exact ⟨h, rfl⟩
  | cons r rs ih =>
    have hc := createProc_consistent skipKernel r st h
    have ho := createProc_out skipKernel r st
    rw [scanProcs_cons]
    split
    · obtain ⟨h1, h2⟩ := ih _ hc
      exact ⟨h1, h2.trans ho⟩
    · exact ⟨hc, ho⟩

/-! ### Default render and explicit targets -/

theorem mem_allParents (st : State) (t : Int) :
    t ∈ allParents st ↔ (mapFind st.childMap t).isSome = true := by
  unfold allParents
  rw [← mem_keys_iff]
  have key : ∀ (m : List (Int × List Proc)) (acc : List Int),
      t ∈ m.foldl (fun s kv => setInsert s kv.1) acc ↔ t ∈ acc ∨ t ∈ m.map Prod.fst := by
    intro m
    induction m with
    | nil => intro acc; simp
    | cons kv m ih =>
      intro acc
      rw [List.foldl_cons, ih, mem_setInsert]
      simp only [List.map_cons, List.mem_cons]
      tauto
  rw [key]
  simp

theorem createProc_thrown (skipKernel : Bool) (proc : Proc) (st : State) :
    (createProc skipKernel proc st).2.thrown = st.thrown := by
  rcases createProc_insert skipKernel proc st with he | ⟨s, he⟩ | ⟨_, _, _, _, he⟩ <;> rw [he]

theorem scanProcs_thrown (skipKernel : Bool) (rs : List Proc) (st : State) :
    (scanProcs skipKernel rs st).2.thrown = st.thrown := by
  induction rs generalizing st with
  | nil => rfl
  | cons r rs ih =>
    rw [scanProcs_cons]
    split
    · rw [ih, createProc_thrown]
    · exact createProc_thrown _ _ _

/-- From the state `createProc` assembles out of any scanned records, with the
tree walk on and no target given, the render of `main` (one call of
`printPidTree` per key of ByParent Index, in ascending order), when no call of
`printProc` throws, writes the line of every record of ById Index exactly once
and leaves ById Index empty; no call throws when every line is one `printProc`
returns on. -/
theorem render_every_record_once (env : Env) (hnt : env.noTree = false) (skipKernel : Bool)
    (rs : List Proc) :
    ∃ st1, render env [] (scanProcs skipKernel rs {}).2 = some st1 ∧
      (Prints env → st1.thrown = false) ∧
      (st1.thrown = false →
        st1.procMap = [] ∧
        (ownProcs st1.out).Perm ((scanProcs skipKernel rs {}).2.procMap.map Prod.snd) ∧
        (ownProcs st1.out).Nodup) := by
  obtain ⟨hcons, hout⟩ := scanProcs_consistent skipKernel rs {} Consistent.empty_state
  have hthr : (scanProcs skipKernel rs {}).2.thrown = false := scanProcs_thrown skipKernel rs {}
  generalize (scanProcs skipKernel rs {}).2 = st0 at hcons hout hthr
  obtain ⟨st1, h1, hext0, hprop⟩ :=
    printTargets_selected env hnt st0 hcons hout (allParents st0)
  refine ⟨st1, by simpa [render] using h1, fun hp => printTargets_ok env hp _ _ _ hthr h1,
    fun hok => ?_⟩
  obtain ⟨hnd, _, hperm, hdone⟩ := hprop hok
  have hall : ∀ k v, mapFind st0.procMap k = some v → Selected st0 (allParents st0) v := by
    intro k v hk
    have hkey := hcons.keyed k v hk
    subst hkey
    obtain ⟨l, hl, hv⟩ := (childrenOf_mem_iff _ _ _).1 (hcons.parentIn _ v hk)
    exact ⟨hk, Or.inr ⟨v.ppid, (mem_allParents _ _).2 (by rw [hl]; rfl), Desc.child hl hv⟩⟩
  have hempty : st1.procMap = [] := by
    have hext : st1.procMap.Sublist st0.procMap := hext0.procSub
    cases hm : st1.procMap with
    | nil => rfl
    | cons kv m =>
      exfalso
      have hmem : kv ∈ st1.procMap := by rw [hm]; exact List.mem_cons_self _ _
      have hnd1 : (st1.procMap.map Prod.fst).Nodup := (hext.map Prod.fst).nodup hcons.nodup
      have hf1 : mapFind st1.procMap kv.1 = some kv.2 :=
        (mapFind_eq_some_iff_mem _ hnd1 _ _).2 hmem
      have hf0 : mapFind st0.procMap kv.1 = some kv.2 :=
        (mapFind_eq_some_iff_mem _ hcons.nodup _ _).2 (hext.subset hmem)
      have := hdone kv.2 (hall _ _ hf0)
      rw [hcons.keyed _ _ hf0, hf1] at this
      simp at this
  refine ⟨hempty, ?_, hnd⟩
  rw [hempty] at hperm
  simpa using hperm

theorem render_every_record_once_sample :
    ∃ st1, render {} [] (scanProcs true sampleProcs {}).2 = some st1 ∧
      st1.thrown = false ∧ st1.procMap = [] ∧
      (ownProcs st1.out).Perm ((scanProcs true sampleProcs {}).2.procMap.map Prod.snd) ∧
      (ownProcs st1.out).Nodup :=
  let ⟨st1, h1, _, h3⟩ := render_every_record_once {} rfl true sampleProcs
  have hok : st1.thrown = false := by
    have e : (render {} [] (scanProcs true sampleProcs {}).2).map (fun s => s.thrown)
        = some false := by decide
    rw [h1] at e
    exact Option.some.inj e
  ⟨st1, h1, hok, h3 hok⟩

/-- C1 (evaluation at the failing input): in the sample scan with the command line of process 7 not
UTF-8, the default render writes the row of record 1 alone: the call of
`printProc` for record 7 throws, the records 7, 8, 9 and 11 stay in ById Index
and the rows of 8, 9 and 11 are never written. -/
theorem C1_undecodable_line_ends_render :
    (render (rawEnv 7) [] (scanProcs true sampleProcs {}).2).map
        (fun st => (st.thrown, st.rows, st.procMap.map Prod.fst)) =
      some (true, [Line.own { pid := 1, ppid := 0, cmdline := "init" } ""], [7, 8, 9, 11]) := by
  decide

/-- From the state `createProc` assembles out of any scanned records, with the
tree walk on, the successive calls of `printPidTree` on the targets, when no
call of `printProc` throws, write the lines of exactly the records of ById
Index that are a target or a descendant of a target through ByParent Index,
each exactly once, whether or not one target is a descendant of another; no
call throws when every line is one `printProc` returns on. -/
theorem targets_with_descendants (env : Env) (hnt : env.noTree = false)
    (skipKernel : Bool) (rs : List Proc) (targets : List Int) :
    ∃ st1, printTargets env targets (scanProcs skipKernel rs {}).2 = some st1 ∧
      (Prints env → st1.thrown = false) ∧
      (st1.thrown = false →
        (ownProcs st1.out).Nodup ∧
        ∀ r, r ∈ ownProcs st1.out ↔
          mapFind (scanProcs skipKernel rs {}).2.procMap r.pid = some r ∧
            (r.pid ∈ targets ∨
              ∃ t ∈ targets, Desc (scanProcs skipKernel rs {}).2.childMap t r)) := by
  obtain ⟨hcons, hout⟩ := scanProcs_consistent skipKernel rs {} Consistent.empty_state
  obtain ⟨st1, h1, _, hprop⟩ := printTargets_selected env hnt _ hcons hout targets
  refine ⟨st1, h1,
    fun hp => printTargets_ok env hp _ _ _ (scanProcs_thrown skipKernel rs {}) h1, fun hok => ?_⟩
  obtain ⟨hnd, hsel, _, _⟩ := hprop hok
  exact ⟨hnd, hsel⟩

theorem targets_with_descendants_sample :
    ∃ st1, printTargets {} [1, 8] (scanProcs true sampleProcs {}).2 = some st1 ∧
      st1.thrown = false ∧
      (ownProcs st1.out).Nodup ∧
      ∀ r, r ∈ ownProcs st1.out ↔
        mapFind (scanProcs true sampleProcs {}).2.procMap r.pid = some r ∧
          (r.pid ∈ [(1 : Int), 8] ∨
            ∃ t ∈ [(1 : Int), 8], Desc (scanProcs true sampleProcs {}).2.childMap t r) :=
  let ⟨st1, h1, _, h3⟩ := targets_with_descendants {} rfl true sampleProcs [1, 8]
  have hok : st1.thrown = false := by
    have e : (printTargets {} [1, 8] (scanProcs true sampleProcs {}).2).map (fun s => s.thrown)
        = some false := by decide
    rw [h1] at e
    exact Option.some.inj e
  ⟨st1, h1, hok, h3 hok⟩

/-- C2 (evaluation at the failing input): in the sample scan with the command line of process 11 not
UTF-8 and the targets 8 and 9, the calls of `printPidTree` write the row of
record 8 alone: the call of `printProc` for its child 11 throws, so neither the
row of the descendant 11 nor the row of the target 9 is written, and both
records stay in ById Index. -/
theorem C2_undecodable_line_ends_targets :
    (printTargets (rawEnv 11) [8, 9] (scanProcs true sampleProcs {}).2).map
        (fun st => (st.thrown, st.rows, st.procMap.map Prod.fst)) =
      some (true, [Line.own { pid := 8, ppid := 1, cmdline := "foo --x" } ""], [1, 7, 9, 11]) := by
  decide

/-! ### Connectors of siblings -/

theorem bumpBack_snoc (tree : List TreeEntry) (te : TreeEntry) :
    bumpBack (tree ++ [te]) = tree ++ [{ te with curSibling := te.curSibling + 1 }] := by
  induction tree with
  | nil => rfl
  | cons a tree ih =>
    cases htree : tree with
    | nil => rfl
    | cons b t =>
      rw [htree] at ih
      simp only [List.cons_append] at ih ⊢
      rw [bumpBack, ih]
      simp

/-- The lines of the children written by the loop of a printed parent, when
the children are all still in `procMap`. -/
theorem children_lines (env : Env) (st0 : State) (hcons : Consistent st0) (n : Nat)
    (tree : List TreeEntry) :
    ∀ (cs : List Proc) (j : Nat) (s s1 : State),
      ChildrenRel (Walks env) true cs (tree ++ [⟨n, j + 1⟩]) s s1 →
      Extends st0 s → cs.Nodup →
      (∀ c ∈ cs, mapFind s.procMap c.pid = some c) →
      (∀ c ∈ cs, ∃ q l, mapFind st0.childMap q = some l ∧ c ∈ l ∧ mapFind s.childMap q = none) →
      ∃ new, s1.out = s.out ++ new ∧
        ∀ i (hi : i < cs.length), ∃ hc : Bool,
          Line.own (cs.get ⟨i, hi⟩) (treeArt env.art hc (tree ++ [⟨n, j + 1 + i⟩])).1 ∈ new := by
  intro cs
  induction cs with
  | nil =>
    intro j s s1 hrel _ _ _ _
    cases hrel
    exact ⟨[], by simp, fun i hi => absurd hi (by simp)⟩
  | cons c rest ih =>
    intro j s s1 hrel hext hnd hin hlist
    cases hrel with
    | cons _ _ _ _ s2 _ h1 h2 =>
      simp only [if_true, bumpBack_snoc] at h2
      obtain ⟨rest1, hrest1⟩ := h1.first_line c (hin c (List.mem_cons_self _ _))
      rw [List.nodup_cons] at hnd
      have same : ∀ x y : Proc, (∃ q l, mapFind st0.childMap q = some l ∧ x ∈ l) →
          (∃ q l, mapFind st0.childMap q = some l ∧ y ∈ l) → x.pid = y.pid → x = y := by
        rintro x y ⟨q1, l1, hq1, hx⟩ ⟨q2, l2, hq2, hy⟩ hxy
        have hx1 := (hcons.childIn q1 l1 hq1 x hx).1
        have hy1 := (hcons.childIn q2 l2 hq2 y hy).1
        rw [hxy, hy1] at hx1
        exact (Option.some.inj hx1).symm
      have hin2 : ∀ c' ∈ rest, mapFind s2.procMap c'.pid = some c' := by
        intro c' hc'
        refine h1.keeps c'.pid c' (hin c' (List.mem_cons_of_mem _ hc')) ?_ ?_
        · intro e
          obtain ⟨q1, l1, hq1, hm1, _⟩ := hlist c' (List.mem_cons_of_mem _ hc')
          obtain ⟨q2, l2, hq2, hm2, _⟩ := hlist c (List.mem_cons_self _ _)
          have := same c' c ⟨q1, l1, hq1, hm1⟩ ⟨q2, l2, hq2, hm2⟩ e
          subst this
          exact hnd.1 hc'
        · intro q' l' hq' x hx e
          obtain ⟨q1, l1, hq1, hm1, hnone⟩ := hlist c' (List.mem_cons_of_mem _ hc')
          have hq0 := hext.childFind q' l' hq'
          have := same x c' ⟨q', l', hq0, hx⟩ ⟨q1, l1, hq1, hm1⟩ e
          subst this
          have e1 := (hcons.childIn q' l' hq0 x hx).2
          have e2 := (hcons.childIn q1 l1 hq1 x hm1).2
          rw [← e2, e1, hq'] at hnone
          simp at hnone
      have hlist2 : ∀ c' ∈ rest, ∃ q l, mapFind st0.childMap q = some l ∧ c' ∈ l ∧
          mapFind s2.childMap q = none := by
        intro c' hc'
        obtain ⟨q1, l1, hq1, hm1, hnone⟩ := hlist c' (List.mem_cons_of_mem _ hc')
        refine ⟨q1, l1, hq1, hm1, ?_⟩
        cases hf : mapFind s2.childMap q1 with
        | none => rfl
        | some l2 => rw [h1.frame.childFind _ _ hf] at hnone; simp at hnone
      obtain ⟨new2, hnew2, hlines⟩ := ih (j + 1) s2 s1 h2 (hext.trans h1.frame) hnd.2 hin2 hlist2
      refine ⟨Line.own c (treeArt env.art (hasChildren env s c.pid) (tree ++ [⟨n, j + 1⟩])).1
        :: rest1 ++ new2, ?_, ?_⟩
      · rw [hnew2, hrest1]
        simp
      · intro i hi
        cases i with
        | zero =>
          exact ⟨hasChildren env s c.pid, by simp⟩
        | succ i' =>
          obtain ⟨hc, hmem⟩ := hlines i' (by simpa using hi)
          refine ⟨hc, ?_⟩
          have e : j + 1 + (i' + 1) = j + 1 + 1 + i' := by omega
          rw [e]
          simp only [List.get_eq_getElem, List.getElem_cons_succ] at hmem ⊢
          exact List.mem_cons_of_mem _ (List.mem_append_right _ hmem)

/-- In every state reached while rendering an assembled state, with the tree
walk on, when `printPidTree` walks a record that is in ById Index, has a
ByParent list of `n` children, and all of these are still in ById Index once
the record itself is printed, then, when no call of `printProc` throws, it
writes the line of each of the first `n - 1` children with the tee
(`ART_VERT_RIGHT`) and the line of the last child with the corner
(`ART_UP_RIGHT`) at the deepest level; no call throws when every line is one
`printProc` returns on. -/
theorem sibling_connectors (env : Env) (hnt : env.noTree = false) (skipKernel : Bool)
    (rs : List Proc) (st : State) (hext : Extends (scanProcs skipKernel rs {}).2 st)
    (pid : Int) (tree : List TreeEntry) (p : Proc) (cs : List Proc)
    (hp : mapFind st.procMap pid = some p) (hcs : mapFind st.childMap pid = some cs)
    (hpresent : ∀ c ∈ cs, (mapFind (mapErase st.procMap pid) c.pid).isSome = true) :
    ∃ st1, printPidTree env pid tree st = some st1 ∧
      (Prints env → st.thrown = false → st1.thrown = false) ∧
      (st1.thrown = false →
        ∃ new, st1.out = st.out ++ new ∧
          ∀ i (hi : i < cs.length), ∃ hc : Bool,
            Line.own (cs.get ⟨i, hi⟩)
              (ancestorArt env.art tree ++
                ((if i + 1 = cs.length then env.art.upRight else env.art.vertRight)
                  ++ env.art.horiz ++ (if hc = true then env.art.downHoriz else env.art.horiz)
                  ++ env.art.horizLeft)) ∈ new) := by
  obtain ⟨hcons, _⟩ := scanProcs_consistent skipKernel rs {} Consistent.empty_state
  generalize (scanProcs skipKernel rs {}).2 = st0 at hcons hext
  obtain ⟨st1, h1⟩ := printPidTree_total env pid tree st
  refine ⟨st1, h1, fun hpr h0 => printPidTreeFuel_ok env hpr _ _ _ _ _ h0 h1, fun hok => ?_⟩
  have hc : hasChildren env st pid = true := by simp [hasChildren, hnt, hcs]
  have hpar : hasParent st pid = true := by simp [hasParent, hp]
  have hco : childrenOf st pid = cs := by simp [childrenOf, hcs]
  have h2 := h1
  unfold printPidTree at h2
  rw [printPidTreeFuel_succ] at h2
  have hown : (ownStep env pid tree st).thrown = false := by
    cases ht : (ownStep env pid tree st).thrown with
    | false => rfl
    | true =>
      rw [if_pos ht] at h2
      simp only [Option.some.injEq] at h2
      subst h2
      rw [ht] at hok
      exact absurd hok (by simp)
  rw [if_neg (by rw [hown]; simp), if_pos hc, hpar, hco] at h2
  have hrel := printChildren_rel _ (Walks env) true (fun p t s s1 hw hk => ⟨_, hw, hk⟩)
    _ _ _ _ h2 hok
  simp only [childTree, if_true] at hrel
  have hext2 : Extends st (eraseChildren (ownStep env pid tree st) pid) :=
    (ownStep_extends env pid tree st).trans (eraseChildren_extends _ _)
  have hcs0 := hext.childFind _ _ hcs
  obtain ⟨new, hnew, hlines⟩ := children_lines env st0 hcons cs.length tree cs 0 _ _ hrel
    (hext.trans hext2) (hcons.childNodup _ _ hcs0)
    (by
      intro c hc
      show mapFind (ownStep env pid tree st).procMap c.pid = some c
      rw [ownStep_procMap _ _ _ _ hown]
      cases hf : mapFind (mapErase st.procMap pid) c.pid with
      | none => have := hpresent c hc; rw [hf] at this; simp at this
      | some v =>
        have h0 := hext.procFind _ _ (mapFind_of_mapErase _ _ _ _ hf)
        rw [(hcons.childIn _ _ hcs0 c hc).1] at h0
        rw [Option.some.inj h0])
    (by
      intro c hc
      refine ⟨pid, cs, hcs0, hc, ?_⟩
      show mapFind (mapErase (ownStep env pid tree st).childMap pid) pid = none
      rw [mapFind_mapErase, if_pos rfl])
  obtain ⟨new1, hnew1⟩ := hext2.out
  refine ⟨new1 ++ new, by rw [hnew, hnew1, List.append_assoc], ?_⟩
  intro i hi
  obtain ⟨b, hb⟩ := hlines i hi
  refine ⟨b, List.mem_append_right _ ?_⟩
  rw [treeArt_snoc] at hb
  have e : ((cs.length == 0 + 1 + i) = true) = (i + 1 = cs.length) := by
    simp only [beq_iff_eq, eq_iff_iff]
    constructor <;> intro h <;> omega
  simp only [nodeArt, e] at hb
  exact hb

/-! ### Witnesses and evaluations on the sample snapshots -/

theorem sibling_connectors_sample :
    ∃ st1, printPidTree {} 1 [] (scanProcs true sampleProcs {}).2 = some st1 ∧
      st1.thrown = false ∧
      ∃ new, st1.out = (scanProcs true sampleProcs {}).2.out ++ new ∧
      ∀ i (hi : i < [({ pid := 7, ppid := 1, cmdline := "sh" } : Proc),
            { pid := 8, ppid := 1, cmdline := "foo --x" },
            { pid := 9, ppid := 1, cmdline := "foobar --x" }].length), ∃ hc : Bool,
        Line.own ([({ pid := 7, ppid := 1, cmdline := "sh" } : Proc),
            { pid := 8, ppid := 1, cmdline := "foo --x" },
            { pid := 9, ppid := 1, cmdline := "foobar --x" }].get ⟨i, hi⟩)
          (ancestorArt ({} : Env).art [] ++
            ((if i + 1 = [({ pid := 7, ppid := 1, cmdline := "sh" } : Proc),
                { pid := 8, ppid := 1, cmdline := "foo --x" },
                { pid := 9, ppid := 1, cmdline := "foobar --x" }].length
              then ({} : Env).art.upRight else ({} : Env).art.vertRight)
              ++ ({} : Env).art.horiz
              ++ (if hc = true then ({} : Env).art.downHoriz else ({} : Env).art.horiz)
              ++ ({} : Env).art.horizLeft)) ∈ new :=
  let ⟨st1, h1, _, h3⟩ :=
    sibling_connectors {} rfl true sampleProcs (scanProcs true sampleProcs {}).2
      (Extends.refl _) 1 [] { pid := 1, ppid := 0, cmdline := "init" }
      [{ pid := 7, ppid := 1, cmdline := "sh" }, { pid := 8, ppid := 1, cmdline := "foo --x" },
        { pid := 9, ppid := 1, cmdline := "foobar --x" }]
      (by decide) (by decide) (by decide)
  have hok : st1.thrown = false := by
    have e : (printPidTree {} 1 [] (scanProcs true sampleProcs {}).2).map (fun s => s.thrown)
        = some false := by decide
    rw [h1] at e
    exact Option.some.inj e
  ⟨st1, h1, hok, h3 hok⟩

/-- C4 (evaluation at the failing input): in the sample scan, where record 1 has the three children
7, 8 and 9, all in ById Index, with the command line of process 8 not UTF-8,
`printPidTree` on 1 writes the row of 1 and the row of the first child with
the tee, and no other row: the call of `printProc` for the second child
throws, so the tee of the second and the corner of the last child are never
written. -/
theorem C4_undecodable_line_ends_siblings :
    (mapFind (scanProcs true sampleProcs {}).2.childMap 1).map (fun cs => cs.map Proc.pid) =
      some [7, 8, 9] ∧
    (printPidTree (rawEnv 8) 1 [] (scanProcs true sampleProcs {}).2).map
        (fun st => (st.thrown, st.rows, st.procMap.map Prod.fst)) =
      some (true, [Line.own { pid := 1, ppid := 0, cmdline := "init" } "",
                   Line.own { pid := 7, ppid := 1, cmdline := "sh" } "├──╴"], [8, 9, 11]) := by
  decide

theorem sample_render :
    (render {} [] (scanProcs true sampleProcs {}).2).map (fun st => st.out) =
      some [Line.own { pid := 1, ppid := 0, cmdline := "init" } "",
            Line.own { pid := 7, ppid := 1, cmdline := "sh" } "├──╴",
            Line.own { pid := 8, ppid := 1, cmdline := "foo --x" } "├─┬╴",
            Line.own { pid := 11, ppid := 8, cmdline := "bar" } "│ ╰──╴",
            Line.own { pid := 9, ppid := 1, cmdline := "foobar --x" } "╰──╴"] := by
  decide

theorem single_process_rows_sample :
    ∃ st1, render {} [] (scanProcs true [{ pid := 1, ppid := 0, cmdline := "init" }] {}).2
        = some st1 ∧
      st1.thrown = false ∧
      st1.out = [Line.own { pid := 1, ppid := 0, cmdline := "init" } ""] :=
  let ⟨_, st1, h1, h2, h3⟩ := single_process_rows {} true
    { pid := 1, ppid := 0, cmdline := "init" } rfl rfl rfl
    (fun _ => ⟨by decide, by decide⟩) (by decide)
  have hok : st1.thrown = false := by
    have e : (render {} [] (scanProcs true [{ pid := 1, ppid := 0, cmdline := "init" }] {}).2).map
        (fun s => s.thrown) = some false := by decide
    rw [h1] at e
    exact Option.some.inj e
  ⟨st1, h1, hok, (h3 hok).2.2 rfl⟩

/-- C6 (evaluation at the failing input): the record with id 5 has its parent
(id 10) in ById Index when rendering starts, yet the default render writes it
first, with empty tree art, and writes its parent after it, also as a root. -/
theorem C6_child_rendered_as_root :
    (mapFind (scanProcs true orphanProcs {}).2.procMap 10).isSome = true ∧
    (render {} [] (scanProcs true orphanProcs {}).2).map (fun st => st.out) =
      some [Line.own { pid := 5, ppid := 10, cmdline := "y" } "",
            Line.own { pid := 6, ppid := 5, cmdline := "z" } "╰──╴",
            Line.own { pid := 10, ppid := 20, cmdline := "x" } ""] := by
  decide

/-! ### Sorted maps and sets are determined by their content -/

theorem mem_keys_mapSet {β : Type} (m : List (Int × β)) (k x : Int) (v : β) :
    x ∈ (mapSet m k v).map Prod.fst ↔ x = k ∨ x ∈ m.map Prod.fst := by
  rw [mem_keys_iff, mem_keys_iff, mapFind_mapSet]
  by_cases h : x = k
  · simp [h]
  · simp [h]

theorem mapSet_sorted {β : Type} (m : List (Int × β)) (k : Int) (v : β)
    (h : (m.map Prod.fst).Pairwise (· < ·)) : ((mapSet m k v).map Prod.fst).Pairwise (· < ·) := by
  induction m with
  | nil => simp [mapSet]
  | cons kv m ih =>
    obtain ⟨k0, v0⟩ := kv
    simp only [List.map_cons, List.pairwise_cons] at h
    unfold mapSet
    by_cases h1 : k < k0
    · simp only [h1, if_true, List.map_cons, List.pairwise_cons, List.mem_cons]
      refine ⟨?_, h.1, h.2⟩
      rintro x (hx | hx)
      · rw [hx]; exact h1
      · exact lt_trans h1 (h.1 x hx)
    · by_cases h2 : k = k0
      · subst h2
        simp only [lt_self_iff_false, if_false, if_true, List.map_cons, List.pairwise_cons]
        exact h
      · simp only [h1, h2, if_false, List.map_cons, List.pairwise_cons]
        refine ⟨?_, ih h.2⟩
        intro x hx
        rcases (mem_keys_mapSet _ _ _ _).1 hx with hx | hx
        · rw [hx]; omega
        · exact h.1 x hx

theorem setInsert_sorted (s : List Int) (k : Int) (h : s.Pairwise (· < ·)) :
    (setInsert s k).Pairwise (· < ·) := by
  induction s with
  | nil => simp [setInsert]
  | cons a s ih =>
    simp only [List.pairwise_cons] at h
    unfold setInsert
    by_cases h1 : k < a
    · simp only [h1, if_true, List.pairwise_cons, List.mem_cons]
      refine ⟨?_, h.1, h.2⟩
      rintro x (hx | hx)
      · rw [hx]; exact h1
      · exact lt_trans h1 (h.1 x hx)
    · by_cases h2 : k = a
      · simp only [h1, h2, lt_self_iff_false, if_false, if_true, List.pairwise_cons]
        exact h
      · simp only [h1, h2, if_false, List.pairwise_cons]
        refine ⟨?_, ih h.2⟩
        intro x hx
        rcases (mem_setInsert _ _ _).1 hx with hx | hx
        · rw [hx]; omega
        · exact h.1 x hx

theorem set_eq_of_sorted (s1 s2 : List Int) (h1 : s1.Pairwise (· < ·))
    (h2 : s2.Pairwise (· < ·)) (hmem : ∀ x, x ∈ s1 ↔ x ∈ s2) : s1 = s2 := by
  have n1 : s1.Nodup := h1.imp (fun h => ne_of_lt h)
  have n2 : s2.Nodup := h2.imp (fun h => ne_of_lt h)
  exact List.eq_of_perm_of_sorted ((List.perm_ext_iff_of_nodup n1 n2).2 hmem) h1 h2

theorem map_eq_of_sorted {β : Type} (m1 m2 : List (Int × β))
    (h1 : (m1.map Prod.fst).Pairwise (· < ·)) (h2 : (m2.map Prod.fst).Pairwise (· < ·))
    (hfind : ∀ k, mapFind m1 k = mapFind m2 k) : m1 = m2 := by
  have k1 : (m1.map Prod.fst).Nodup := h1.imp (fun h => ne_of_lt h)
  have k2 : (m2.map Prod.fst).Nodup := h2.imp (fun h => ne_of_lt h)
  have hperm : m1.Perm m2 := by
    rw [List.perm_ext_iff_of_nodup (List.Nodup.of_map _ k1) (List.Nodup.of_map _ k2)]
    rintro ⟨k, v⟩
    rw [← mapFind_eq_some_iff_mem _ k1, ← mapFind_eq_some_iff_mem _ k2, hfind]
  have s1 : m1.Pairwise (fun a b => a.1 < b.1) := List.pairwise_map.1 h1
  have s2 : m2.Pairwise (fun a b => a.1 < b.1) := List.pairwise_map.1 h2
  haveI : IsAntisymm (Int × β) (fun a b => a.1 < b.1) :=
    ⟨fun a b hab hba => absurd hab (lt_asymm hba)⟩
  exact List.eq_of_perm_of_sorted hperm s1 s2

/-! ### The assembled state, exactly -/

theorem createProc_eq (skipKernel : Bool) (r : Proc) (st : State) :
    createProc skipKernel r st =
      if kernelSkipped skipKernel r = true then
        (0, { st with skippedKernelProc := setInsert st.skippedKernelProc r.pid })
      else if collected skipKernel r = true then
        if (mapFind st.procMap r.pid).isSome = true then (1, st)
        else (0, { st with procMap := mapSet st.procMap r.pid r,
                           childMap := mapSet st.childMap r.ppid (childrenOf st r.ppid ++ [r]) })
      else (0, st) := by
  unfold createProc collected kernelSkipped childrenOf
  cases skipKernel <;> cases h1 : (r.pid == 2) <;> cases h2 : (r.tid == 0) <;>
    cases h3 : (r.ppid == 2) <;> cases h4 : r.failed <;> simp [bne, h2]

theorem Assembled.empty_scan (skipKernel : Bool) : Assembled skipKernel [] {} :=
  ⟨List.Pairwise.nil, List.Pairwise.nil, List.Pairwise.nil,
    fun _ _ => by simp [mapFind], fun _ => by simp [mapFind],
    fun _ => by simp, rfl, rfl, rfl⟩

theorem createProc_assembled (skipKernel : Bool) (done : List Proc) (r : Proc) (st : State)
    (h : Assembled skipKernel done st) (hfresh : r.pid ∉ done.map Proc.pid) :
    (createProc skipKernel r st).1 = 0 ∧
      Assembled skipKernel (done ++ [r]) (createProc skipKernel r st).2 := by
  rw [createProc_eq]
  by_cases hk : kernelSkipped skipKernel r = true
  · rw [if_pos hk]
    have hcol : collected skipKernel r = false := by simp [collected, hk]
    refine ⟨rfl, h.procSorted, h.childSorted, setInsert_sorted _ _ h.skipSorted, ?_, ?_, ?_,
      h.errMap, h.out, h.thrown⟩
    · intro k v
      rw [h.procChar k v]
      simp only [List.mem_append, List.mem_singleton]
      constructor
      · rintro ⟨h1, h2⟩; exact ⟨Or.inl h1, h2⟩
      · rintro ⟨h1 | h1, h2, h3⟩
        · exact ⟨h1, h2, h3⟩
        · subst h1; rw [hcol] at h2; simp at h2
    · intro q
      rw [h.childChar q]
      simp [List.filter_append, List.filter_cons, hcol]
    · intro x
      show x ∈ setInsert st.skippedKernelProc r.pid ↔ _
      rw [mem_setInsert, h.skipChar x]
      simp only [List.mem_append, List.mem_singleton]
      constructor
      · rintro (h1 | ⟨r', h1, h2⟩)
        · exact ⟨r, Or.inr rfl, hk, h1.symm⟩
        · exact ⟨r', Or.inl h1, h2⟩
      · rintro ⟨r', h1 | h1, h2, h3⟩
        · exact Or.inr ⟨r', h1, h2, h3⟩
        · subst h1; exact Or.inl h3.symm
  · rw [if_neg hk]
    have hk' : kernelSkipped skipKernel r = false := by simpa using hk
    by_cases hcol : collected skipKernel r = true
    · rw [if_pos hcol]
      have hnone : mapFind st.procMap r.pid = none := by
        cases hf : mapFind st.procMap r.pid with
        | none => rfl
        | some v =>
          obtain ⟨hv, _, hp⟩ := (h.procChar _ _).1 hf
          exact absurd (List.mem_map.2 ⟨v, hv, hp⟩) hfresh
      rw [hnone]
      simp only [Option.isSome_none, Bool.false_eq_true, if_false]
      refine ⟨trivial, mapSet_sorted _ _ _ h.procSorted, mapSet_sorted _ _ _ h.childSorted,
        h.skipSorted, ?_, ?_, ?_, h.errMap, h.out, h.thrown⟩
      · intro k v
        show mapFind (mapSet st.procMap r.pid r) k = some v ↔ _
        rw [mapFind_mapSet]
        simp only [List.mem_append, List.mem_singleton]
        by_cases hkp : k = r.pid
        · rw [if_pos hkp]
          constructor
          · intro e
            cases e
            exact ⟨Or.inr rfl, hcol, hkp.symm⟩
          · rintro ⟨h1 | h1, _, h3⟩
            · exact absurd (List.mem_map.2 ⟨v, h1, h3.trans hkp⟩) hfresh
            · rw [h1]
        · rw [if_neg hkp, h.procChar k v]
          constructor
          · rintro ⟨h1, h2⟩; exact ⟨Or.inl h1, h2⟩
          · rintro ⟨h1 | h1, h2, h3⟩
            · exact ⟨h1, h2, h3⟩
            · subst h1; exact absurd h3.symm hkp
      · intro q
        show mapFind (mapSet st.childMap r.ppid (childrenOf st r.ppid ++ [r])) q = _
        rw [mapFind_mapSet]
        have hco : childrenOf st r.ppid =
            done.filter (fun x => collected skipKernel x && x.ppid == r.ppid) := by
          unfold childrenOf
          rw [h.childChar]
          split <;> simp_all
        by_cases hq : q = r.ppid
        · subst hq
          rw [if_pos rfl, hco]
          simp [List.filter_append, List.filter_cons, hcol]
        · rw [if_neg hq, h.childChar q]
          have : (r.ppid == q) = false := by
            simp only [beq_eq_false_iff_ne, ne_eq]
            exact fun e => hq e.symm
          simp [List.filter_append, List.filter_cons, this]
      · intro x
        rw [h.skipChar x]
        simp only [List.mem_append, List.mem_singleton]
        constructor
        · rintro ⟨r', h1, h2⟩; exact ⟨r', Or.inl h1, h2⟩
        · rintro ⟨r', h1 | h1, h2, h3⟩
          · exact ⟨r', h1, h2, h3⟩
          · subst h1; rw [hk'] at h2; simp at h2
    · rw [if_neg hcol]
      have hcol' : collected skipKernel r = false := by simpa using hcol
      refine ⟨rfl, h.procSorted, h.childSorted, h.skipSorted, ?_, ?_, ?_, h.errMap, h.out,
        h.thrown⟩
      · intro k v
        rw [h.procChar k v]
        simp only [List.mem_append, List.mem_singleton]
        constructor
        · rintro ⟨h1, h2⟩; exact ⟨Or.inl h1, h2⟩
        · rintro ⟨h1 | h1, h2, h3⟩
          · exact ⟨h1, h2, h3⟩
          · subst h1; rw [hcol'] at h2; simp at h2
      · intro q
        rw [h.childChar q]
        simp [List.filter_append, List.filter_cons, hcol']
      · intro x
        rw [h.skipChar x]
        simp only [List.mem_append, List.mem_singleton]
        constructor
        · rintro ⟨r', h1, h2⟩; exact ⟨r', Or.inl h1, h2⟩
        · rintro ⟨r', h1 | h1, h2, h3⟩
          · exact ⟨r', h1, h2, h3⟩
          · subst h1; rw [hk'] at h2; simp at h2

theorem scanProcs_assembled (skipKernel : Bool) (rs : List Proc) :
    ∀ (done : List Proc) (st : State), Assembled skipKernel done st →
      ((done ++ rs).map Proc.pid).Nodup →
      (scanProcs skipKernel rs st).1 = 0 ∧
        Assembled skipKernel (done ++ rs) (scanProcs skipKernel rs st).2 := by
  induction rs with
  | nil =>
    intro done st h _
    simpa [scanProcs] using h
  | cons r rs ih =>
    intro done st h hnd
    have hfresh : r.pid ∉ done.map Proc.pid := by
      rw [List.map_append, List.nodup_append] at hnd
      intro hmem
      exact hnd.2.2 hmem (by simp)
    obtain ⟨h0, h1⟩ := createProc_assembled skipKernel done r st h hfresh
    rw [scanProcs_cons, if_pos h0]
    have := ih (done ++ [r]) _ h1 (by simpa using hnd)
    simpa using this

/-! ### Scan order -/

theorem State.eq_of_fields (a b : State) (h1 : a.procMap = b.procMap)
    (h2 : a.childMap = b.childMap) (h3 : a.errMap = b.errMap)
    (h4 : a.skippedKernelProc = b.skippedKernelProc) (h5 : a.out = b.out)
    (h6 : a.thrown = b.thrown) : a = b := by
  cases a
  cases b
  simp_all

theorem render_total (env : Env) (pidList : List Int) (st : State) :
    ∃ st1, render env pidList st = some st1 :=
  printTargets_total env _ st

theorem Assembled.unique (skipKernel : Bool) (rs1 rs2 : List Proc) (a b : State)
    (ha : Assembled skipKernel rs1 a) (hb : Assembled skipKernel rs2 b)
    (hperm : rs1.Perm rs2)
    (hsib : ∀ q, rs1.filter (fun r => r.ppid == q) = rs2.filter (fun r => r.ppid == q)) :
    a = b := by
  apply State.eq_of_fields
  · apply map_eq_of_sorted _ _ ha.procSorted hb.procSorted
    intro k
    apply Option.ext
    intro v
    rw [Option.mem_def, Option.mem_def, ha.procChar, hb.procChar, hperm.mem_iff]
  · apply map_eq_of_sorted _ _ ha.childSorted hb.childSorted
    intro q
    rw [ha.childChar, hb.childChar]
    have e : ∀ rs : List Proc, rs.filter (fun r => collected skipKernel r && r.ppid == q) =
        (rs.filter (fun r => r.ppid == q)).filter (fun r => collected skipKernel r) := by
      intro rs
      rw [List.filter_filter]
    rw [e rs1, e rs2, hsib q]
  · rw [ha.errMap, hb.errMap]
  · apply set_eq_of_sorted _ _ ha.skipSorted hb.skipSorted
    intro x
    rw [ha.skipChar, hb.skipChar]
    constructor
    · rintro ⟨r, h1, h2⟩; exact ⟨r, hperm.mem_iff.1 h1, h2⟩
    · rintro ⟨r, h1, h2⟩; exact ⟨r, hperm.mem_iff.2 h1, h2⟩
  · rw [ha.out, hb.out]
  · rw [ha.thrown, hb.thrown]

/-- C3 (as stated, refuted): the same three records scanned in two orders
render differently; the order of the two siblings and their connectors follow
the scan order. -/
theorem C3_counterexample :
    ¬ ((render {} []
          (scanProcs true [{ pid := 1, ppid := 0 }, { pid := 7, ppid := 1 },
            { pid := 8, ppid := 1 }] {}).2).map (fun st => st.out) =
       (render {} []
          (scanProcs true [{ pid := 1, ppid := 0 }, { pid := 8, ppid := 1 },
            { pid := 7, ppid := 1 }] {}).2).map (fun st => st.out)) := by
  decide

/-- C3 (amended): assembling the same records, with pairwise distinct ids, in
two scan orders that list the children of every parent id in the same
relative order builds the same indices, so rendering both with the same
options and targets gives identical output. -/
theorem C3_same_sibling_order (env : Env) (skipKernel : Bool) (rs1 rs2 : List Proc)
    (pidList : List Int) (hperm : rs1.Perm rs2) (hd : (rs1.map Proc.pid).Nodup)
    (hsib : ∀ q, rs1.filter (fun r => r.ppid == q) = rs2.filter (fun r => r.ppid == q)) :
    (scanProcs skipKernel rs1 {}).2 = (scanProcs skipKernel rs2 {}).2 ∧
    ∃ st1, render env pidList (scanProcs skipKernel rs1 {}).2 = some st1 ∧
      render env pidList (scanProcs skipKernel rs2 {}).2 = some st1 := by
  have hd2 : (rs2.map Proc.pid).Nodup := (hperm.map Proc.pid).nodup_iff.1 hd
  have ha := (scanProcs_assembled skipKernel rs1 [] {} (Assembled.empty_scan _) (by simpa using hd)).2
  have hb := (scanProcs_assembled skipKernel rs2 [] {} (Assembled.empty_scan _) (by simpa using hd2)).2
  simp only [List.nil_append] at ha hb
  have heq := Assembled.unique skipKernel rs1 rs2 _ _ ha hb hperm hsib
  obtain ⟨st1, h1⟩ := render_total env pidList (scanProcs skipKernel rs1 {}).2
  exact ⟨heq, st1, h1, by rw [← heq]; exact h1⟩

theorem C3_same_sibling_order_witness :
    sampleProcs.Perm sampleProcsMoved ∧ (sampleProcs.map Proc.pid).Nodup ∧
    (scanProcs true sampleProcs {}).2 = (scanProcs true sampleProcsMoved {}).2 ∧
    ∃ st1, render {} [] (scanProcs true sampleProcs {}).2 = some st1 ∧
      render {} [] (scanProcs true sampleProcsMoved {}).2 = some st1 :=
  have hperm : sampleProcs.Perm sampleProcsMoved := by decide
  have hd : (sampleProcs.map Proc.pid).Nodup := by decide
  ⟨hperm, hd, C3_same_sibling_order {} true sampleProcs sampleProcsMoved [] hperm hd
    (by
      intro q
      simp only [sampleProcs, sampleProcsMoved, List.filter_cons, List.filter_nil]
      split_ifs <;> simp_all <;> omega)⟩

/-! ### Argument matching is read-only and idempotent -/

theorem setInsert_of_mem (s : List Int) (x : Int) (hs : s.Pairwise (· < ·)) (hx : x ∈ s) :
    setInsert s x = s := by
  induction s with
  | nil => simp at hx
  | cons a s ih =>
    simp only [List.pairwise_cons] at hs
    unfold setInsert
    rcases List.mem_cons.1 hx with h | h
    · subst h
      simp
    · have hlt : a < x := hs.1 x h
      have h1 : ¬ x < a := by omega
      have h2 : ¬ x = a := by omega
      simp only [h1, h2, if_false]
      rw [ih hs.2 h]

theorem matchCmd_absorb (exeOnly : Bool) (myPid : Int) (str : String) (st : State)
    (p : List Int) (hs : p.Pairwise (· < ·))
    (hin : ∀ kv ∈ st.procMap, kv.2.pid ≠ myPid → cmdMatches exeOnly str kv.2 = true →
      kv.2.pid ∈ p) :
    matchCmd exeOnly myPid str st p = p := by
  unfold matchCmd
  generalize st.procMap = m at hin
  induction m with
  | nil => rfl
  | cons kv m ih =>
    rw [List.foldl_cons]
    have hrest := ih (fun kv' h' => hin kv' (List.mem_cons_of_mem _ h'))
    by_cases h1 : kv.2.pid = myPid
    · rw [if_pos (by simpa using h1)]
      exact hrest
    · have hb : (kv.2.pid == myPid) = false := by simpa using h1
      simp only [hb, Bool.false_eq_true, if_false]
      by_cases h2 : cmdMatches exeOnly str kv.2 = true
      · simp only [h2, if_true]
        rw [setInsert_of_mem _ _ hs (hin kv (List.mem_cons_self _ _) h1 h2)]
        exact hrest
      · simp only [h2, Bool.false_eq_true, if_false]
        exact hrest

theorem mapAt_of_isSome (m : List (Int × String)) (k : Int)
    (h : (mapFind m k).isSome = true) : (mapAt m k).2 = m := by
  unfold mapAt
  cases hf : mapFind m k with
  | none => rw [hf] at h; simp at h
  | some v => rfl

/-- One turn of the loop writes no table and only adds to the target set. -/
theorem parseArg_frame (env : ArgEnv) (str : String) (a a1 : ArgState)
    (h : parseArg env str a = some a1) :
    a1.st = a.st ∧ ∀ x ∈ a.pidList, x ∈ a1.pidList := by
  unfold parseArg at h
  split at h
  · split at h
    · simp at h
    · next pid _ =>
      split at h
      · cases h
        exact ⟨rfl, fun x hx => (mem_setInsert _ _ _).2 (Or.inr hx)⟩
      · split at h
        · split at h
          · cases h; exact ⟨rfl, fun x hx => hx⟩
          · split at h
            · next hsome =>
              cases h
              refine ⟨?_, fun x hx => hx⟩
              show ({ a.st with errMap := (mapAt a.st.errMap pid).2 } : State) = a.st
              rw [mapAt_of_isSome _ _ hsome]
            · cases h; exact ⟨rfl, fun x hx => hx⟩
        · cases h; exact ⟨rfl, fun x hx => hx⟩
  · cases h
    exact ⟨rfl, fun x hx => (mem_matchCmd _ _ _ _ _ _).2 (Or.inl hx)⟩

/-- A turn of the loop repeated on a sorted target set that already holds what
the turn left the first time leaves that set as it is. -/
theorem parseArg_absorb (env : ArgEnv) (str : String) (a a1 b : ArgState)
    (h : parseArg env str a = some a1) (hst : b.st = a.st)
    (hs : b.pidList.Pairwise (· < ·)) (hin : ∀ x ∈ a1.pidList, x ∈ b.pidList) :
    ∃ b1, parseArg env str b = some b1 ∧ b1.pidList = b.pidList ∧ b1.st = b.st ∧
      (b.err = a.err → b1.err = a1.err) := by
  obtain ⟨bst, bpl, berr⟩ := b
  simp only at hst hs hin
  subst hst
  unfold parseArg at h ⊢
  split at h
  · next hnum =>
    rw [if_pos hnum]
    split at h
    · simp at h
    · next pid hpid =>
      simp only [hpid]
      split at h
      · next hsome =>
        cases h
        rw [if_pos hsome]
        refine ⟨_, rfl, ?_, rfl, fun e => e⟩
        exact setInsert_of_mem _ _ hs (hin pid ((mem_setInsert _ _ _).2 (Or.inl rfl)))
      · next hnone =>
        rw [if_neg hnone]
        split at h
        · next hv =>
          rw [if_pos hv]
          split at h
          · next hk =>
            cases h
            rw [if_pos hk]
            exact ⟨_, rfl, rfl, rfl, fun e => by simp [e]⟩
          · next hk =>
            rw [if_neg hk]
            split at h
            · next he =>
              cases h
              rw [if_pos he]
              refine ⟨_, rfl, rfl, ?_, fun e => by simp [e]⟩
              show ({ a.st with errMap := (mapAt a.st.errMap pid).2 } : State) = a.st
              rw [mapAt_of_isSome _ _ he]
            · next he =>
              cases h
              rw [if_neg he]
              exact ⟨_, rfl, rfl, rfl, fun e => by simp [e]⟩
        · next hv =>
          cases h
          rw [if_neg hv]
          exact ⟨_, rfl, rfl, rfl, fun e => e⟩
  · next hnum =>
    cases h
    rw [if_neg hnum]
    refine ⟨_, rfl, ?_, rfl, fun e => ?_⟩
    · apply matchCmd_absorb _ _ _ _ _ hs
      intro kv hkv hne hm
      exact hin _ ((mem_matchCmd _ _ _ _ _ _).2 (Or.inr ⟨kv, hkv, rfl, hne, hm⟩))
    · have e' : berr = a.err := e
      subst e'
      rfl

theorem parseArgsLoop_frame (env : ArgEnv) (args : List String) :
    ∀ (a a1 : ArgState), parseArgsLoop env args a = some a1 →
      a1.st = a.st ∧ ∀ x ∈ a.pidList, x ∈ a1.pidList := by
  induction args with
  | nil =>
    intro a a1 h
    simp only [parseArgsLoop, Option.some.injEq] at h
    subst h
    exact ⟨rfl, fun x hx => hx⟩
  | cons str rest ih =>
    intro a a1 h
    rw [parseArgsLoop] at h
    cases hp : parseArg env str a with
    | none => rw [hp] at h; simp at h
    | some a2 =>
      rw [hp] at h
      obtain ⟨h1, h2⟩ := parseArg_frame env str a a2 hp
      obtain ⟨h3, h4⟩ := ih a2 a1 h
      exact ⟨h3.trans h1, fun x hx => h4 x (h2 x hx)⟩

theorem parseArgsLoop_absorb (env : ArgEnv) (args : List String) :
    ∀ (a a1 b : ArgState), parseArgsLoop env args a = some a1 → b.st = a.st →
      b.pidList.Pairwise (· < ·) → (∀ x ∈ a1.pidList, x ∈ b.pidList) →
      ∃ b1, parseArgsLoop env args b = some b1 ∧ b1.pidList = b.pidList ∧ b1.st = b.st ∧
        (b.err = a.err → b1.err = a1.err) := by
  induction args with
  | nil =>
    intro a a1 b h _ _ _
    simp only [parseArgsLoop, Option.some.injEq] at h
    subst h
    exact ⟨b, rfl, rfl, rfl, fun e => e⟩
  | cons str rest ih =>
    intro a a1 b h hst hs hin
    rw [parseArgsLoop] at h
    cases hp : parseArg env str a with
    | none => rw [hp] at h; simp at h
    | some a2 =>
      rw [hp] at h
      have hmono := (parseArgsLoop_frame env rest a2 a1 h).2
      obtain ⟨b2, hb2, hpl, hst2, herr2⟩ :=
        parseArg_absorb env str a a2 b hp hst hs (fun x hx => hin x (hmono x hx))
      obtain ⟨b1, hb1, hpl1, hst1, herr1⟩ := ih a2 a1 b2 h
        (hst2.trans (hst.trans (parseArg_frame env str a a2 hp).1.symm))
        (by rw [hpl]; exact hs) (by rw [hpl]; exact hin)
      refine ⟨b1, ?_, hpl1.trans hpl, hst1.trans hst2, fun e => herr1 (herr2 e)⟩
      rw [parseArgsLoop, hb2]
      exact hb1

theorem matchCmd_sorted (exeOnly : Bool) (myPid : Int) (str : String) (st : State)
    (p : List Int) (hs : p.Pairwise (· < ·)) :
    (matchCmd exeOnly myPid str st p).Pairwise (· < ·) := by
  unfold matchCmd
  generalize st.procMap = m
  induction m generalizing p with
  | nil => exact hs
  | cons kv m ih =>
    rw [List.foldl_cons]
    apply ih
    split
    · exact hs
    · split
      · exact setInsert_sorted _ _ hs
      · exact hs

theorem parseArgsLoop_sorted (env : ArgEnv) (args : List String) :
    ∀ (a a1 : ArgState), parseArgsLoop env args a = some a1 →
      a.pidList.Pairwise (· < ·) → a1.pidList.Pairwise (· < ·) := by
  induction args with
  | nil =>
    intro a a1 h hs
    simp only [parseArgsLoop, Option.some.injEq] at h
    subst h
    exact hs
  | cons str rest ih =>
    intro a a1 h hs
    rw [parseArgsLoop] at h
    cases hp : parseArg env str a with
    | none => rw [hp] at h; simp at h
    | some a2 =>
      rw [hp] at h
      refine ih a2 a1 h ?_
      unfold parseArg at hp
      split at hp
      · split at hp
        · simp at hp
        · split at hp
          · cases hp; exact setInsert_sorted _ _ hs
          · split at hp
            · split at hp
              · cases hp; exact hs
              · split at hp <;> (cases hp; exact hs)
            · cases hp; exact hs
      · cases hp
        exact matchCmd_sorted _ _ _ _ _ hs

/-- C11: a run of `parseArgs` (with `matchCmd`) that returns leaves every
table, ById Index, ByParent Index and ErrorIndex among them, as it was, for
every flag setting and token list, and a second run on the same tokens and
tables, started from the target set the first run left, returns the same code
and leaves the same target set. The target set is a `std::set`, kept in
ascending order. -/
theorem C11_parseArgs_read_only_idempotent (env : ArgEnv) (args : List String) (st : State)
    (pidList : List Int) (hs : pidList.Pairwise (· < ·)) (code : Int) (a : ArgState)
    (h : parseArgs env args st pidList = some (code, a)) :
    a.st = st ∧
    ∃ a2, parseArgs env args a.st a.pidList = some (code, a2) ∧
      a2.pidList = a.pidList ∧ a2.st = st ∧ a2.err = a.err := by
  unfold parseArgs at h
  cases hl : parseArgsLoop env args { st := st, pidList := pidList, err := [] } with
  | none => rw [hl] at h; simp at h
  | some a1 =>
    rw [hl] at h
    simp only at h
    obtain ⟨hst1, hmono⟩ := parseArgsLoop_frame env args _ a1 hl
    simp only at hst1
    have hsorted : a1.pidList.Pairwise (· < ·) := parseArgsLoop_sorted env args _ a1 hl hs
    obtain ⟨b1, hb1, hpl, hstb, herr⟩ := parseArgsLoop_absorb env args _ a1
      { st := st, pidList := a1.pidList, err := [] } hl rfl hsorted (fun x hx => hx)
    have herr1 : b1.err = a1.err := herr rfl
    have hb : b1 = a1 := by
      cases b1
      cases a1
      simp_all
    subst hb
    by_cases hempty : b1.pidList.isEmpty = true
    · rw [if_pos hempty] at h
      simp only [Option.some.injEq, Prod.mk.injEq] at h
      obtain ⟨hcode, ha⟩ := h
      subst hcode
      subst ha
      have ha_st : (if env.verbose = true then b1
          else { b1 with err := b1.err ++ ["Nothing matched"] }).st = st := by
        split <;> exact hst1
      have ha_pl : (if env.verbose = true then b1
          else { b1 with err := b1.err ++ ["Nothing matched"] }).pidList = b1.pidList := by
        split <;> rfl
      refine ⟨ha_st, _, ?_, rfl, ha_st, rfl⟩
      unfold parseArgs
      rw [ha_st, ha_pl, hb1]
      simp only [if_pos hempty]
    · rw [if_neg hempty] at h
      simp only [Option.some.injEq, Prod.mk.injEq] at h
      obtain ⟨hcode, ha⟩ := h
      subst hcode
      subst ha
      refine ⟨hst1, _, ?_, rfl, hst1, rfl⟩
      unfold parseArgs
      rw [hst1, hb1]
      simp only [if_neg hempty]

theorem C11_parseArgs_read_only_idempotent_witness :
    ([] : List Int).Pairwise (· < ·) ∧
    parseArgs { exeOnly := true } ["8", "foo"] (scanProcs true sampleProcs {}).2 [] =
      some (0, { st := (scanProcs true sampleProcs {}).2, pidList := [8, 9], err := [] }) ∧
    ∃ a2, parseArgs { exeOnly := true } ["8", "foo"] (scanProcs true sampleProcs {}).2 [8, 9] =
        some (0, a2) ∧
      a2.pidList = [8, 9] ∧ a2.st = (scanProcs true sampleProcs {}).2 ∧ a2.err = [] :=
  have h : parseArgs { exeOnly := true } ["8", "foo"] (scanProcs true sampleProcs {}).2 [] =
      some (0, { st := (scanProcs true sampleProcs {}).2, pidList := [8, 9], err := [] }) := by
    decide
  ⟨List.Pairwise.nil, h,
    (C11_parseArgs_read_only_idempotent { exeOnly := true } ["8", "foo"]
      (scanProcs true sampleProcs {}).2 [] List.Pairwise.nil 0 _ h).2⟩

/-! ### The loops of `removeBlanks` -/

theorem blankFirst_none (c : Char) (s : List Char) (h : blankFirst c s = none) : c ∉ s := by
  induction s with
  | nil => simp
  | cons x rest ih =>
    rw [blankFirst] at h
    by_cases hx : x = c
    · simp [hx] at h
    · rw [if_neg hx] at h
      cases hr : blankFirst c rest with
      | none =>
        have := ih hr
        simp only [List.mem_cons, not_or]
        exact ⟨fun e => hx e.symm, this⟩
      | some r => rw [hr] at h; simp at h

theorem blankFirst_some (c : Char) (hc : c = Char.ofNat 0 ∨ c = '\t') (s r : List Char)
    (h : blankFirst c s = some r) :
    blankOut r = blankOut s ∧
      r.countP (fun x => x == Char.ofNat 0 || x == '\t') + 1 =
        s.countP (fun x => x == Char.ofNat 0 || x == '\t') := by
  induction s generalizing r with
  | nil => simp [blankFirst] at h
  | cons x rest ih =>
    rw [blankFirst] at h
    by_cases hx : x = c
    · rw [if_pos hx] at h
      cases h
      subst hx
      refine ⟨?_, ?_⟩
      · simp only [blankOut, List.map_cons, hc, if_true]
        simp
      · have h1 : (x == Char.ofNat 0 || x == '\t') = true := by
          rcases hc with h | h <;> simp [h]
        have h2 : ((' ' : Char) == Char.ofNat 0 || (' ' : Char) == '\t') = false := by decide
        simp only [List.countP_cons, h1, h2, if_true, Bool.false_eq_true, if_false]
    · rw [if_neg hx] at h
      cases hr : blankFirst c rest with
      | none => rw [hr] at h; simp at h
      | some r1 =>
        rw [hr] at h
        cases h
        obtain ⟨h1, h2⟩ := ih r1 hr
        refine ⟨?_, ?_⟩
        · simp only [blankOut, List.map_cons] at h1 ⊢
          rw [h1]
        · simp only [List.countP_cons]
          omega

theorem blankOut_of_clean (s : List Char) (h0 : Char.ofNat 0 ∉ s) (h1 : '\t' ∉ s) :
    blankOut s = s := by
  unfold blankOut
  conv_rhs => rw [← List.map_id s]
  apply List.map_congr_left
  intro c hc
  have e0 : ¬ c = Char.ofNat 0 := fun e => h0 (e ▸ hc)
  have e1 : ¬ c = '\t' := fun e => h1 (e ▸ hc)
  simp [e0, e1]

theorem blankLoop_eq (n : Nat) (s : List Char)
    (h : s.countP (fun x => x == Char.ofNat 0 || x == '\t') ≤ n) :
    blankLoop n s = blankOut s := by
  induction n generalizing s with
  | zero =>
    rw [blankLoop]
    have h0 : s.countP (fun x => x == Char.ofNat 0 || x == '\t') = 0 := by omega
    rw [List.countP_eq_zero] at h0
    refine (blankOut_of_clean s ?_ ?_).symm
    · intro hm; have := h0 _ hm; simp at this
    · intro hm; have := h0 _ hm; simp at this
  | succ n ih =>
    rw [blankLoop]
    unfold blankStep
    cases h0 : blankFirst (Char.ofNat 0) s with
    | some r =>
      obtain ⟨e1, e2⟩ := blankFirst_some _ (Or.inl rfl) s r h0
      simp only
      rw [ih r (by omega), e1]
    | none =>
      simp only
      cases h1 : blankFirst '\t' s with
      | some r =>
        obtain ⟨e1, e2⟩ := blankFirst_some _ (Or.inr rfl) s r h1
        simp only
        rw [ih r (by omega), e1]
      | none =>
        simp only
        exact (blankOut_of_clean s (blankFirst_none _ _ h0) (blankFirst_none _ _ h1)).symm

theorem squeezeStep_head (y : Char) (rest r : List Char)
    (h : squeezeStep (y :: rest) = some r) : ∃ r1, r = y :: r1 := by
  cases rest with
  | nil => simp [squeezeStep] at h
  | cons z rest1 =>
    rw [squeezeStep] at h
    by_cases hyz : y = ' ' ∧ z = ' '
    · rw [if_pos hyz] at h
      cases h
      exact ⟨rest1, by rw [hyz.1]⟩
    · rw [if_neg hyz] at h
      cases hr : squeezeStep (z :: rest1) with
      | none => rw [hr] at h; simp at h
      | some r2 => rw [hr] at h; cases h; exact ⟨r2, rfl⟩

theorem squeezeStep_none (s : List Char) (h : squeezeStep s = none) : squeeze s = s := by
  induction s with
  | nil => rfl
  | cons x rest ih =>
    cases rest with
    | nil => rfl
    | cons y rest1 =>
      rw [squeezeStep] at h
      by_cases hxy : x = ' ' ∧ y = ' '
      · rw [if_pos hxy] at h; simp at h
      · rw [if_neg hxy] at h
        cases hr : squeezeStep (y :: rest1) with
        | none => rw [squeeze, if_neg hxy, ih hr]
        | some r => rw [hr] at h; simp at h

theorem squeezeStep_some (s r : List Char) (h : squeezeStep s = some r) :
    r.length + 1 = s.length ∧ squeeze r = squeeze s := by
  induction s generalizing r with
  | nil => simp [squeezeStep] at h
  | cons x rest ih =>
    cases rest with
    | nil => simp [squeezeStep] at h
    | cons y rest1 =>
      rw [squeezeStep] at h
      by_cases hxy : x = ' ' ∧ y = ' '
      · rw [if_pos hxy] at h
        cases h
        refine ⟨by simp, ?_⟩
        rw [squeeze.eq_3 x y rest1, if_pos hxy, hxy.2]
      · rw [if_neg hxy] at h
        cases hr : squeezeStep (y :: rest1) with
        | none => rw [hr] at h; simp at h
        | some r1 =>
          rw [hr] at h
          cases h
          obtain ⟨h1, h2⟩ := ih r1 hr
          obtain ⟨r2, hr2⟩ := squeezeStep_head y rest1 r1 hr
          subst hr2
          refine ⟨by simp only [List.length_cons] at h1 ⊢; omega, ?_⟩
          rw [squeeze, if_neg hxy, h2, squeeze.eq_3 x y rest1, if_neg hxy]

theorem squeezeLoop_eq (n : Nat) (s : List Char) (h : s.length ≤ n) :
    squeezeLoop n s = squeeze s := by
  induction n generalizing s with
  | zero =>
    have : s = [] := List.length_eq_zero.1 (by omega)
    subst this
    rfl
  | succ n ih =>
    rw [squeezeLoop]
    cases hs : squeezeStep s with
    | none => exact (squeezeStep_none s hs).symm
    | some r =>
      obtain ⟨h1, h2⟩ := squeezeStep_some s r hs
      simp only
      rw [ih r (by omega), h2]


/-! ### Pieces of a text -/

theorem pieces_nil : pieces [] = [] := rfl

theorem pieces_cons_blank (c : Char) (r : List Char) (h : isBlank c = true) :
    pieces (c :: r) = pieces r := by
  unfold pieces
  rw [List.splitOnP_cons, if_pos h]
  rfl

theorem splitOnP_head_nil (d : Char) (r : List Char) (h : isBlank d = true) :
    ∃ ws, (d :: r).splitOnP isBlank = [] :: ws :=
  ⟨_, by rw [List.splitOnP_cons, if_pos h]⟩

theorem splitOnP_head_cons (d : Char) (r : List Char) (h : isBlank d = false) :
    ∃ w ws, (d :: r).splitOnP isBlank = (d :: w) :: ws := by
  rw [List.splitOnP_cons, h]
  cases hs : r.splitOnP isBlank with
  | nil => exact absurd hs (List.splitOnP_ne_nil _ _)
  | cons w ws => exact ⟨w, ws, by simp⟩

theorem pieces_cons_word (c : Char) (r : List Char) (h : isBlank c = false) :
    pieces (c :: r) = glue c r (pieces r) := by
  unfold pieces glue
  rw [List.splitOnP_cons, h]
  cases r with
  | nil => rfl
  | cons d r1 =>
    cases hd : isBlank d with
    | true =>
      obtain ⟨ws, hws⟩ := splitOnP_head_nil d r1 hd
      rw [hws]
      simp [hd]
    | false =>
      obtain ⟨w, ws, hws⟩ := splitOnP_head_cons d r1 hd
      rw [hws]
      simp [hd]

theorem pieces_word_ne_nil (c : Char) (r : List Char) (h : isBlank c = false) :
    pieces (c :: r) ≠ [] := by
  rw [pieces_cons_word c r h]
  unfold glue
  cases r with
  | nil => simp
  | cons d r1 =>
    simp only
    split
    · simp
    · split <;> simp

theorem pieces_ne_nil_of_mem (s : List Char) (c : Char) (hc : c ∈ s) (h : isBlank c = false) :
    pieces s ≠ [] := by
  induction s with
  | nil => simp at hc
  | cons x r ih =>
    cases hx : isBlank x with
    | false => exact pieces_word_ne_nil x r hx
    | true =>
      rw [pieces_cons_blank x r hx]
      rcases List.mem_cons.1 hc with e | e
      · subst e; rw [hx] at h; simp at h
      · exact ih e

theorem isBlank_blankOut (c : Char) :
    isBlank (if c = Char.ofNat 0 ∨ c = '\t' then ' ' else c) = isBlank c := by
  by_cases h0 : c = Char.ofNat 0
  · subst h0; decide
  · by_cases h1 : c = '\t'
    · subst h1; decide
    · simp [h0, h1]

theorem pieces_blankOut (s : List Char) : pieces (blankOut s) = pieces s := by
  induction s with
  | nil => rfl
  | cons c r ih =>
    have hm : blankOut (c :: r) = (if c = Char.ofNat 0 ∨ c = '\t' then ' ' else c) :: blankOut r :=
      rfl
    rw [hm]
    cases hc : isBlank c with
    | true =>
      rw [pieces_cons_blank _ _ (by rw [isBlank_blankOut, hc]), pieces_cons_blank _ _ hc, ih]
    | false =>
      have hne : ¬ (c = Char.ofNat 0 ∨ c = '\t') := by
        rintro (e | e) <;> (subst e; revert hc; decide)
      rw [if_neg hne, pieces_cons_word _ _ hc, pieces_cons_word _ _ hc, ih]
      cases r with
      | nil => rfl
      | cons d r1 =>
        have hm2 : blankOut (d :: r1) =
            (if d = Char.ofNat 0 ∨ d = '\t' then ' ' else d) :: blankOut r1 := rfl
        rw [hm2]
        unfold glue
        simp only [isBlank_blankOut]

theorem squeeze_head (y : Char) (r : List Char) : ∃ t, squeeze (y :: r) = y :: t := by
  induction r generalizing y with
  | nil => exact ⟨[], rfl⟩
  | cons z r1 ih =>
    rw [squeeze]
    by_cases h : y = ' ' ∧ z = ' '
    · rw [if_pos h]
      obtain ⟨t, ht⟩ := ih z
      exact ⟨t, by rw [ht, h.1, h.2]⟩
    · rw [if_neg h]
      exact ⟨_, rfl⟩

theorem pieces_squeeze (s : List Char) : pieces (squeeze s) = pieces s := by
  induction s with
  | nil => rfl
  | cons x r ih =>
    cases r with
    | nil => rfl
    | cons y r1 =>
      rw [squeeze]
      by_cases h : x = ' ' ∧ y = ' '
      · rw [if_pos h, ih, pieces_cons_blank x _ (by rw [h.1]; decide)]
      · rw [if_neg h]
        cases hx : isBlank x with
        | true => rw [pieces_cons_blank _ _ hx, pieces_cons_blank _ _ hx, ih]
        | false =>
          rw [pieces_cons_word _ _ hx, pieces_cons_word _ _ hx, ih]
          obtain ⟨t, ht⟩ := squeeze_head y r1
          rw [ht]
          rfl

theorem pieces_append_space (s : List Char) : pieces (s ++ [' ']) = pieces s := by
  induction s with
  | nil => decide
  | cons c r ih =>
    rw [List.cons_append]
    cases hc : isBlank c with
    | true => rw [pieces_cons_blank _ _ hc, pieces_cons_blank _ _ hc, ih]
    | false =>
      rw [pieces_cons_word _ _ hc, pieces_cons_word _ _ hc, ih]
      cases r with
      | nil =>
        show glue c [' '] (pieces []) = glue c [] (pieces [])
        rfl
      | cons d r1 => rfl

theorem pieces_dropLast (s : List Char) (h : s.getLast? = some ' ') :
    pieces s.dropLast = pieces s := by
  obtain ⟨t, ht⟩ : ∃ t, s = t ++ [' '] := by
    rw [List.getLast?_eq_some_iff] at h
    exact h
  subst ht
  rw [List.dropLast_concat, pieces_append_space]


/-! ### The result of `removeBlanks` -/

theorem mem_blankOut (s : List Char) (c : Char) (h : c ∈ blankOut s) :
    c ≠ Char.ofNat 0 ∧ c ≠ '\t' := by
  unfold blankOut at h
  obtain ⟨x, _, hx⟩ := List.mem_map.1 h
  by_cases h0 : x = Char.ofNat 0 ∨ x = '\t'
  · rw [if_pos h0] at hx
    subst hx
    exact ⟨by decide, by decide⟩
  · rw [if_neg h0] at hx
    subst hx
    exact ⟨fun e => h0 (Or.inl e), fun e => h0 (Or.inr e)⟩

theorem mem_squeeze (s : List Char) (c : Char) (h : c ∈ squeeze s) : c ∈ s := by
  induction s with
  | nil => simp [squeeze] at h
  | cons x r ih =>
    cases r with
    | nil => exact h
    | cons y r1 =>
      rw [squeeze] at h
      by_cases hxy : x = ' ' ∧ y = ' '
      · rw [if_pos hxy] at h
        exact List.mem_cons_of_mem _ (ih h)
      · rw [if_neg hxy] at h
        rcases List.mem_cons.1 h with e | e
        · rw [e]; exact List.mem_cons_self _ _
        · exact List.mem_cons_of_mem _ (ih e)

theorem squeeze_chain (s : List Char) :
    (squeeze s).Chain' (fun a b => ¬ (a = ' ' ∧ b = ' ')) := by
  induction s with
  | nil => exact List.chain'_nil
  | cons x r ih =>
    cases r with
    | nil => exact List.chain'_singleton _
    | cons y r1 =>
      rw [squeeze]
      by_cases hxy : x = ' ' ∧ y = ' '
      · rw [if_pos hxy]; exact ih
      · rw [if_neg hxy]
        obtain ⟨t, ht⟩ := squeeze_head y r1
        rw [ht] at ih ⊢
        exact List.Chain'.cons hxy ih

theorem joinWords_cons_cons (w v : List Char) (ws : List (List Char)) :
    joinWords (w :: v :: ws) = w ++ ' ' :: joinWords (v :: ws) := rfl

/-- A text without NUL and tab, without two adjacent spaces and without a
space at its end is its pieces joined by single spaces, after the space it
may start with. -/
theorem normal_eq_joinWords (t : List Char)
    (hclean : ∀ c ∈ t, c ≠ Char.ofNat 0 ∧ c ≠ '\t')
    (hchain : t.Chain' (fun a b => ¬ (a = ' ' ∧ b = ' ')))
    (hlast : t.getLast? ≠ some ' ') :
    t = (if t.head? = some ' ' then [' '] else []) ++ joinWords (pieces t) := by
  induction t with
  | nil => rfl
  | cons c r ih =>
    have hclean_r : ∀ x ∈ r, x ≠ Char.ofNat 0 ∧ x ≠ '\t' :=
      fun x hx => hclean x (List.mem_cons_of_mem _ hx)
    have hchain_r := hchain.tail
    simp only [List.tail_cons] at hchain_r
    have hlast_r : r.getLast? ≠ some ' ' := by
      cases r with
      | nil => simp
      | cons d r1 => simpa [List.getLast?_cons_cons] using hlast
    have ihr := ih hclean_r hchain_r hlast_r
    have hblank : ∀ x ∈ c :: r, isBlank x = true → x = ' ' := by
      intro x hx hb
      obtain ⟨h0, h1⟩ := hclean x hx
      simp only [isBlank, Bool.or_eq_true, beq_iff_eq] at hb
      rcases hb with (e | e) | e
      · exact absurd e h0
      · exact absurd e h1
      · exact e
    cases hc : isBlank c with
    | true =>
      have e := hblank c (List.mem_cons_self _ _) hc
      subst e
      rw [pieces_cons_blank _ _ hc]
      have hhead : r.head? ≠ some ' ' := by
        cases r with
        | nil => simp
        | cons d r1 =>
          rw [List.chain'_cons] at hchain
          simp only [List.head?_cons, ne_eq, Option.some.injEq]
          exact fun e => hchain.1 ⟨rfl, e⟩
      rw [if_neg hhead] at ihr
      simp only [List.head?_cons, if_true, List.singleton_append, List.nil_append] at ihr ⊢
      rw [← ihr]
    | false =>
      have hne : c ≠ ' ' := by
        intro e; subst e; revert hc; decide
      have hh : ¬ ((c :: r).head? = some ' ') := by simpa using hne
      rw [if_neg hh, List.nil_append, pieces_cons_word _ _ hc]
      cases r with
      | nil => rfl
      | cons d r1 =>
        cases hd : isBlank d with
        | true =>
          have e := hblank d (List.mem_cons_of_mem _ (List.mem_cons_self _ _)) hd
          subst e
          simp only [List.head?_cons, if_true] at ihr
          have hps : pieces (' ' :: r1) ≠ [] := by
            intro hnil
            rw [hnil] at ihr
            simp only [joinWords, List.append_nil] at ihr
            have : r1 = [] := by simpa using ihr
            subst this
            simp at hlast
          simp only [glue, hd, if_true]
          cases hp : pieces (' ' :: r1) with
          | nil => exact absurd hp hps
          | cons v vs =>
            rw [joinWords_cons_cons, ← hp]
            rw [List.singleton_append, List.cons.injEq]
            exact ⟨rfl, by simpa using ihr⟩
        | false =>
          have hne2 : d ≠ ' ' := by
            intro e; subst e; revert hd; decide
          have hh2 : ¬ ((d :: r1).head? = some ' ') := by simpa using hne2
          rw [if_neg hh2, List.nil_append] at ihr
          simp only [glue, hd, Bool.false_eq_true, if_false]
          cases hp : pieces (d :: r1) with
          | nil => exact absurd hp (pieces_word_ne_nil d r1 hd)
          | cons v vs =>
            rw [hp] at ihr
            simp only
            rw [ihr]
            cases vs with
            | nil => rfl
            | cons v2 vs2 => rfl


theorem countP_le_length_chars (p : Char → Bool) (s : List Char) : s.countP p ≤ s.length :=
  List.countP_le_length p

/-- What `removeBlanks` computes: both loops run to their end, then at most
one space is taken from each side. -/
theorem removeBlanks_eq (s : List Char) (hne : s ≠ []) :
    removeBlanks s =
      match (if (squeeze (blankOut s)).head? = some ' ' then (squeeze (blankOut s)).tail
        else squeeze (blankOut s)).getLast? with
      | none => none
      | some c =>
        some (if c = ' ' then
            (if (squeeze (blankOut s)).head? = some ' ' then (squeeze (blankOut s)).tail
              else squeeze (blankOut s)).dropLast
          else (if (squeeze (blankOut s)).head? = some ' ' then (squeeze (blankOut s)).tail
              else squeeze (blankOut s))) := by
  unfold removeBlanks
  have h1 : s.isEmpty = false := by
    cases s with
    | nil => exact absurd rfl hne
    | cons _ _ => rfl
  rw [h1]
  simp only [Bool.false_eq_true, if_false]
  rw [blankLoop_eq _ _ (countP_le_length_chars _ s), squeezeLoop_eq _ _ (le_refl _)]

/-- C12: for every text with at least one character other than NUL, tab
and space, `removeBlanks` returns the non-empty pieces of the text between
NUL, tab and space characters, joined by single spaces; the result holds no
NUL and no tab, no two adjacent spaces, and neither starts nor ends with a
space. -/
theorem C12_removeBlanks_joined_pieces (s : List Char)
    (h : ∃ c ∈ s, isBlank c = false) :
    removeBlanks s = some (joinWords (pieces s)) ∧
      Char.ofNat 0 ∉ joinWords (pieces s) ∧ '\t' ∉ joinWords (pieces s) ∧
      (joinWords (pieces s)).Chain' (fun a b => ¬ (a = ' ' ∧ b = ' ')) ∧
      (joinWords (pieces s)).head? ≠ some ' ' ∧
      (joinWords (pieces s)).getLast? ≠ some ' ' := by
  obtain ⟨c0, hc0, hb0⟩ := h
  have hne : s ≠ [] := List.ne_nil_of_mem hc0
  have hps : pieces s ≠ [] := pieces_ne_nil_of_mem s c0 hc0 hb0
  rw [removeBlanks_eq s hne]
  generalize hs2 : squeeze (blankOut s) = s2
  have hp2 : pieces s2 = pieces s := by rw [← hs2, pieces_squeeze, pieces_blankOut]
  have hclean2 : ∀ c ∈ s2, c ≠ Char.ofNat 0 ∧ c ≠ '\t' := by
    intro c hc
    rw [← hs2] at hc
    exact mem_blankOut s c (mem_squeeze _ c hc)
  have hchain2 : s2.Chain' (fun a b => ¬ (a = ' ' ∧ b = ' ')) := by
    rw [← hs2]; exact squeeze_chain _
  generalize hs3 : (if s2.head? = some ' ' then s2.tail else s2) = s3
  have hsub3 : ∀ c ∈ s3, c ∈ s2 := by
    intro c hc
    rw [← hs3] at hc
    by_cases hh : s2.head? = some ' '
    · rw [if_pos hh] at hc; exact List.mem_of_mem_tail hc
    · rw [if_neg hh] at hc; exact hc
  have hp3 : pieces s3 = pieces s := by
    rw [← hs3, ← hp2]
    by_cases hh : s2.head? = some ' '
    · rw [if_pos hh]
      cases s2 with
      | nil => simp at hh
      | cons x r =>
        simp only [List.head?_cons, Option.some.injEq] at hh
        subst hh
        rw [List.tail_cons, pieces_cons_blank _ _ (by decide)]
    · rw [if_neg hh]
  have hchain3 : s3.Chain' (fun a b => ¬ (a = ' ' ∧ b = ' ')) := by
    rw [← hs3]
    by_cases hh : s2.head? = some ' '
    · rw [if_pos hh]; exact hchain2.tail
    · rw [if_neg hh]; exact hchain2
  have hhead3 : s3.head? ≠ some ' ' := by
    rw [← hs3]
    by_cases hh : s2.head? = some ' '
    · rw [if_pos hh]
      cases s2 with
      | nil => simp at hh
      | cons x r =>
        simp only [List.head?_cons, Option.some.injEq] at hh
        subst hh
        rw [List.tail_cons]
        cases r with
        | nil => simp
        | cons y r1 =>
          rw [List.chain'_cons] at hchain2
          simp only [List.head?_cons, ne_eq, Option.some.injEq]
          exact fun e => hchain2.1 ⟨rfl, e⟩
    · rw [if_neg hh]; exact hh
  have hne3 : s3 ≠ [] := by
    intro e
    rw [e] at hp3
    exact hps hp3.symm
  obtain ⟨c, hc⟩ : ∃ c, s3.getLast? = some c := by
    cases hl : s3.getLast? with
    | none => exact absurd (List.getLast?_eq_none_iff.1 hl) hne3
    | some c => exact ⟨c, rfl⟩
  rw [hc]
  simp only
  generalize ht : (if c = ' ' then s3.dropLast else s3) = t
  have hsubt : ∀ x ∈ t, x ∈ s3 := by
    intro x hx
    rw [← ht] at hx
    by_cases hh : c = ' '
    · rw [if_pos hh] at hx; exact List.mem_of_mem_dropLast hx
    · rw [if_neg hh] at hx; exact hx
  have hpt : pieces t = pieces s := by
    rw [← ht, ← hp3]
    by_cases hh : c = ' '
    · rw [if_pos hh]
      exact pieces_dropLast s3 (by rw [hc, hh])
    · rw [if_neg hh]
  have hcleant : ∀ x ∈ t, x ≠ Char.ofNat 0 ∧ x ≠ '\t' :=
    fun x hx => hclean2 x (hsub3 x (hsubt x hx))
  have hchaint : t.Chain' (fun a b => ¬ (a = ' ' ∧ b = ' ')) := by
    rw [← ht]
    by_cases hh : c = ' '
    · rw [if_pos hh]; exact hchain3.init
    · rw [if_neg hh]; exact hchain3
  have hheadt : t.head? ≠ some ' ' := by
    rw [← ht]
    by_cases hh : c = ' '
    · rw [if_pos hh]
      cases s3 with
      | nil => simp
      | cons x r =>
        cases r with
        | nil => simp
        | cons y r1 =>
          simpa [List.dropLast] using hhead3
    · rw [if_neg hh]; exact hhead3
  have hlastt : t.getLast? ≠ some ' ' := by
    rw [← ht]
    by_cases hh : c = ' '
    · rw [if_pos hh]
      subst hh
      obtain ⟨u, hu⟩ := List.getLast?_eq_some_iff.1 hc
      rw [hu, List.dropLast_concat]
      intro hl
      obtain ⟨v, hv⟩ := List.getLast?_eq_some_iff.1 hl
      rw [hu, hv, List.append_assoc] at hchain3
      have := (List.chain'_append_cons_cons.1 hchain3).2.1
      exact this ⟨rfl, rfl⟩
    · rw [if_neg hh, hc]
      simpa using hh
  have hnorm := normal_eq_joinWords t hcleant hchaint hlastt
  rw [if_neg hheadt, List.nil_append, hpt] at hnorm
  rw [← hnorm]
  refine ⟨rfl, fun hm => (hcleant _ hm).1 rfl, fun hm => (hcleant _ hm).2 rfl, hchaint,
    hheadt, hlastt⟩

theorem C12_removeBlanks_joined_pieces_witness :
    (∃ c ∈ ['f', 'o', 'o', Char.ofNat 0, '-', '-', 'b', 'a', 'r', Char.ofNat 0],
        isBlank c = false) ∧
      removeBlanks ['f', 'o', 'o', Char.ofNat 0, '-', '-', 'b', 'a', 'r', Char.ofNat 0] =
        some "foo --bar".toList :=
  ⟨⟨'f', by decide, by decide⟩,
    (C12_removeBlanks_joined_pieces _ ⟨'f', by decide, by decide⟩).1.trans (by decide)⟩

/-! ### `toReadableTime` -/

theorem wrapInt_32_of_range (v : Int) (h0 : -2147483648 ≤ v) (h1 : v < 2147483648) :
    wrapInt 32 v = v := by
  unfold wrapInt
  norm_num
  omega

theorem wrapInt_64_of_range (v : Int) (h0 : -9223372036854775808 ≤ v)
    (h1 : v < 9223372036854775808) : wrapInt 64 v = v := by
  unfold wrapInt
  norm_num
  omega

/-- C13 (as stated, refuted): one day and five seconds are rendered "1d",
where the two coarsest non-zero units are the day and the five seconds. -/
theorem C13_counterexample :
    toReadableTime 86405 = "1d" ∧ twoCoarsest 86405 = "1d5s" ∧
      toReadableTime 86405 ≠ twoCoarsest 86405 := by
  refine ⟨by decide, by decide, by decide⟩

/-- C13 (amended): for every number of seconds from 0 up to (not
including) 24856 days, `toReadableTime` renders the coarsest non-zero unit
among days, hours, minutes and seconds as its count followed by d, h, m or s,
followed by the next finer unit only when that one is non-zero; it renders
the seconds alone (so "0s" for zero) when days, hours and minutes are zero. -/
theorem C13_coarsest_and_next_unit (sec : Int) (h0 : 0 ≤ sec) (h1 : sec < 2147558400) :
    toReadableTime sec =
      (if sec / 86400 > 0 then
        toString (sec / 86400) ++ "d" ++
          (if sec % 86400 / 3600 > 0 then toString (sec % 86400 / 3600) ++ "h" else "")
      else if sec % 86400 / 3600 > 0 then
        toString (sec % 86400 / 3600) ++ "h" ++
          (if sec % 3600 / 60 > 0 then toString (sec % 3600 / 60) ++ "m" else "")
      else if sec % 3600 / 60 > 0 then
        toString (sec % 3600 / 60) ++ "m" ++
          (if sec % 60 > 0 then toString (sec % 60) ++ "s" else "")
      else toString (sec % 60) ++ "s") := by
  have e1 : sec.tdiv (60 * 60 * 24) = sec / 86400 := by
    rw [Int.tdiv_eq_ediv h0 (by norm_num)]; norm_num
  have hd : wrapInt 32 (sec.tdiv (60 * 60 * 24)) = sec / 86400 := by
    rw [e1]; exact wrapInt_32_of_range _ (by omega) (by omega)
  have hd2 : wrapInt 32 (sec / 86400 * (60 * 60 * 24)) = sec / 86400 * 86400 := by
    rw [wrapInt_32_of_range _ (by omega) (by omega)]; norm_num
  have hs1 : wrapInt 64 (sec - sec / 86400 * 86400) = sec % 86400 := by
    rw [wrapInt_64_of_range _ (by omega) (by omega)]; omega
  have e2 : (sec % 86400).tdiv (60 * 60) = sec % 86400 / 3600 := by
    rw [Int.tdiv_eq_ediv (by omega) (by norm_num)]; norm_num
  have hh : wrapInt 32 ((sec % 86400).tdiv (60 * 60)) = sec % 86400 / 3600 := by
    rw [e2]; exact wrapInt_32_of_range _ (by omega) (by omega)
  have hh2 : wrapInt 32 (sec % 86400 / 3600 * (60 * 60)) = sec % 86400 / 3600 * 3600 := by
    rw [wrapInt_32_of_range _ (by omega) (by omega)]; norm_num
  have hs2 : wrapInt 64 (sec % 86400 - sec % 86400 / 3600 * 3600) = sec % 3600 := by
    rw [wrapInt_64_of_range _ (by omega) (by omega)]; omega
  have e3 : (sec % 3600).tdiv 60 = sec % 3600 / 60 := by
    rw [Int.tdiv_eq_ediv (by omega) (by norm_num)]
  have hm : wrapInt 32 ((sec % 3600).tdiv 60) = sec % 3600 / 60 := by
    rw [e3]; exact wrapInt_32_of_range _ (by omega) (by omega)
  have hm2 : wrapInt 32 (sec % 3600 / 60 * 60) = sec % 3600 / 60 * 60 :=
    wrapInt_32_of_range _ (by omega) (by omega)
  have hs3 : wrapInt 64 (sec % 3600 - sec % 3600 / 60 * 60) = sec % 60 := by
    rw [wrapInt_64_of_range _ (by omega) (by omega)]; omega
  unfold toReadableTime
  simp only [hd, hd2, hs1, hh, hh2, hs2, hm, hm2, hs3]

theorem C13_coarsest_and_next_unit_witness :
    (0 : Int) ≤ 3661 ∧ (3661 : Int) < 2147558400 ∧ toReadableTime 3661 = "1h1m" :=
  ⟨by decide, by decide,
    (C13_coarsest_and_next_unit 3661 (by decide) (by decide)).trans (by decide)⟩

/-! ### `toReadableSize` -/

theorem binade_le (n d : Nat) (f : Nat) : binade n d f ≤ f := by
  induction f with
  | zero => simp [binade]
  | succ e ih =>
    rw [binade]
    split
    · exact le_refl _
    · omega

/-- A byte count of 2^53 or more whose quotient is just above the middle
between two tenths: the digits are those of the tenth below. -/
theorem toReadableSize_large_sample :
    toReadableSize 5258986265350000001 = "5258986265.3 GB" := by
  decide

theorem wideLength_ascii (s : List Nat) (h : ∀ b ∈ s, b < 0x80) :
    wideLength [] s = some s.length := by
  induction s with
  | nil => rfl
  | cons b rest ih =>
    have hb : b < 0x80 := h b (List.mem_cons_self _ _)
    have hr := ih (fun x hx => h x (List.mem_cons_of_mem _ hx))
    simp only [wideLength, leadByte, hb, if_true, hr, List.length_cons]
    rw [Nat.add_comm]

/-- A line of ASCII bytes is cut to the first `TERM_COLS` bytes. -/
theorem printProc_ascii (TERM_COLS : Int) (s : List Nat) (h : ∀ b ∈ s, b < 0x80)
    (h0 : 0 ≤ TERM_COLS) (h1 : TERM_COLS < 2 ^ 64) :
    printProc false TERM_COLS s = some (s.take TERM_COLS.toNat) := by
  unfold printProc
  simp only [Bool.false_eq_true, if_false, wideLength_ascii s h]
  have e : TERM_COLS + (s.length : Int) - (s.length : Int) = TERM_COLS := by omega
  rw [e, toSizeT, Int.emod_eq_of_lt h0 h1]

/-- C15 (evaluation at the failing input): in a terminal of 4 columns the line "abcdéé"
(6 characters, 8 bytes) is cut to "abcdé", which occupies 5 columns. -/
theorem C15_clip_wider_than_terminal :
    printProc false 4 [97, 98, 99, 100, 0xC3, 0xA9, 0xC3, 0xA9] =
        some [97, 98, 99, 100, 0xC3, 0xA9] ∧
      columns [97, 98, 99, 100, 0xC3, 0xA9] = 5 ∧
      utf8 "abcdéé" = [97, 98, 99, 100, 0xC3, 0xA9, 0xC3, 0xA9] ∧
      utf8 "abcdé" = [97, 98, 99, 100, 0xC3, 0xA9] := by
  refine ⟨by decide, by decide, by decide, by decide⟩

/-! ### `handleProcReadError` -/

theorem mapFind_mapInsert_self {β : Type} (m : List (Int × β)) (k : Int) (v : β) :
    mapFind (mapInsert m k v) k = some ((mapFind m k).getD v) := by
  unfold mapInsert
  cases h : mapFind m k with
  | none => simp [mapFind_mapSet]
  | some w => simp [h]

/-- C20 (as stated, refuted): with the verbose option a permission error
(errno 13) on a process-level record is written to standard error and
`errMap` gets no entry. -/
theorem C20_counterexample :
    (handleProcReadError true 13 "Permission denied" "/proc/7/stat" { pid := 7 } {}).st.errMap
        = [] ∧
      mapFind
        (handleProcReadError true 13 "Permission denied" "/proc/7/stat" { pid := 7 } {}).st.errMap
        7 = none ∧
      (handleProcReadError true 13 "Permission denied" "/proc/7/stat" { pid := 7 } {}).err =
        ["ERR: Failed to read /proc/7/stat: Permission denied"] := by
  refine ⟨by decide, by decide, by decide⟩

/-- C20 (amended): `handleProcReadError` always sets the failure flag of
the record (and changes nothing else of it) and returns 1.  For `ENOENT`, and
whenever the verbose option is set, `errMap` is left unchanged (with the
verbose option every other error is written to standard error instead).
Without the verbose option, any other error on a process-level record
(thread id 0) leaves an entry for the process id in `errMap`: the one that was
there, or else the message of this error. -/
theorem C20_error_recorded_unless_verbose (verbose : Bool) (errno : Int) (strerror path : String)
    (proc : Proc) (st : State) :
    (handleProcReadError verbose errno strerror path proc st).proc = { proc with failed := true } ∧
      (handleProcReadError verbose errno strerror path proc st).code = 1 ∧
      (errno = ENOENT ∨ verbose = true →
        (handleProcReadError verbose errno strerror path proc st).st = st) ∧
      (errno ≠ ENOENT → verbose = false → proc.tid = 0 →
        mapFind (handleProcReadError verbose errno strerror path proc st).st.errMap proc.pid =
          some ((mapFind st.errMap proc.pid).getD
            ("Failed to read " ++ path ++ ": " ++ strerror))) := by
  unfold handleProcReadError
  refine ⟨?_, ?_, ?_, ?_⟩
  · by_cases h1 : errno ≠ ENOENT <;> cases verbose <;> by_cases h2 : proc.tid = 0 <;>
      simp [h1, h2]
  · by_cases h1 : errno ≠ ENOENT <;> cases verbose <;> by_cases h2 : proc.tid = 0 <;>
      simp [h1, h2]
  · rintro (h | h)
    · simp [h]
    · subst h
      by_cases h1 : errno ≠ ENOENT <;> simp [h1]
  · intro h1 h2 h3
    subst h2
    simp only [ne_eq, h1, not_false_eq_true, if_true, Bool.false_eq_true, if_false, h3]
    exact mapFind_mapInsert_self _ _ _

theorem C20_error_recorded_unless_verbose_witness :
    (13 : Int) ≠ ENOENT ∧
      mapFind (handleProcReadError false 13 "Permission denied" "/proc/7/stat" { pid := 7 }
        {}).st.errMap 7 = some "Failed to read /proc/7/stat: Permission denied" :=
  ⟨by decide,
    ((C20_error_recorded_unless_verbose false 13 "Permission denied" "/proc/7/stat" { pid := 7 }
      {}).2.2.2 (by decide) rfl rfl).trans (by decide)⟩

/-! ### `parseProcTree` -/

theorem isDigit_iff_not_outside (c : Char) : ¬ (c < '0' ∨ c > '9') ↔ c.isDigit = true := by
  simp only [Char.isDigit, Bool.and_eq_true, decide_eq_true_eq, not_or, not_lt, gt_iff_lt]
  constructor
  · rintro ⟨h1, h2⟩; exact ⟨h1, h2⟩
  · rintro ⟨h1, h2⟩; exact ⟨h1, h2⟩

theorem isSpace_of_isDigit (c : Char) (h : c.isDigit = true) : isSpace c = false := by
  simp only [Char.isDigit, Bool.and_eq_true, decide_eq_true_eq] at h
  obtain ⟨h1, h2⟩ := h
  have h1n : 48 ≤ c.toNat := h1
  have h2n : c.toNat ≤ 57 := h2
  have hne : c ≠ ' ' := by
    intro e; subst e; revert h1n; decide
  simp only [isSpace, Bool.or_eq_false_iff, beq_eq_false_iff_ne, ne_eq, hne, not_false_eq_true,
    Bool.and_eq_false_imp, decide_eq_true_eq, decide_eq_false_iff_not, not_le, true_and]
  intro _
  omega

theorem not_sign_of_isDigit (c : Char) (h : c.isDigit = true) : c ≠ '-' ∧ c ≠ '+' := by
  constructor <;> (intro e; subst e; revert h; decide)

/-- The value `stoi`, `stoll` read from a text that starts with a digit. -/
theorem stoInt_of_digit_head (bits : Nat) (c : Char) (r : List Char) (hc : c.isDigit = true) :
    stoInt bits (c :: r) =
      if (digitsVal ((c :: r).takeWhile Char.isDigit) : Int) < (2 : Int) ^ (bits - 1) then
        some (digitsVal ((c :: r).takeWhile Char.isDigit) : Int)
      else none := by
  obtain ⟨hm, hp⟩ := not_sign_of_isDigit c hc
  have hsp := isSpace_of_isDigit c hc
  have h1 : (c :: r).dropWhile isSpace = c :: r := by
    rw [List.dropWhile_cons, hsp]; rfl
  have h2 : ((some c : Option Char) == some '-') = false := by
    simpa using hm
  have h3 : ((some c : Option Char) == some '+') = false := by
    simpa using hp
  have h4 : ((c :: r).takeWhile Char.isDigit).isEmpty = false := by
    rw [List.takeWhile_cons, hc]; rfl
  have h5 : -(2 : Int) ^ (bits - 1) ≤ (digitsVal ((c :: r).takeWhile Char.isDigit) : Int) := by
    have : (0 : Int) ≤ (2 : Int) ^ (bits - 1) := by positivity
    have h6 : (0 : Int) ≤ (digitsVal ((c :: r).takeWhile Char.isDigit) : Int) :=
      Int.ofNat_nonneg _
    omega
  unfold stoInt
  simp only [h1, List.head?_cons, h2, h3, Bool.or_self, Bool.false_eq_true, if_false, h4, h5,
    true_and]

theorem parseProcTreeLoop_eq {σ : Type} (cb : Int → σ → Bool × σ) (entries : List Dirent) (s : σ)
    (h : ∀ e ∈ entries, e.isDir = true → e.name.head?.any Char.isDigit = true →
      (digitsVal (e.name.takeWhile Char.isDigit) : Int) < 2 ^ 31) :
    parseProcTreeLoop cb entries s = some (runCb cb (visitedIds entries) s) := by
  induction entries generalizing s with
  | nil => rfl
  | cons e rest ih =>
    have ihr := fun s => ih s (fun x hx => h x (List.mem_cons_of_mem _ hx))
    have he := h e (List.mem_cons_self _ _)
    rw [parseProcTreeLoop]
    cases hd : e.isDir with
    | false =>
      have hv : visitedIds (e :: rest) = visitedIds rest := by
        simp [visitedIds, List.filterMap_cons, hd]
      simp only [Bool.not_false, if_true, hv, ihr]
    | true =>
      simp only [Bool.not_true, Bool.false_eq_true, if_false]
      cases hn : e.name with
      | nil =>
        have hv : visitedIds (e :: rest) = visitedIds rest := by
          simp [visitedIds, List.filterMap_cons, hn]
        simp only [List.head?_nil, hv, ihr]
      | cons c r =>
        simp only [List.head?_cons]
        by_cases hc : c < '0' ∨ c > '9'
        · have hc2 : c.isDigit = false := by
            cases hx : c.isDigit with
            | false => rfl
            | true => exact absurd hc ((isDigit_iff_not_outside c).2 hx)
          have hv : visitedIds (e :: rest) = visitedIds rest := by
            simp [visitedIds, List.filterMap_cons, hn, hc2]
          rw [if_pos hc, hv, ihr]
        · have hc2 : c.isDigit = true := (isDigit_iff_not_outside c).1 hc
          have hlt := he hd (by rw [hn]; simpa using hc2)
          rw [hn] at hlt
          rw [if_neg hc]
          have hst : stoi (c :: r) = some (digitsVal ((c :: r).takeWhile Char.isDigit) : Int) := by
            unfold stoi
            rw [stoInt_of_digit_head 32 c r hc2, if_pos (by simpa using hlt)]
          rw [hst]
          simp only
          by_cases hpos : (digitsVal ((c :: r).takeWhile Char.isDigit) : Int) > 0
          · have hv : visitedIds (e :: rest) =
                (digitsVal ((c :: r).takeWhile Char.isDigit) : Int) :: visitedIds rest := by
              simp only [visitedIds, List.filterMap_cons, hn, hd, List.head?_cons,
                Option.any_some, hc2, hpos, and_self, if_true]
            rw [if_pos hpos, hv, runCb]
            cases hr : (cb (digitsVal ((c :: r).takeWhile Char.isDigit) : Int) s).1 with
            | false => simp
            | true => simp [ihr]
          · have hv : visitedIds (e :: rest) = visitedIds rest := by
              simp only [visitedIds, List.filterMap_cons, hn, hd, List.head?_cons,
                Option.any_some, hc2, hpos, and_false, if_false]
            rw [if_neg hpos, hv, ihr]

/-- What the scan does over a listing in which the digits a name starts with
never denote a number of 2^31 or more: `parseProcTree` returns, having called
the callback, in listing order, on the entries of directory (or unknown) type
whose name starts with a decimal digit and whose leading digits denote an id
above 0, passing that id, up to the first call in which the callback asks to
stop (result 1; result 0 when it never does). -/
theorem parseProcTree_visits {σ : Type} (cb : Int → σ → Bool × σ)
    (entries : List Dirent) (s : σ)
    (h : ∀ e ∈ entries, e.isDir = true → e.name.head?.any Char.isDigit = true →
      (digitsVal (e.name.takeWhile Char.isDigit) : Int) < 2 ^ 31) :
    parseProcTree (some entries) cb s = some (runCb cb (visitedIds entries) s) :=
  parseProcTreeLoop_eq cb entries s h

/-- C17 (evaluation at the failing input): a directory named "1abc" is not skipped: the callback is
called with the id 1 for it, as for the directory named "1", although the name
is not a number; the scan of the listing ".", "1", "self", "42", "1abc" calls
the callback with 1, 42 and 1, where the entries with a numeric name are "1"
and "42"; and for a directory named "4294967296" `stoi` throws. -/
theorem C17_leading_digit_name_visited :
    parseProcTree (some [{ name := "1abc".toList }]) logCb [] = some (0, [1]) ∧
    numericIds [{ name := "1abc".toList }] = [] ∧
    parseProcTree
        (some [{ name := ".".toList }, { name := "1".toList }, { name := "self".toList },
          { name := "42".toList }, { name := "1abc".toList }])
        logCb [] = some (0, [1, 42, 1]) ∧
    numericIds [{ name := ".".toList }, { name := "1".toList }, { name := "self".toList },
          { name := "42".toList }, { name := "1abc".toList }] = [1, 42] ∧
    parseProcTree (some [{ name := "4294967296".toList }]) logCb [] = none := by
  refine ⟨by decide, by decide, by decide, by decide, by decide⟩

/-! ### `parseStatus` -/

theorem dropWhile_append_of_all (p : Char → Bool) (w r : List Char) (hw : ∀ c ∈ w, p c = true)
    (hr : ∀ c, r.head? = some c → p c = false) : (w ++ r).dropWhile p = r := by
  induction w with
  | nil =>
    cases r with
    | nil => rfl
    | cons c r1 =>
      rw [List.nil_append, List.dropWhile_cons, hr c rfl]; rfl
  | cons c w1 ih =>
    rw [List.cons_append, List.dropWhile_cons, hw c (List.mem_cons_self _ _)]
    exact ih (fun x hx => hw x (List.mem_cons_of_mem _ hx))

theorem takeWhile_append_of_all (p : Char → Bool) (w r : List Char) (hw : ∀ c ∈ w, p c = true)
    (hr : ∀ c, r.head? = some c → p c = false) : (w ++ r).takeWhile p = w := by
  induction w with
  | nil =>
    cases r with
    | nil => rfl
    | cons c r1 =>
      rw [List.nil_append, List.takeWhile_cons, hr c rfl]; rfl
  | cons c w1 ih =>
    rw [List.cons_append, List.takeWhile_cons, hw c (List.mem_cons_self _ _)]
    simp only [if_true]
    rw [ih (fun x hx => hw x (List.mem_cons_of_mem _ hx))]

/-- Lines whose first word is not "Uid:" pass the callback and leave the
record as it is. -/
theorem getLinesLoop_statusCb_skip (pre rest : List (List Char)) (proc : Proc) (field : List Char)
    (hf : field ≠ "Uid:".toList)
    (hpre : ∀ l ∈ pre,
      (l.dropWhile isSpace).takeWhile (fun c => !isSpace c) ≠ "Uid:".toList) :
    ∃ field1, field1 ≠ "Uid:".toList ∧
      getLinesLoop statusCb (pre ++ rest) (proc, field) =
        getLinesLoop statusCb rest (proc, field1) := by
  induction pre generalizing field with
  | nil => exact ⟨field, hf, rfl⟩
  | cons l pre1 ih =>
    have hl := hpre l (List.mem_cons_self _ _)
    have hrest := fun x hx => hpre x (List.mem_cons_of_mem _ hx)
    have hw : (readWord { rest := l } field).1 ≠ "Uid:".toList := by
      unfold readWord
      simp only [Bool.false_eq_true, if_false]
      by_cases he : (l.dropWhile isSpace).isEmpty = true
      · rw [if_pos he]; exact hf
      · rw [if_neg he]; exact hl
    obtain ⟨f1, hf1, e1⟩ := ih (readWord { rest := l } field).1 hw hrest
    refine ⟨f1, hf1, ?_⟩
    rw [List.cons_append, getLinesLoop]
    simp only [statusCb, if_neg hw, Bool.not_true, Bool.false_eq_true, if_false]
    exact e1

theorem readUnsigned_digits (w d r : List Char) (v : Nat) (hw : ∀ c ∈ w, isSpace c = true)
    (hd0 : d ≠ []) (hd : ∀ c ∈ d, c.isDigit = true) (hlt : digitsVal d < 2 ^ 32)
    (hr : ∀ c, r.head? = some c → c.isDigit = false) :
    readUnsigned { rest := w ++ d ++ r } v = (digitsVal d, { rest := r, fail := false }) := by
  obtain ⟨c, d1, rfl⟩ := List.exists_cons_of_ne_nil hd0
  have hc : c.isDigit = true := hd c (List.mem_cons_self _ _)
  obtain ⟨hm, hp⟩ := not_sign_of_isDigit c hc
  have h1 : (w ++ (c :: d1) ++ r).dropWhile isSpace = (c :: d1) ++ r := by
    rw [List.append_assoc]
    exact dropWhile_append_of_all isSpace w _ hw (by
      intro x hx
      simp only [List.cons_append, List.head?_cons, Option.some.injEq] at hx
      subst hx
      exact isSpace_of_isDigit _ hc)
  have h2 : ((some c : Option Char) == some '-') = false := by simpa using hm
  have h3 : ((some c : Option Char) == some '+') = false := by simpa using hp
  have h4 : ((c :: d1) ++ r).takeWhile Char.isDigit = c :: d1 :=
    takeWhile_append_of_all _ _ _ hd hr
  have h5 : ((c :: d1) ++ r).dropWhile Char.isDigit = r :=
    dropWhile_append_of_all _ _ _ hd hr
  have h6 : ¬ (2 ^ 32 ≤ digitsVal (c :: d1)) := by omega
  have hh : ((c :: d1) ++ r).head? = some c := rfl
  have he : ((c :: d1) ++ r).isEmpty = false := rfl
  have he2 : (c :: d1).isEmpty = false := rfl
  unfold readUnsigned
  simp only [Bool.false_eq_true, if_false, h1, hh, he, h2, h3, Bool.or_self, h4, h5, he2, h6]

/-- C16 (as stated, refuted): on the line "Uid:", 1000, 0, 0, 0 (real uid 1000,
effective uid 0) the owner id becomes 0, not the first value 1000. -/
theorem C16_counterexample :
    (parseStatus false true
        (FileText.lines ["Name:\tsudo".toList, "Uid:\t1000\t0\t0\t0".toList,
          "Gid:\t1000\t0\t0\t0".toList])
        { pid := 7 } {}).proc.uid = 0 ∧
      (parseStatus false true
        (FileText.lines ["Name:\tsudo".toList, "Uid:\t1000\t0\t0\t0".toList,
          "Gid:\t1000\t0\t0\t0".toList])
        { pid := 7 } {}).proc.uid ≠ 1000 := by
  refine ⟨by decide, by decide⟩

/-- C16 (amended): for a record that has not failed, with the owner
column on, and a status file whose first line with first word "Uid:" holds,
after that word, two decimal numbers below 2^32 separated by white space (the
real and the effective uid; the saved and filesystem uid may follow),
`parseStatus` sets the owner id of the record to the second number, the
effective uid, and changes nothing else. -/
theorem C16_owner_is_effective_uid (verbose : Bool) (pre post : List (List Char))
    (w1 d1 w2 d2 tail : List Char) (proc : Proc) (st : State)
    (hproc : proc.failed = false)
    (hpre : ∀ l ∈ pre,
      (l.dropWhile isSpace).takeWhile (fun c => !isSpace c) ≠ "Uid:".toList)
    (hw1 : w1 ≠ [] ∧ ∀ c ∈ w1, isSpace c = true)
    (hd1 : d1 ≠ [] ∧ (∀ c ∈ d1, c.isDigit = true) ∧ digitsVal d1 < 2 ^ 32)
    (hw2 : w2 ≠ [] ∧ ∀ c ∈ w2, isSpace c = true)
    (hd2 : d2 ≠ [] ∧ (∀ c ∈ d2, c.isDigit = true) ∧ digitsVal d2 < 2 ^ 32)
    (htail : ∀ c, tail.head? = some c → c.isDigit = false) :
    parseStatus verbose true
        (FileText.lines (pre ++ ("Uid:".toList ++ w1 ++ d1 ++ w2 ++ d2 ++ tail) :: post)) proc st =
      { code := 0, proc := { proc with uid := digitsVal d2 }, st := st, err := [] } := by
  obtain ⟨hw1n, hw1s⟩ := hw1
  obtain ⟨hd1n, hd1d, hd1r⟩ := hd1
  obtain ⟨hw2n, hw2s⟩ := hw2
  obtain ⟨hd2n, hd2d, hd2r⟩ := hd2
  obtain ⟨f1, hf1, e1⟩ := getLinesLoop_statusCb_skip pre
    (("Uid:".toList ++ w1 ++ d1 ++ w2 ++ d2 ++ tail) :: post) proc [] (by decide) hpre
  obtain ⟨x, w1r, rfl⟩ := List.exists_cons_of_ne_nil hw1n
  have hx : isSpace x = true := hw1s x (List.mem_cons_self _ _)
  -- the first word of the line
  have hword : readWord { rest := "Uid:".toList ++ (x :: w1r) ++ d1 ++ w2 ++ d2 ++ tail } f1 =
      ("Uid:".toList, { rest := (x :: w1r) ++ d1 ++ w2 ++ d2 ++ tail, fail := false }) := by
    have hns : ∀ c ∈ "Uid:".toList, (fun c => !isSpace c) c = true := by decide
    have hhd : ∀ c, ((x :: w1r) ++ d1 ++ w2 ++ d2 ++ tail).head? = some c →
        (fun c => !isSpace c) c = false := by
      intro c hc
      simp only [List.cons_append, List.head?_cons, Option.some.injEq] at hc
      subst hc
      simp [hx]
    have e0 : "Uid:".toList ++ (x :: w1r) ++ d1 ++ w2 ++ d2 ++ tail =
        "Uid:".toList ++ ((x :: w1r) ++ d1 ++ w2 ++ d2 ++ tail) := by
      simp only [List.append_assoc]
    have e2 : ("Uid:".toList ++ ((x :: w1r) ++ d1 ++ w2 ++ d2 ++ tail)).dropWhile isSpace =
        "Uid:".toList ++ ((x :: w1r) ++ d1 ++ w2 ++ d2 ++ tail) := rfl
    have e3 := takeWhile_append_of_all (fun c => !isSpace c) "Uid:".toList _ hns hhd
    have e4 := dropWhile_append_of_all (fun c => !isSpace c) "Uid:".toList _ hns hhd
    have e5 : ("Uid:".toList ++ ((x :: w1r) ++ d1 ++ w2 ++ d2 ++ tail)).isEmpty = false := rfl
    unfold readWord
    simp only [Bool.false_eq_true, if_false, e0, e2, e3, e4, e5]
  -- the two numbers
  have hsd : ∀ (w : List Char), w ≠ [] → (∀ c ∈ w, isSpace c = true) → ∀ (t : List Char) (c : Char),
      (w ++ t).head? = some c → c.isDigit = false := by
    intro w hw0 hws t c hc
    obtain ⟨y, w3, rfl⟩ := List.exists_cons_of_ne_nil hw0
    simp only [List.cons_append, List.head?_cons, Option.some.injEq] at hc
    subst hc
    cases hy : y.isDigit with
    | false => rfl
    | true =>
      have := isSpace_of_isDigit _ hy
      rw [hws _ (List.mem_cons_self _ _)] at this
      exact absurd this (by decide)
  have hu1 : readUnsigned { rest := (x :: w1r) ++ d1 ++ w2 ++ d2 ++ tail, fail := false } proc.uid =
      (digitsVal d1, { rest := w2 ++ d2 ++ tail, fail := false }) := by
    have e0 : (x :: w1r) ++ d1 ++ w2 ++ d2 ++ tail = (x :: w1r) ++ d1 ++ (w2 ++ d2 ++ tail) := by
      simp only [List.append_assoc]
    rw [e0]
    exact readUnsigned_digits _ _ _ _ hw1s hd1n hd1d hd1r (by
      intro c hc
      rw [List.append_assoc] at hc
      exact hsd w2 hw2n hw2s _ c hc)
  have hu2 : readUnsigned { rest := w2 ++ d2 ++ tail, fail := false } (digitsVal d1) =
      (digitsVal d2, { rest := tail, fail := false }) :=
    readUnsigned_digits _ _ _ _ hw2s hd2n hd2d hd2r htail
  unfold parseStatus getLines
  simp only [hproc, Bool.not_true, Bool.or_self, Bool.false_eq_true, if_false]
  rw [e1, getLinesLoop]
  simp only [statusCb, hword, if_true, hu1, hu2, Bool.not_false]
  rw [hproc]

theorem C16_owner_is_effective_uid_witness :
    parseStatus false true
        (FileText.lines (["Name:\tsudo".toList] ++
          ("Uid:".toList ++ ['\t'] ++ "1000".toList ++ ['\t'] ++ ['0'] ++ "\t0\t0".toList) ::
            ["Gid:\t1000\t0\t0\t0".toList]))
        { pid := 7 } {} =
      { code := 0, proc := { pid := 7, uid := 0 }, st := {}, err := [] } :=
  (C16_owner_is_effective_uid false ["Name:\tsudo".toList] ["Gid:\t1000\t0\t0\t0".toList]
    ['\t'] "1000".toList ['\t'] ['0'] "\t0\t0".toList { pid := 7 } {} rfl (by decide)
    (by decide) (by decide) (by decide) (by decide) (by decide)).trans rfl

/-! ### `parseStat` -/

theorem strchr_first (f r : List Char) (c : Char) (h : c ∉ f) :
    strchr (f ++ c :: r) c = some (c :: r) := by
  induction f with
  | nil => simp [strchr]
  | cons x f1 ih =>
    simp only [List.mem_cons, not_or] at h
    have hx : ¬ x = c := fun e => h.1 e.symm
    rw [List.cons_append, strchr, if_neg hx]
    exact ih h.2

theorem strrchr_none (s : List Char) (c : Char) (h : c ∉ s) : strrchr s c = none := by
  induction s with
  | nil => rfl
  | cons x r ih =>
    simp only [List.mem_cons, not_or] at h
    have hx : ¬ x = c := fun e => h.1 e.symm
    rw [strrchr, ih h.2]
    simp only [if_neg hx]

theorem strrchr_last (pre t : List Char) (c : Char) (h : c ∉ t) :
    strrchr (pre ++ c :: t) c = some (c :: t) := by
  induction pre with
  | nil =>
    rw [List.nil_append, strrchr, strrchr_none t c h]
    simp
  | cons x p1 ih =>
    rw [List.cons_append, strrchr, ih]

theorem skipFields_one (f r : List Char) (h : ' ' ∉ f) :
    skipFields 1 (f ++ ' ' :: r) = some r := by
  rw [skipFields, strchr_first f r ' ' h]
  rfl

theorem joinSp_cons_cons (f g : List Char) (fs : List (List Char)) :
    joinSp (f :: g :: fs) = f ++ ' ' :: joinSp (g :: fs) := rfl

/-- Skipping `n` fields of a text of space-free fields leads to field `n`. -/
theorem skipFields_joinSp (n : Nat) (fs : List (List Char)) (trail : List Char)
    (hfs : ∀ f ∈ fs, ' ' ∉ f) (hn : n < fs.length) :
    skipFields n (joinSp fs ++ trail) = some (joinSp (fs.drop n) ++ trail) := by
  induction n generalizing fs with
  | zero => rfl
  | succ k ih =>
    match fs, hn with
    | [f], hn => simp at hn
    | f :: g :: fs1, hn =>
      have hf := hfs f (List.mem_cons_self _ _)
      rw [joinSp_cons_cons, List.append_assoc, List.cons_append, skipFields,
        strchr_first f _ ' ' hf]
      simp only [List.tail_cons, List.drop_succ_cons]
      exact ih (g :: fs1) (fun x hx => hfs x (List.mem_cons_of_mem _ hx))
        (by simpa using hn)

/-- How the text at field `n` starts. -/
theorem joinSp_drop (n : Nat) (fs : List (List Char)) (f : List Char) (h : fs[n]? = some f) :
    ∃ t, joinSp (fs.drop n) = f ++ t ∧ (t = [] ∨ t.head? = some ' ') := by
  have hlt : n < fs.length := by
    by_contra hc
    rw [List.getElem?_eq_none (by omega)] at h
    simp at h
  have hd : fs.drop n = f :: fs.drop (n + 1) := by
    rw [List.drop_eq_getElem_cons hlt]
    congr 1
    rw [List.getElem?_eq_getElem hlt] at h
    exact Option.some.inj h
  rw [hd]
  cases hr : fs.drop (n + 1) with
  | nil => exact ⟨[], by simp [joinSp], Or.inl rfl⟩
  | cons g gs => exact ⟨' ' :: joinSp (g :: gs), rfl, Or.inr rfl⟩

theorem takeWhile_append_head (p : Char → Bool) (x t : List Char)
    (ht : ∀ c, t.head? = some c → p c = false) :
    (x ++ t).takeWhile p = x.takeWhile p := by
  induction x with
  | nil =>
    cases t with
    | nil => rfl
    | cons c t1 => rw [List.nil_append, List.takeWhile_cons, ht c rfl]; rfl
  | cons y x1 ih =>
    rw [List.cons_append, List.takeWhile_cons, List.takeWhile_cons, ih]

/-- The number `stoi`, `stoll` read at the start of a text does not depend on
what follows a field without white space, unless a digit follows. -/
theorem stoInt_append (bits : Nat) (f t : List Char) (hf0 : f ≠ [])
    (hf : ∀ c ∈ f, isSpace c = false) (ht : ∀ c, t.head? = some c → c.isDigit = false) :
    stoInt bits (f ++ t) = stoInt bits f := by
  obtain ⟨x, f1, rfl⟩ := List.exists_cons_of_ne_nil hf0
  have hx : isSpace x = false := hf x (List.mem_cons_self _ _)
  have h1 : ((x :: f1) ++ t).dropWhile isSpace = (x :: f1) ++ t := by
    rw [List.cons_append, List.dropWhile_cons, hx]; rfl
  have h2 : (x :: f1).dropWhile isSpace = x :: f1 := by
    rw [List.dropWhile_cons, hx]; rfl
  have hh : ((x :: f1) ++ t).head? = some x := rfl
  have ht1 : ((x :: f1) ++ t).tail = f1 ++ t := rfl
  unfold stoInt
  simp only [h1, h2, hh, List.head?_cons, ht1, List.tail_cons]
  by_cases hs : ((some x : Option Char) == some '-' || (some x : Option Char) == some '+') = true
  · simp only [hs, if_true, takeWhile_append_head _ f1 t ht]
  · simp only [hs, Bool.false_eq_true, if_false, takeWhile_append_head _ (x :: f1) t ht]

theorem statCpu_ppid (env : StatEnv) (utime : Int) (del : List Char) (proc proc1 : Proc)
    (h : statCpu env utime del proc = some proc1) : proc1.ppid = proc.ppid := by
  unfold statCpu at h
  split at h
  · split at h
    · exact absurd h (by simp)
    · split at h
      · exact absurd h (by simp)
      · cases h; rfl
  · cases h; rfl

theorem statTimes_ppid (env : StatEnv) (utime : Int) (del : List Char) (proc : Proc) (st : State)
    (r : Outcome) (h : statTimes env utime del proc st = some r) : r.proc.ppid = proc.ppid := by
  unfold statTimes at h
  split at h
  · exact absurd h (by simp)
  · rename_i proc1 hp1
    have hp := statCpu_ppid env utime del proc proc1 hp1
    split at h
    · exact absurd h (by simp)
    · split at h
      · cases h; exact hp
      · split at h
        · exact absurd h (by simp)
        · split at h
          · exact absurd h (by simp)
          · cases h; exact hp

theorem statTty_ppid (env : StatEnv) (del : List Char) (proc proc1 : Proc)
    (h : statTty env del proc = some proc1) :
    proc1.ppid = proc.ppid ∧ proc1.failed = proc.failed ∧ proc1.cpuTime = proc.cpuTime ∧
      proc1.age = proc.age := by
  unfold statTty at h
  split at h
  · split at h
    · exact absurd h (by simp)
    · cases h
      split <;> exact ⟨rfl, rfl, rfl, rfl⟩
  · cases h; exact ⟨rfl, rfl, rfl, rfl⟩

theorem statCpuAge_ppid (env : StatEnv) (del : List Char) (proc : Proc) (st : State)
    (r : Outcome) (h : statCpuAge env del proc st = some r) : r.proc.ppid = proc.ppid := by
  unfold statCpuAge at h
  split at h
  · cases h; rfl
  · split at h
    · exact absurd h (by simp)
    · split at h
      · exact absurd h (by simp)
      · split at h
        · exact absurd h (by simp)
        · exact statTimes_ppid env _ _ _ _ r h

theorem parseStatTail_ppid (env : StatEnv) (del : List Char) (proc : Proc) (st : State)
    (r : Outcome) (h : parseStatTail env del proc st = some r) : r.proc.ppid = proc.ppid := by
  unfold parseStatTail at h
  split at h
  · cases h; rfl
  · split at h
    · exact absurd h (by simp)
    · split at h
      · exact absurd h (by simp)
      · rename_i proc1 hp1
        rw [statCpuAge_ppid env _ _ _ r h, (statTty_ppid env _ _ _ hp1).1]

/-- Source lines 525-537 on a record whose text after the last `)` is
a space, a field without space, a space, and a number. -/
theorem statPpid_eq (pre state ppidtxt tail : List Char) (v : Int)
    (hstate : ' ' ∉ state ∧ ')' ∉ state)
    (hppid : ppidtxt ≠ [] ∧ (∀ c ∈ ppidtxt, isSpace c = false ∧ c ≠ ')') ∧ stoi ppidtxt = some v)
    (htail : ')' ∉ tail ∧ ∀ c, tail.head? = some c → c.isDigit = false) :
    statPpid (pre ++ ')' :: ' ' :: (state ++ ' ' :: (ppidtxt ++ tail))) =
      some (v, ppidtxt ++ tail) := by
  obtain ⟨hp0, hp1, hp2⟩ := hppid
  have hno : ')' ∉ ' ' :: (state ++ ' ' :: (ppidtxt ++ tail)) := by
    simp only [List.mem_cons, List.mem_append, not_or]
    refine ⟨by decide, hstate.2, by decide, ?_, htail.1⟩
    exact fun hm => (hp1 _ hm).2 rfl
  have h1 : skipFields 2 (')' :: ' ' :: (state ++ ' ' :: (ppidtxt ++ tail))) =
      some (ppidtxt ++ tail) := by
    have e1 : strchr (')' :: ' ' :: (state ++ ' ' :: (ppidtxt ++ tail))) ' ' =
        some (' ' :: (state ++ ' ' :: (ppidtxt ++ tail))) :=
      strchr_first [')'] _ ' ' (by decide)
    rw [skipFields, e1]
    simp only [List.tail_cons]
    exact skipFields_one state _ hstate.1
  have h2 : stoi (ppidtxt ++ tail) = some v := by
    unfold stoi at hp2 ⊢
    rw [stoInt_append 32 ppidtxt tail hp0 (fun c hc => (hp1 c hc).1) htail.2, hp2]
  unfold statPpid
  rw [strrchr_last pre _ ')' hno]
  simp only [h1, h2]

/-- C18: for every stat record of the form id, space, name in
parentheses, space, state, space, parent id, rest, where the name is any text
(spaces and parentheses included), no closing parenthesis comes after the
name, and the record is free of NUL and at most 4095 bytes long, the code of
source lines 525-537 finds the parent id `v` written in field 4, `parseStat`
goes on from there with `ppid = v`, and whenever it returns the record has
`ppid = v`. -/
theorem C18_ppid_after_last_paren (env : StatEnv) (idtxt name state ppidtxt tail content : List Char)
    (v : Int) (proc : Proc) (st : State)
    (hc : content =
      idtxt ++ " (".toList ++ name ++ ") ".toList ++ state ++ " ".toList ++ ppidtxt ++ tail)
    (hnul : Char.ofNat 0 ∉ content) (hlen : content.length ≤ 4095)
    (hstate : ' ' ∉ state ∧ ')' ∉ state)
    (hppid : ppidtxt ≠ [] ∧ (∀ c ∈ ppidtxt, isSpace c = false ∧ c ≠ ')') ∧ stoi ppidtxt = some v)
    (htail : ')' ∉ tail ∧ ∀ c, tail.head? = some c → c.isDigit = false) :
    statPpid (cStr (content.take 4095)) = some (v, ppidtxt ++ tail) ∧
      parseStat env (StatRead.data content) proc st =
        parseStatTail env (ppidtxt ++ tail) { proc with ppid := v } st ∧
      ∀ r, parseStat env (StatRead.data content) proc st = some r → r.proc.ppid = v := by
  have e0 : content =
      (idtxt ++ " (".toList ++ name) ++ ')' :: ' ' :: (state ++ ' ' :: (ppidtxt ++ tail)) := by
    rw [hc]
    simp only [String.toList, List.append_assoc, List.cons_append, List.nil_append]
  have h1 : statPpid (cStr (content.take 4095)) = some (v, ppidtxt ++ tail) := by
    rw [List.take_of_length_le hlen, cStr_of_not_mem content hnul, e0]
    exact statPpid_eq _ state ppidtxt tail v hstate hppid htail
  have h2 : parseStat env (StatRead.data content) proc st =
      parseStatTail env (ppidtxt ++ tail) { proc with ppid := v } st := by
    unfold parseStat
    simp only [h1]
  refine ⟨h1, h2, ?_⟩
  intro r hr
  rw [h2] at hr
  exact parseStatTail_ppid env _ _ st r hr

set_option maxRecDepth 100000

theorem C18_ppid_after_last_paren_witness :
    ∃ r, parseStat {} (StatRead.data sampleStat) { pid := 4242 } {} = some r ∧ r.proc.ppid = 1 :=
  ⟨{ code := 0, proc := { pid := 4242, ppid := 1 }, st := {}, err := [] }, by decide,
    (C18_ppid_after_last_paren {} "4242".toList "my (odd) name".toList "S".toList "1".toList
      (sampleStat.drop 24) sampleStat 1 { pid := 4242 } {} (by decide) (by decide) (by decide)
      (by decide) (by decide)
      ⟨by decide, fun c hc => by
        have e : c = ' ' := (Option.some.inj hc).symm
        rw [e]; decide⟩).2.2 _ (by decide)⟩

theorem mem_joinSp (fs : List (List Char)) (c : Char) (h : c ∈ joinSp fs) :
    c = ' ' ∨ ∃ f ∈ fs, c ∈ f := by
  induction fs with
  | nil => simp [joinSp] at h
  | cons f fs1 ih =>
    cases fs1 with
    | nil => exact Or.inr ⟨f, List.mem_cons_self _ _, h⟩
    | cons g gs =>
      rw [joinSp_cons_cons, List.mem_append, List.mem_cons] at h
      rcases h with h | h | h
      · exact Or.inr ⟨f, List.mem_cons_self _ _, h⟩
      · exact Or.inl h
      · rcases ih h with e | ⟨x, hx, hcx⟩
        · exact Or.inl e
        · exact Or.inr ⟨x, List.mem_cons_of_mem _ hx, hcx⟩

theorem skipFields_drop (n k : Nat) (fs : List (List Char)) (trail : List Char)
    (hfs : ∀ f ∈ fs, ' ' ∉ f) (hn : k + n < fs.length) :
    skipFields n (joinSp (fs.drop k) ++ trail) = some (joinSp (fs.drop (k + n)) ++ trail) := by
  rw [skipFields_joinSp n (fs.drop k) trail (fun f hf => hfs f (List.mem_of_mem_drop hf))
    (by rw [List.length_drop]; omega), List.drop_drop, Nat.add_comm]

/-- The number read at field `n` of a text of fields without white space. -/
theorem stoInt_field (bits n : Nat) (fs : List (List Char)) (trail f : List Char)
    (hfs : ∀ f ∈ fs, f ≠ [] ∧ ∀ c ∈ f, isSpace c = false)
    (htrail : ∀ c, trail.head? = some c → c.isDigit = false) (h : fs[n]? = some f) :
    stoInt bits (joinSp (fs.drop n) ++ trail) = stoInt bits f := by
  obtain ⟨t, ht, htc⟩ := joinSp_drop n fs f h
  have hmem : f ∈ fs := List.getElem?_mem h
  rw [ht, List.append_assoc]
  apply stoInt_append bits f _ (hfs f hmem).1 (hfs f hmem).2
  intro c hc
  rcases htc with e | e
  · rw [e, List.nil_append] at hc
    exact htrail c hc
  · cases t with
    | nil => simp at e
    | cons y t1 =>
      simp only [List.head?_cons, Option.some.injEq] at e
      simp only [List.cons_append, List.head?_cons, Option.some.injEq] at hc
      rw [← hc, e]
      decide

theorem tdiv_in_range (a b : Int) (ha : 0 ≤ a) (ha2 : a < 9223372036854775808) (hb : 0 < b) :
    wrapInt 64 ((wrapInt 64 a).tdiv b) = a / b := by
  rw [wrapInt_64_of_range a (by omega) ha2, Int.tdiv_eq_ediv ha (le_of_lt hb)]
  have h1 : 0 ≤ a / b := Int.ediv_nonneg ha (le_of_lt hb)
  have h2 : a / b ≤ a := Int.ediv_le_self b ha
  exact wrapInt_64_of_range _ (by omega) (by omega)

theorem statTimes_eq (env : StatEnv) (utime stime start uptime : Int) (del15 del22 : List Char)
    (proc : Proc) (st : State) (hcpu : env.show_col_cpu = true)
    (hs : stoll del15 = some stime) (hsk : skipFields 7 del15 = some del22)
    (hst : stoll del22 = some start) (hup : env.sysinfo = Except.ok uptime)
    (hu0 : 0 ≤ utime) (hs0 : 0 ≤ stime) (hst0 : 0 ≤ start) (hup0 : 0 ≤ uptime)
    (hr1 : 1000 * (utime + stime) < 2 ^ 63) (hr2 : 1000 * start < 2 ^ 63)
    (hr3 : 1000 * uptime < 2 ^ 63) (htck : 0 < env.SC_CLK_TCK) :
    statTimes env utime del15 proc st =
      some { code := 0,
             proc := { proc with
               cpuTime := 1000 * (utime + stime) / env.SC_CLK_TCK,
               age := 1000 * uptime - 1000 * start / env.SC_CLK_TCK },
             st := st, err := [] } := by
  have hne : ¬ env.SC_CLK_TCK = 0 := by omega
  norm_num at hr1 hr2 hr3
  have e1 : wrapInt 64 (utime + stime) = utime + stime :=
    wrapInt_64_of_range _ (by omega) (by omega)
  have e2 := tdiv_in_range (1000 * (utime + stime)) env.SC_CLK_TCK (by omega) hr1 htck
  have e3 := tdiv_in_range (1000 * start) env.SC_CLK_TCK (by omega) hr2 htck
  have e4 : wrapInt 64 (1000 * uptime) = 1000 * uptime :=
    wrapInt_64_of_range _ (by omega) hr3
  have h1 : 0 ≤ 1000 * start / env.SC_CLK_TCK := Int.ediv_nonneg (by omega) (le_of_lt htck)
  have h2 : 1000 * start / env.SC_CLK_TCK ≤ 1000 * start := Int.ediv_le_self _ (by omega)
  have e5 : wrapInt 64 (1000 * uptime - 1000 * start / env.SC_CLK_TCK) =
      1000 * uptime - 1000 * start / env.SC_CLK_TCK :=
    wrapInt_64_of_range _ (by omega) (by omega)
  unfold statTimes statCpu
  simp only [hcpu, if_true, hs, hne, if_false, hsk, hup, hst, e1, e2, e3, e4, e5]

/-- C19: for every stat record of at most 4095 bytes, free of NUL, whose
text after the name in parentheses is a list of at least 20 fields (fields 3
to 22 and on) without white space or closing parenthesis, separated by single
spaces, with decimal numbers in fields 4, 14, 15 and 22 (and in field 7 when
the terminal column is shown), with the cpu and age columns on, the record
not kernel-filtered, a positive tick rate, a successful uptime query and
values for which the products by 1000 fit 64 bits, `parseStat` returns with
`cpuTime = floor(1000 * (utime + stime) / SC_CLK_TCK)` and
`age = 1000 * uptime - floor(1000 * start / SC_CLK_TCK)`, where `utime`,
`stime` and `start` are the numbers of fields 14, 15 and 22. -/
theorem C19_cpu_time_and_age (env : StatEnv) (idtxt name trail content : List Char)
    (fs : List (List Char)) (f4 f7 f14 f15 f22 : List Char)
    (ppid utime stime start uptime : Int) (proc : Proc) (st : State)
    (hc : content = idtxt ++ " (".toList ++ name ++ ") ".toList ++ joinSp fs ++ trail)
    (hnul : Char.ofNat 0 ∉ content) (hlen : content.length ≤ 4095)
    (hfs : ∀ f ∈ fs, f ≠ [] ∧ ∀ c ∈ f, isSpace c = false ∧ c ≠ ')')
    (htrail : ')' ∉ trail ∧ ∀ c, trail.head? = some c → c.isDigit = false)
    (h4 : fs[1]? = some f4) (h7 : fs[4]? = some f7) (h14 : fs[11]? = some f14)
    (h15 : fs[12]? = some f15) (h22 : fs[19]? = some f22)
    (hcols : env.show_col_cpu = true ∧ env.show_col_age = true)
    (hppid : stoi f4 = some ppid) (hkernel : ¬ (env.skipKernel = true ∧ ppid = 2))
    (htty : env.show_col_tty = true → (stoi f7).isSome = true)
    (hu : stoll f14 = some utime ∧ 0 ≤ utime) (hs : stoll f15 = some stime ∧ 0 ≤ stime)
    (hst : stoll f22 = some start ∧ 0 ≤ start)
    (hup : env.sysinfo = Except.ok uptime ∧ 0 ≤ uptime)
    (hrange : 1000 * (utime + stime) < 2 ^ 63 ∧ 1000 * start < 2 ^ 63 ∧ 1000 * uptime < 2 ^ 63)
    (htck : 0 < env.SC_CLK_TCK) :
    ∃ r, parseStat env (StatRead.data content) proc st = some r ∧
      r.proc.cpuTime = 1000 * (utime + stime) / env.SC_CLK_TCK ∧
      r.proc.age = 1000 * uptime - 1000 * start / env.SC_CLK_TCK ∧
      r.proc.ppid = ppid ∧ r.proc.failed = proc.failed := by
  have hlen20 : 19 < fs.length := by
    by_contra hcon
    rw [List.getElem?_eq_none (by omega)] at h22
    simp at h22
  have hsp : ∀ f ∈ fs, ' ' ∉ f := fun f hf hm => by
    have := ((hfs f hf).2 ' ' hm).1
    revert this; decide
  have hws : ∀ f ∈ fs, f ≠ [] ∧ ∀ c ∈ f, isSpace c = false :=
    fun f hf => ⟨(hfs f hf).1, fun c hc => ((hfs f hf).2 c hc).1⟩
  have e0 : content = (idtxt ++ " (".toList ++ name) ++ ')' :: ' ' :: (joinSp fs ++ trail) := by
    rw [hc]
    simp only [String.toList, List.append_assoc, List.cons_append, List.nil_append]
  have hno : ')' ∉ ' ' :: (joinSp fs ++ trail) := by
    simp only [List.mem_cons, List.mem_append, not_or]
    refine ⟨by decide, ?_, htrail.1⟩
    intro hm
    rcases mem_joinSp fs _ hm with e | ⟨f, hf, hcf⟩
    · revert e; decide
    · exact ((hfs f hf).2 _ hcf).2 rfl
  -- the positions of `del`
  have hdel4 : skipFields 2 (')' :: ' ' :: (joinSp fs ++ trail)) =
      some (joinSp (fs.drop 1) ++ trail) := by
    have e1 : strchr (')' :: ' ' :: (joinSp fs ++ trail)) ' ' =
        some (' ' :: (joinSp fs ++ trail)) := strchr_first [')'] _ ' ' (by decide)
    rw [skipFields, e1]
    simp only [List.tail_cons]
    exact skipFields_joinSp 1 fs trail hsp (by omega)
  have hdel7 := skipFields_drop 3 1 fs trail hsp (by omega)
  have hdel14 := skipFields_drop 7 4 fs trail hsp (by omega)
  have hdel15 := skipFields_drop 1 11 fs trail hsp (by omega)
  have hdel22 := skipFields_drop 7 12 fs trail hsp (by omega)
  simp only [Nat.reduceAdd] at hdel7 hdel14 hdel15 hdel22
  -- the numbers read there
  have n4 : stoi (joinSp (fs.drop 1) ++ trail) = some ppid := by
    unfold stoi at hppid ⊢
    rw [stoInt_field 32 1 fs trail f4 hws htrail.2 h4, hppid]
  have n7 : env.show_col_tty = true → (stoi (joinSp (fs.drop 4) ++ trail)).isSome = true := by
    intro ht
    have := htty ht
    unfold stoi at this ⊢
    rw [stoInt_field 32 4 fs trail f7 hws htrail.2 h7]
    exact this
  have n14 : stoll (joinSp (fs.drop 11) ++ trail) = some utime := by
    have := hu.1
    unfold stoll at this ⊢
    rw [stoInt_field 64 11 fs trail f14 hws htrail.2 h14, this]
  have n15 : stoll (joinSp (fs.drop 12) ++ trail) = some stime := by
    have := hs.1
    unfold stoll at this ⊢
    rw [stoInt_field 64 12 fs trail f15 hws htrail.2 h15, this]
  have n22 : stoll (joinSp (fs.drop 19) ++ trail) = some start := by
    have := hst.1
    unfold stoll at this ⊢
    rw [stoInt_field 64 19 fs trail f22 hws htrail.2 h22, this]
  -- the stages
  have s1 : statPpid (cStr (content.take 4095)) = some (ppid, joinSp (fs.drop 1) ++ trail) := by
    rw [List.take_of_length_le hlen, cStr_of_not_mem content hnul, e0]
    unfold statPpid
    rw [strrchr_last _ _ ')' hno]
    simp only [hdel4, n4]
  obtain ⟨proc1, hp1⟩ : ∃ proc1,
      statTty env (joinSp (fs.drop 4) ++ trail) { proc with ppid := ppid } = some proc1 := by
    unfold statTty
    cases ht : env.show_col_tty with
    | false => exact ⟨_, rfl⟩
    | true =>
      obtain ⟨dev, hdev⟩ := Option.isSome_iff_exists.1 (n7 ht)
      rw [hdev]
      exact ⟨_, rfl⟩
  obtain ⟨q1, q2, q3, q4⟩ := statTty_ppid env _ _ _ hp1
  have s3 := statTimes_eq env utime stime start uptime (joinSp (fs.drop 12) ++ trail)
    (joinSp (fs.drop 19) ++ trail) proc1 st hcols.1 n15 hdel22 n22 hup.1 hu.2 hs.2 hst.2 hup.2
    hrange.1 hrange.2.1 hrange.2.2 htck
  have s2 : statCpuAge env (joinSp (fs.drop 4) ++ trail) proc1 st =
      some { code := 0,
             proc := { proc1 with
               cpuTime := 1000 * (utime + stime) / env.SC_CLK_TCK,
               age := 1000 * uptime - 1000 * start / env.SC_CLK_TCK },
             st := st, err := [] } := by
    unfold statCpuAge
    simp only [hcols.1, hcols.2, Bool.not_true, Bool.and_self, Bool.false_eq_true, if_false,
      hdel14, if_true, n14, hdel15, s3]
  have hk : (env.skipKernel && ppid == 2) = false := by
    cases hsk : env.skipKernel with
    | false => rfl
    | true =>
      have : ¬ ppid = 2 := fun e => hkernel ⟨hsk, e⟩
      simpa using this
  refine ⟨{ code := 0,
            proc := { proc1 with
              cpuTime := 1000 * (utime + stime) / env.SC_CLK_TCK,
              age := 1000 * uptime - 1000 * start / env.SC_CLK_TCK },
            st := st, err := [] }, ?_, rfl, rfl, q1, q2⟩
  unfold parseStat
  simp only [s1]
  unfold parseStatTail
  simp only [hk, Bool.false_eq_true, if_false, hdel7, hp1, s2]

theorem C19_cpu_time_and_age_witness :
    ∃ r, parseStat sampleStatEnv (StatRead.data sampleStat) { pid := 4242 } {} = some r ∧
      r.proc.cpuTime = 3000 ∧ r.proc.age = 50000 :=
  (C19_cpu_time_and_age sampleStatEnv "4242".toList "my (odd) name".toList "\n".toList sampleStat
    sampleFields "1".toList "34817".toList "250".toList "50".toList "5000".toList
    1 250 50 5000 100 { pid := 4242 } {} rfl (by decide) (by decide) (by decide)
    ⟨by decide, fun c hc => by
      have e : c = '\n' := (Option.some.inj hc).symm
      rw [e]; decide⟩
    rfl rfl rfl rfl rfl ⟨rfl, rfl⟩ (by decide) (by decide) (fun _ => by decide)
    ⟨by decide, by decide⟩ ⟨by decide, by decide⟩ ⟨by decide, by decide⟩ ⟨rfl, by decide⟩
    ⟨by decide, by decide, by decide⟩ (by decide)).imp
    (fun _ h => ⟨h.1, h.2.1.trans (by decide), h.2.2.1.trans (by decide)⟩)

/-! ### Duplicate ids -/

/-- C21 (as stated, refuted): with kernel threads skipped, a record that has
not failed and is no thread, whose id 5 is already a key of `procMap` and
whose parent is the kernel-thread anchor, makes `createProc` return 0, and
the scan goes on to the next record. -/
theorem C21_counterexample :
    (mapFind (scanProcs true [{ pid := 5, ppid := 1, cmdline := "a" }] {}).2.procMap 5).isSome
        = true ∧
      (createProc true { pid := 5, ppid := 2, cmdline := "b" }
        (scanProcs true [{ pid := 5, ppid := 1, cmdline := "a" }] {}).2).1 = 0 ∧
      (scanProcs true duplicateProcs {}).1 = 0 ∧
      (mapFind (scanProcs true duplicateProcs {}).2.procMap 6).isSome = true := by
  refine ⟨by decide, by decide, by decide, by decide⟩

/-- C21 (amended): for a record that has not failed, is no thread and is not
kernel-skipped, and whose id is already a key of `procMap`, `createProc`
returns 1 and leaves the whole state, `procMap` and `childMap` included, as it
was; the scan stops there with result 1, whatever records follow, and so does
the scan through the callback of `main`. -/
theorem C21_duplicate_id_stops_scan (skipKernel : Bool) (proc : Proc) (st : State)
    (hfailed : proc.failed = false) (htid : proc.tid = 0)
    (hkernel : kernelSkipped skipKernel proc = false)
    (hdup : (mapFind st.procMap proc.pid).isSome = true) :
    createProc skipKernel proc st = (1, st) ∧
      (∀ rest, scanProcs skipKernel (proc :: rest) st = (1, st)) ∧
      (∀ recordOf ids, recordOf proc.pid = proc →
        runCb (scanCb skipKernel recordOf) (proc.pid :: ids) st = (1, st)) := by
  have hcol : collected skipKernel proc = true := by
    simp [collected, hkernel, htid, hfailed]
  have h1 : createProc skipKernel proc st = (1, st) := by
    rw [createProc_eq, if_neg (by simp [hkernel]), if_pos hcol, if_pos hdup]
  refine ⟨h1, ?_, ?_⟩
  · intro rest
    rw [scanProcs, h1]
    rfl
  · intro recordOf ids hrec
    rw [runCb]
    simp only [scanCb, hrec, h1]
    rfl

theorem C21_duplicate_id_stops_scan_witness :
    scanProcs false duplicateProcs {} =
      (1, (scanProcs false [{ pid := 5, ppid := 1, cmdline := "a" }] {}).2) :=
  (by decide : scanProcs false duplicateProcs {} =
      scanProcs false [{ pid := 5, ppid := 2, cmdline := "b" }, { pid := 6, ppid := 1, cmdline := "c" }]
        (scanProcs false [{ pid := 5, ppid := 1, cmdline := "a" }] {}).2).trans
    ((C21_duplicate_id_stops_scan false { pid := 5, ppid := 2, cmdline := "b" }
      (scanProcs false [{ pid := 5, ppid := 1, cmdline := "a" }] {}).2 rfl rfl (by decide)
      (by decide)).2.1 [{ pid := 6, ppid := 1, cmdline := "c" }])

/-! ### The indices after a scan -/

/-- C22: after `createProc` has been applied, from empty tables, to any
sequence of records with pairwise distinct ids, no call has failed, `procMap`
holds under every id exactly the record of the sequence with that id that is
not failed, not a thread and not kernel-skipped, and `childMap[q]` is, for
every parent id `q`, the list of exactly those records whose parent id is `q`,
each once, in the order of the sequence. -/
theorem C22_indices_after_scan (skipKernel : Bool) (rs : List Proc)
    (hnd : (rs.map Proc.pid).Nodup) :
    (scanProcs skipKernel rs {}).1 = 0 ∧
      (∀ k v, mapFind (scanProcs skipKernel rs {}).2.procMap k = some v ↔
        v ∈ rs ∧ v.failed = false ∧ v.tid = 0 ∧ kernelSkipped skipKernel v = false ∧ v.pid = k) ∧
      (∀ q, childrenOf (scanProcs skipKernel rs {}).2 q =
        rs.filter (fun r => collected skipKernel r && r.ppid == q)) ∧
      (∀ q, (childrenOf (scanProcs skipKernel rs {}).2 q).Nodup ∧
        (childrenOf (scanProcs skipKernel rs {}).2 q).Sublist rs) := by
  obtain ⟨h0, ha⟩ := scanProcs_assembled skipKernel rs [] {} (Assembled.empty_scan skipKernel)
    (by simpa using hnd)
  rw [List.nil_append] at ha
  have hch : ∀ q, childrenOf (scanProcs skipKernel rs {}).2 q =
      rs.filter (fun r => collected skipKernel r && r.ppid == q) := by
    intro q
    unfold childrenOf
    rw [ha.childChar q]
    by_cases he : rs.filter (fun r => collected skipKernel r && r.ppid == q) = []
    · rw [if_pos he, he]; rfl
    · rw [if_neg he]; rfl
  refine ⟨h0, ?_, hch, ?_⟩
  · intro k v
    rw [ha.procChar k v]
    simp only [collected, Bool.and_eq_true, Bool.not_eq_true', beq_iff_eq]
    constructor
    · rintro ⟨h1, ⟨⟨h2, h3⟩, h4⟩, h5⟩
      exact ⟨h1, h4, h3, h2, h5⟩
    · rintro ⟨h1, h4, h3, h2, h5⟩
      exact ⟨h1, ⟨⟨h2, h3⟩, h4⟩, h5⟩
  · intro q
    rw [hch q]
    exact ⟨(List.Nodup.of_map _ hnd).filter _, List.filter_sublist _⟩

theorem C22_indices_after_scan_witness :
    (scanProcs true mixedProcs {}).1 = 0 ∧
      (scanProcs true mixedProcs {}).2.procMap.map Prod.fst = [1, 7, 9] ∧
      childrenOf (scanProcs true mixedProcs {}).2 1 =
        [{ pid := 9, ppid := 1, cmdline := "late" }, { pid := 7, ppid := 1, cmdline := "early" }] :=
  ⟨(C22_indices_after_scan true mixedProcs (by decide)).1, by decide,
    ((C22_indices_after_scan true mixedProcs (by decide)).2.2.1 1).trans (by decide)⟩

/-! ### Durations of 24856 days and more -/

/-- C23 (evaluation at the failing input): for 2,147,558,400 seconds, which
are 24856 days exactly, the product `d * (60 * 60 * 24)` does not fit an
`int`; with wrap-around the result is "24856d1193046h", where the coarsest
unit with its next finer unit gives "24856d".  The three examples of the
claim come out as stated. -/
theorem C23_overflow_from_24856_days :
    toReadableTime 2147558400 = "24856d1193046h" ∧
      coarsestWithNext 2147558400 = "24856d" ∧
      (24856 : Int) * (60 * 60 * 24) = 2147558400 ∧ (2147558400 : Int) > 2 ^ 31 - 1 ∧
      toReadableTime 3661 = "1h1m" ∧ toReadableTime 45 = "45s" ∧ toReadableTime 0 = "0s" := by
  refine ⟨by decide, by decide, by decide, by decide, by decide, by decide, by decide⟩

/-! ### Lines in a terminal of unknown width -/

theorem toSizeT_undetected_ascii (len : Nat) :
    toSizeT (-1 + (len : Int) - (len : Int)) = 2 ^ 64 - 1 := by
  have e : (-1 : Int) + (len : Int) - (len : Int) = -1 := by omega
  rw [e]
  decide

/-- With `TERM_COLS = -1` a line of ASCII bytes is written in full. -/
theorem printProc_undetected_ascii (s : List Nat) (h : ∀ b ∈ s, b < 0x80)
    (hlen : s.length < 2 ^ 64) : printProc false (-1) s = some s := by
  unfold printProc
  simp only [Bool.false_eq_true, if_false, wideLength_ascii s h]
  rw [toSizeT_undetected_ascii s.length, List.take_of_length_le (by omega)]

/-- C26 (evaluation at the failing input): with `TERM_COLS = -1` the line
"café" (5 bytes, 4 characters) is cut to nothing, the line "ééé" to its first
two bytes, and for the byte FF, which is no UTF-8, the conversion throws. -/
theorem C26_undetected_width_cuts_multibyte :
    utf8 "café" = [99, 97, 102, 0xC3, 0xA9] ∧
      printProc false (-1) [99, 97, 102, 0xC3, 0xA9] = some [] ∧
      printProc false (-1) (utf8 "ééé") = some [0xC3, 0xA9] ∧
      printProc false (-1) [0xFF] = none := by
  refine ⟨by decide, by decide, by decide, by decide⟩

/-! ### Digit tokens -/

/-- A token of digits whose value `stoi` can hold goes to the target set if
its value is a key of `procMap`, and never to `matchCmd`. -/
theorem parseArg_digits (env : ArgEnv) (str : String) (a a1 : ArgState) (pid : Int)
    (hno : env.noPid = false) (hnum : isNumber str.toList = true)
    (hpid : stoi (cStr str.toList) = some pid) (h : parseArg env str a = some a1) :
    a1.pidList =
      if (mapFind a.st.procMap pid).isSome then setInsert a.pidList pid else a.pidList := by
  unfold parseArg at h
  simp only [hno, Bool.not_false, hnum, Bool.and_self, if_true, hpid] at h
  by_cases hk : (mapFind a.st.procMap pid).isSome = true
  · rw [if_pos hk] at h ⊢
    cases h; rfl
  · rw [if_neg hk] at h ⊢
    split at h
    · split at h
      · cases h; rfl
      · split at h <;> (cases h; rfl)
    · cases h; rfl

/-- C27 (evaluation at the failing input): the token "2147483648" consists of
decimal digits only, so `parseArgs` hands it to `stoi`, which throws because
the value is not below 2^31; the run does not complete, whatever the state,
the target set and the other options. -/
theorem C27_long_digit_token_throws (env : ArgEnv) (st : State) (pidList : List Int)
    (rest : List String) (hno : env.noPid = false) :
    isNumber "2147483648".toList = true ∧ stoi "2147483648".toList = none ∧
      parseArgs env ("2147483648" :: rest) st pidList = none := by
  have h1 : isNumber "2147483648".toList = true := by decide
  have h2 : stoi (cStr "2147483648".toList) = none := by decide
  refine ⟨h1, by decide, ?_⟩
  unfold parseArgs
  rw [parseArgsLoop]
  unfold parseArg
  simp only [hno, Bool.not_false, h1, Bool.and_self, if_true, h2]

theorem C27_long_digit_token_throws_witness :
    parseArgs {} ["2147483648"] (scanProcs true sampleProcs {}).2 [] = none :=
  (C27_long_digit_token_throws {} (scanProcs true sampleProcs {}).2 [] [] rfl).2.2

/-! ### Termination of the walk -/

theorem printChildren_congr (walk1 walk2 : Int → List TreeEntry → State → Option State)
    (hp : Bool)
    (h : ∀ pid tree st st1, walk1 pid tree st = some st1 → walk2 pid tree st = some st1) :
    ∀ (cs : List Proc) (tree : List TreeEntry) (st st1 : State),
      printChildren walk1 hp cs tree st = some st1 →
      printChildren walk2 hp cs tree st = some st1 := by
  intro cs
  induction cs with
  | nil => intro tree st st1 hr; exact hr
  | cons c rest ih =>
    intro tree st st1 hr
    rw [printChildren] at hr ⊢
    cases hw : walk1 c.pid tree st with
    | none => rw [hw] at hr; exact absurd hr (by simp)
    | some s =>
      rw [hw] at hr
      rw [h _ _ _ _ hw]
      dsimp only at hr ⊢
      by_cases ht : s.thrown = true
      · rw [if_pos ht] at hr ⊢
        exact hr
      · rw [if_neg ht] at hr ⊢
        exact ih _ _ _ hr

/-- A larger bound on the depth does not change the result of the walk. -/
theorem printPidTreeFuel_mono (env : Env) :
    ∀ (n m : Nat) (pid : Int) (tree : List TreeEntry) (st st1 : State), n ≤ m →
      printPidTreeFuel env n pid tree st = some st1 →
      printPidTreeFuel env m pid tree st = some st1 := by
  intro n
  induction n with
  | zero => intro m pid tree st st1 _ h; simp [printPidTreeFuel] at h
  | succ k ih =>
    intro m pid tree st st1 hle h
    obtain ⟨j, rfl⟩ : ∃ j, m = j + 1 := ⟨m - 1, by omega⟩
    rw [printPidTreeFuel_succ] at h ⊢
    by_cases ht : (ownStep env pid tree st).thrown = true
    · rw [if_pos ht] at h ⊢
      exact h
    rw [if_neg ht] at h ⊢
    by_cases hc : hasChildren env st pid = true
    · rw [if_pos hc] at h ⊢
      exact printChildren_congr _ _ _
        (fun p t s s1 hw => ih j p t s s1 (by omega) hw) _ _ _ _ h
    · rw [if_neg hc] at h ⊢
      exact h

/-- A call of the walk never adds an entry to `childMap`. -/
theorem Walks.childMap_length_le {env : Env} {pid : Int} {tree : List TreeEntry}
    {st st1 : State} (h : Walks env pid tree st st1) :
    st1.childMap.length ≤ st.childMap.length := by
  obtain ⟨fuel, hf, hok⟩ := h
  refine printPidTreeFuel_induct env (fun _ _ s s1 => s1.childMap.length ≤ s.childMap.length)
    ?_ ?_ fuel pid tree st st1 hf hok
  · intro pid tree st _ _
    rw [ownStep_childMap]
  · intro pid tree st st1 _ _ hrel
    have h0 : (eraseChildren (ownStep env pid tree st) pid).childMap.length ≤
        st.childMap.length := by
      show (mapErase (ownStep env pid tree st).childMap pid).length ≤ _
      rw [ownStep_childMap]
      exact mapErase_length_le _ _
    generalize eraseChildren (ownStep env pid tree st) pid = s0 at hrel h0
    generalize childTree (hasParent st pid) tree (childrenOf st pid) = t0 at hrel
    generalize childrenOf st pid = cs at hrel
    induction hrel with
    | nil _ _ => exact h0
    | cons _ _ _ _ _ _ hr _ ih => exact ih (le_trans hr h0)

/-- In a loop over the children every call starts with no more entries of
`childMap` than the loop. -/
theorem ChildrenRel.starts_bounded {env : Env} {hp : Bool} {cs : List Proc}
    {tree : List TreeEntry} {st st1 : State} (n : Nat)
    (h : ChildrenRel (fun p t a b => Walks env p t a b) hp cs tree st st1)
    (hn : st.childMap.length < n) :
    ChildrenRel (fun p t a b => Walks env p t a b ∧ a.childMap.length < n) hp cs tree st st1 := by
  induction h with
  | nil tree st => exact ChildrenRel.nil tree st
  | cons proc rest tree st st1 st2 hw _ ih =>
    exact ChildrenRel.cons proc rest tree st st1 st2 ⟨hw, hn⟩
      (ih (lt_of_le_of_lt hw.childMap_length_le hn))

/-- C24: `printPidTree` returns for every state of the tables (none is
excluded, so also one whose parent links form a cycle), every start id and
every marker list, with the same result for every larger bound on the depth
than the number of `childMap` entries; and in every call that recurses, each
of the recursive calls of its loop starts in a state with strictly fewer
`childMap` entries than the call itself started with, because the entry of
the id is erased first. -/
theorem C24_printPidTree_terminates (env : Env) (pid : Int) (tree : List TreeEntry)
    (st : State) :
    (∃ st1, printPidTree env pid tree st = some st1 ∧
      ∀ fuel, st.childMap.length < fuel → printPidTreeFuel env fuel pid tree st = some st1) ∧
    (hasChildren env st pid = true →
      (eraseChildren (ownStep env pid tree st) pid).childMap.length < st.childMap.length) ∧
    (∀ st1, Walks env pid tree st st1 → hasChildren env st pid = true →
      ChildrenRel (fun p t a b => Walks env p t a b ∧ a.childMap.length < st.childMap.length)
        (hasParent st pid) (childrenOf st pid)
        (childTree (hasParent st pid) tree (childrenOf st pid))
        (eraseChildren (ownStep env pid tree st) pid) st1) := by
  have herase : hasChildren env st pid = true →
      (eraseChildren (ownStep env pid tree st) pid).childMap.length < st.childMap.length := by
    intro hc
    show (mapErase (ownStep env pid tree st).childMap pid).length < _
    rw [ownStep_childMap]
    apply mapErase_length_lt
    simp only [hasChildren, Bool.and_eq_true] at hc
    exact hc.2
  refine ⟨?_, herase, ?_⟩
  · obtain ⟨st1, h1⟩ := printPidTree_total env pid tree st
    refine ⟨st1, h1, ?_⟩
    intro fuel hf
    exact printPidTreeFuel_mono env _ fuel pid tree st st1 (by omega) h1
  · intro st1 hw hc
    obtain ⟨fuel, hf, hok⟩ := hw
    cases fuel with
    | zero => simp [printPidTreeFuel] at hf
    | succ n =>
      rw [printPidTreeFuel_succ] at hf
      have hown : ¬ (ownStep env pid tree st).thrown = true := by
        intro ht
        rw [if_pos ht] at hf
        simp only [Option.some.injEq] at hf
        subst hf
        rw [ht] at hok
        exact absurd hok (by simp)
      rw [if_neg hown, if_pos hc] at hf
      have hrel := printChildren_rel (printPidTreeFuel env n)
        (fun p t a b => Walks env p t a b) (hasParent st pid)
        (fun p t a b hw hk => ⟨n, hw, hk⟩) _ _ _ _ hf hok
      exact ChildrenRel.starts_bounded _ hrel (herase hc)

theorem C24_printPidTree_terminates_witness :
    ∃ st1, printPidTree {} 3 [] (scanProcs true cycleProcs {}).2 = some st1 ∧
      st1.out = [Line.own { pid := 3, ppid := 4, cmdline := "a" } "",
                 Line.own { pid := 4, ppid := 3, cmdline := "b" } "╰─┬╴"] := by
  obtain ⟨st1, h, _⟩ := (C24_printPidTree_terminates {} 3 [] (scanProcs true cycleProcs {}).2).1
  refine ⟨st1, h, ?_⟩
  have e : (printPidTree {} 3 [] (scanProcs true cycleProcs {}).2).map (fun st => st.out) =
      some [Line.own { pid := 3, ppid := 4, cmdline := "a" } "",
            Line.own { pid := 4, ppid := 3, cmdline := "b" } "╰─┬╴"] := by decide
  rw [h] at e
  exact Option.some.inj e

/-! ### Connectors after consumed children -/

/-- C25 (evaluation at the failing input): with the targets 5 and 10 the
subtree of 5 is printed first; under 10, printed next, the first child 7 is
then the only and last child row, and it carries the tee, because the second
child 5, already consumed, is still counted as a sibling. -/
theorem C25_last_printed_child_with_tee :
    (render {} [5, 10] (scanProcs true nestedProcs {}).2).map (fun st => st.out) =
      some [Line.own { pid := 5, ppid := 10, cmdline := "y" } "",
            Line.own { pid := 6, ppid := 5, cmdline := "z" } "╰──╴",
            Line.own { pid := 10, ppid := 1, cmdline := "x" } "",
            Line.own { pid := 7, ppid := 10, cmdline := "w" } "├──╴"] ∧
      childrenOf (scanProcs true nestedProcs {}).2 10 =
        [{ pid := 7, ppid := 10, cmdline := "w" }, { pid := 5, ppid := 10, cmdline := "y" }] := by
  refine ⟨by decide, by decide⟩

end Pst
